import Mathlib

/-!
# fbox agent framework: base agent and cached agent

A shallow embedding of `src/simulate/agent_impl.h` (`basic_agent_impl`, the
linked-object policies) and `src/simulate/cached_agent.h`
(`basic_cached_agent`), followed by the properties proved about them.

Conventions of the embedding

* `time_type` and `duration_type` are the repository default `int`, taken as the
  unbounded `Int` (no claim below depends on the value of a difference that
  could overflow).
* The virtual hooks `init_impl`, `reset_impl`, `update_impl` are a record of
  functions.  A hook reads every member of the agent and the world outside it
  (its dependencies, the members a derived class adds) and writes `m_state`;
  `reset_impl` may also write `m_live` (as `memory::reset_impl` does) and
  `update_impl` returns the value `update` assigns to `m_live`.
* A dependency is an object with the three virtual lifecycle methods, acting on
  the world outside the agent.  `independent_linked_policy` is the empty list of
  dependencies, a connected `single_item_linked_policy` the one-element list,
  `linked_list_policy` the list in `connect` order.
* `calls` is a ghost record of what the agent itself invoked: its own hooks and
  the calls its linked policy forwarded (with the position of the dependency).
-/

namespace fbox
namespace simulate

/-- Data members of `basic_agent_impl` (`m_elapsed` is declared but never
read or written and is left out).  `mp_rnd` is the address of the generator,
`0` being the null pointer. -/
structure basic_agent_impl (S : Type) where
  m_init : Bool
  m_reset : Bool
  m_live : Bool
  m_state : S
  m_state0 : S
  m_time : Int
  m_start : Int
  m_end : Int
  m_dtime : Int
  mp_rnd : Nat
  deriving DecidableEq, Repr

/-- Constructor `basic_agent_impl()`: every member value-initialised, the three
flags false, null generator. -/
def basic_agent_impl.ctor {S : Type} (s : S) : basic_agent_impl S :=
  { m_init := false, m_reset := false, m_live := false, m_state := s, m_state0 := s,
    m_time := 0, m_start := 0, m_end := 0, m_dtime := 0, mp_rnd := 0 }

/-- Ghost record of one call made by an agent: one of its own hooks, or a
lifecycle call forwarded by its linked policy to the dependency at position `i`. -/
inductive call where
  | init_impl
  | reset_impl
  | update_impl
  | linked_init (i : Nat) (start stop : Int) (rnd : Nat)
  | linked_reset (i : Nat)
  | linked_update (i : Nat) (t : Int)
  deriving DecidableEq, Repr

/-- A dependency (`_linked_type`, pointer-like): its virtual `init`, `reset`
and `update`, acting on the world `W` in which the dependencies live. -/
structure linked_type (W : Type) where
  init : Int → Int → Nat → W → W
  reset : W → W
  update : Int → W → W

/-- The virtual hooks of an agent class. -/
structure agent_hooks (S W : Type) where
  init_impl : basic_agent_impl S → W → S × W
  reset_impl : basic_agent_impl S → W → S × Bool × W
  update_impl : basic_agent_impl S → W → S × Bool × W

/-- The hooks as `basic_agent_impl` defines them: `init_impl() {}`,
`reset_impl() {}`, `update_impl() { return true; }`. -/
def agent_hooks.default (S W : Type) : agent_hooks S W :=
  { init_impl := fun a w => (a.m_state, w),
    reset_impl := fun a w => (a.m_state, a.m_live, w),
    update_impl := fun a w => (a.m_state, true, w) }

/-- An agent together with the world outside it and the ghost call record. -/
structure machine (S W : Type) where
  self : basic_agent_impl S
  world : W
  calls : List call

/-- The loop of `linked_list_policy::init`; `i` is the position of the head of
the remaining list. -/
def linked_list_policy.init {W : Type} (start stop : Int) (rnd : Nat) :
    List (linked_type W) → Nat → W × List call → W × List call
  | [], _, wc => wc
  | d :: ds, i, wc =>
    linked_list_policy.init start stop rnd ds (i + 1)
      (d.init start stop rnd wc.1, wc.2 ++ [call.linked_init i start stop rnd])

/-- The loop of `linked_list_policy::reset`. -/
def linked_list_policy.reset {W : Type} :
    List (linked_type W) → Nat → W × List call → W × List call
  | [], _, wc => wc
  | d :: ds, i, wc =>
    linked_list_policy.reset ds (i + 1) (d.reset wc.1, wc.2 ++ [call.linked_reset i])

/-- The loop of `linked_list_policy::update`. -/
def linked_list_policy.update {W : Type} (t : Int) :
    List (linked_type W) → Nat → W × List call → W × List call
  | [], _, wc => wc
  | d :: ds, i, wc =>
    linked_list_policy.update t ds (i + 1) (d.update t wc.1, wc.2 ++ [call.linked_update i t])

/-- Method `basic_agent_impl::init(_start,_end,_random)`. -/
def basic_agent_impl.init {S W : Type} (h : agent_hooks S W) (ds : List (linked_type W))
    (start stop : Int) (rnd : Nat) (m : machine S W) : machine S W :=
  if m.self.m_init then m
  else
    let wc := linked_list_policy.init start stop rnd ds 0 (m.world, m.calls)
    let a := { m.self with mp_rnd := rnd, m_start := start, m_time := start, m_end := stop }
    let r := h.init_impl a wc.1
    { self := { a with m_state := r.1, m_state0 := r.1, m_init := true, m_reset := false },
      world := r.2,
      calls := wc.2 ++ [call.init_impl] }

/-- Method `basic_agent_impl::reset()`. -/
def basic_agent_impl.reset {S W : Type} (h : agent_hooks S W) (ds : List (linked_type W))
    (m : machine S W) : machine S W :=
  if m.self.m_reset then m
  else
    let wc := linked_list_policy.reset ds 0 (m.world, m.calls)
    let a := { m.self with
      m_time := m.self.m_start, m_state := m.self.m_state0, m_dtime := 0,
      m_live := true, m_init := false }
    let r := h.reset_impl a wc.1
    { self := { a with m_state := r.1, m_live := r.2.1, m_reset := true },
      world := r.2.2,
      calls := wc.2 ++ [call.reset_impl] }

/-- Method `basic_agent_impl::update(_time)`. -/
def basic_agent_impl.update {S W : Type} (h : agent_hooks S W) (ds : List (linked_type W))
    (t : Int) (m : machine S W) : machine S W :=
  if t ≤ m.self.m_time then m
  else
    let wc := linked_list_policy.update t ds 0 (m.world, m.calls)
    if !m.self.m_live then { m with world := wc.1, calls := wc.2 }
    else
      let a := { m.self with m_reset := false, m_dtime := t - m.self.m_time, m_time := t }
      let r := h.update_impl a wc.1
      { self := { a with m_state := r.1, m_live := r.2.1 },
        world := r.2.2,
        calls := wc.2 ++ [call.update_impl] }

/-- One lifecycle call made by a driver on an agent that has been initialised. -/
inductive op where
  | reset
  | update (t : Int)
  deriving DecidableEq, Repr

/-- The effect of one driver call on a base agent. -/
def basic_agent_impl.step {S W : Type} (h : agent_hooks S W) (ds : List (linked_type W)) :
    op → machine S W → machine S W
  | op.reset, m => basic_agent_impl.reset h ds m
  | op.update t, m => basic_agent_impl.update h ds t m

/-- A sequence of driver calls, first call first. -/
def basic_agent_impl.run {S W : Type} (h : agent_hooks S W) (ds : List (linked_type W)) :
    List op → machine S W → machine S W
  | [], m => m
  | o :: os, m => basic_agent_impl.run h ds os (basic_agent_impl.step h ds o m)

/-- The calls `update(t1); ...; update(tn)`, first call first. -/
def basic_agent_impl.updates {S W : Type} (h : agent_hooks S W) (ds : List (linked_type W)) :
    List Int → machine S W → machine S W
  | [], m => m
  | t :: ts, m => basic_agent_impl.updates h ds ts (basic_agent_impl.update h ds t m)

/-- A dependency that is a `standalone_agent_impl` with hooks `hk`, held in slot
`i` of a store of agents: the store plays the heap, the slot number the shared
pointer, so that one slot may be connected several times.  The dependency's own
ghost record is not part of the caller's. -/
def stored_agent {S : Type} (hk : agent_hooks S Unit) (i : Nat) :
    linked_type (List (basic_agent_impl S)) :=
  { init := fun start stop rnd w =>
      match w[i]? with
      | some a => w.set i (basic_agent_impl.init hk [] start stop rnd ⟨a, (), []⟩).self
      | none => w,
    reset := fun w =>
      match w[i]? with
      | some a => w.set i (basic_agent_impl.reset hk [] ⟨a, (), []⟩).self
      | none => w,
    update := fun t w =>
      match w[i]? with
      | some a => w.set i (basic_agent_impl.update hk [] t ⟨a, (), []⟩).self
      | none => w }

/-- Record `basic_cached_agent::cached_type`. -/
structure cached_type (S : Type) where
  time : Int
  state : S
  live : Bool
  deriving DecidableEq, Repr

/-- A `basic_cached_agent`: the base agent (with its world and ghost record),
the list `m_cache` and the iterator `m_itr`.  The iterator is `some k` when it
designates position `k` of the list (`k = length` is `end()`), and `none` when
it is singular: default-constructed, or invalidated by `clear()`. -/
structure basic_cached_agent (S W : Type) where
  base : machine S W
  m_cache : List (cached_type S)
  m_itr : Option Nat

/-- Accessor `basic_agent_impl::is_live()`, which the cached agent inherits. -/
def basic_cached_agent.is_live {S W : Type} (c : basic_cached_agent S W) : Bool :=
  c.base.self.m_live

/-- Accessor `basic_cached_agent::state()`, `m_itr->state`; `none` where the
iterator cannot be dereferenced. -/
def basic_cached_agent.state {S W : Type} (c : basic_cached_agent S W) : Option S :=
  match c.m_itr with
  | some k => (c.m_cache[k]?).map (fun r => r.state)
  | none => none

/-- Method `basic_cached_agent::init`: the base `init`, then `m_cache.clear()`,
which invalidates an iterator to an element and keeps a past-the-end one. -/
def basic_cached_agent.init {S W : Type} (h : agent_hooks S W) (ds : List (linked_type W))
    (start stop : Int) (rnd : Nat) (c : basic_cached_agent S W) : basic_cached_agent S W :=
  { base := basic_agent_impl.init h ds start stop rnd c.base,
    m_cache := [],
    m_itr :=
      match c.m_itr with
      | some k => if k = c.m_cache.length then some 0 else none
      | none => none }

/-- Method `basic_cached_agent::reset`. -/
def basic_cached_agent.reset {S W : Type} (h : agent_hooks S W) (ds : List (linked_type W))
    (c : basic_cached_agent S W) : basic_cached_agent S W :=
  if c.base.self.m_reset then c
  else
    match c.m_cache with
    | r :: _ =>
      { c with
        m_itr := some 0,
        base := { c.base with self := { c.base.self with m_time := r.time } } }
    | [] =>
      let b := basic_agent_impl.reset h ds c.base
      { base := b,
        m_cache := [⟨b.self.m_time, b.self.m_state, b.self.m_live⟩],
        m_itr := some 0 }

/-- The loop `while (m_itr != end && m_itr->time < _time) ++m_itr;` run on the
records from the iterator onwards: the number of increments. -/
def basic_cached_agent.seek {S : Type} : List (cached_type S) → Int → Nat
  | [], _ => 0
  | r :: rs, t => if r.time < t then basic_cached_agent.seek rs t + 1 else 0

/-- The fall-through of `basic_cached_agent::update` with the iterator at
position `j`: the base `update`, then `m_itr = m_cache.insert(m_itr, ...)`. -/
def basic_cached_agent.compute {S W : Type} (h : agent_hooks S W) (ds : List (linked_type W))
    (t : Int) (j : Nat) (c : basic_cached_agent S W) : basic_cached_agent S W :=
  let b := basic_agent_impl.update h ds t c.base
  { base := b,
    m_cache := c.m_cache.take j ++ ⟨t, b.self.m_state, b.self.m_live⟩ :: c.m_cache.drop j,
    m_itr := some j }

/-- Method `basic_cached_agent::update`; `none` where it reads an iterator that
is singular or designates no position of the list (undefined behaviour). -/
def basic_cached_agent.update {S W : Type} (h : agent_hooks S W) (ds : List (linked_type W))
    (t : Int) (c : basic_cached_agent S W) : Option (basic_cached_agent S W) :=
  if !c.base.self.m_live || t ≤ c.base.self.m_time then some c
  else
    match c.m_itr with
    | none => none
    | some k =>
      if c.m_cache.length < k then none
      else
        let j := k + basic_cached_agent.seek (c.m_cache.drop k) t
        match c.m_cache[j]? with
        | some r =>
          if r.time = t then
            some { c with
              m_itr := some j,
              base := { c.base with self := { c.base.self with m_time := r.time } } }
          else some (basic_cached_agent.compute h ds t j c)
        | none => some (basic_cached_agent.compute h ds t j c)

/-- The effect of one driver call on a cached agent. -/
def basic_cached_agent.step {S W : Type} (h : agent_hooks S W) (ds : List (linked_type W)) :
    op → basic_cached_agent S W → Option (basic_cached_agent S W)
  | op.reset, c => some (basic_cached_agent.reset h ds c)
  | op.update t, c => basic_cached_agent.update h ds t c

/-- A sequence of driver calls on a cached agent, first call first. -/
def basic_cached_agent.run {S W : Type} (h : agent_hooks S W) (ds : List (linked_type W)) :
    List op → basic_cached_agent S W → Option (basic_cached_agent S W)
  | [], c => some c
  | o :: os, c =>
    match basic_cached_agent.step h ds o c with
    | some c1 => basic_cached_agent.run h ds os c1
    | none => none

/-- The same sequence, returning what `state()` gives after each call (`none`
as soon as a call or a read of the state is undefined). -/
def basic_cached_agent.observe {S W : Type} (h : agent_hooks S W) (ds : List (linked_type W)) :
    List op → basic_cached_agent S W → Option (List S)
  | [], _ => some []
  | o :: os, c =>
    match basic_cached_agent.step h ds o c with
    | some c1 =>
      match c1.state, basic_cached_agent.observe h ds os c1 with
      | some s, some ss => some (s :: ss)
      | _, _ => none
    | none => none

/-- A freshly constructed cached agent: base members value-initialised, empty
cache, singular iterator. -/
def basic_cached_agent.ctor {S W : Type} (s : S) (w : W) : basic_cached_agent S W :=
  { base := ⟨basic_agent_impl.ctor s, w, []⟩, m_cache := [], m_itr := none }

/-- Hooks of class `time` (`basic_agents.h`): `reset_impl` and `update_impl`
assign the agent's time to the state, `update_impl` returns true.  The state, a
`double` holding that integer, is kept as the integer. -/
def time_hooks (W : Type) : agent_hooks Int W :=
  { init_impl := fun a w => (a.m_state, w),
    reset_impl := fun a w => (a.m_time, a.m_live, w),
    update_impl := fun a w => (a.m_time, true, w) }

/-- Hooks of the test class `cached` (`test/test_cached_agent.cpp`); the world
is its callback counter `mr_cb`. -/
def cached_test_hooks : agent_hooks Int Nat :=
  { init_impl := fun a cb => (a.m_state, cb + 1),
    reset_impl := fun a cb => (a.m_time, a.m_live, cb + 1),
    update_impl := fun a cb => (a.m_time, true, cb + 1) }

/-- Hooks of an example agent that matures at time `T`: the state follows the
time and `update_impl` returns false from `T` on. -/
def maturing_hooks (T : Int) : agent_hooks Int Unit :=
  { init_impl := fun a w => (a.m_state, w),
    reset_impl := fun a w => (a.m_time, a.m_live, w),
    update_impl := fun a w => (a.m_time, decide (a.m_time < T), w) }

/-- Hooks of an example parent whose state is the time at which it finds its
first dependency (slot 0 of the store) whenever it resets or updates. -/
def watching_hooks : agent_hooks Int (List (basic_agent_impl Int)) :=
  { init_impl := fun a w => (a.m_state, w),
    reset_impl := fun a w => (((w[0]?).map (fun d => d.m_time)).getD 0, a.m_live, w),
    update_impl := fun _ w => (((w[0]?).map (fun d => d.m_time)).getD 0, true, w) }


/-- What a reset leaves behind, as long as the reset flag stays up: the agent
is at its start, in its saved state, live, with a zero interval. -/
def reset_image {S : Type} (start : Int) (s0 : S) (a : basic_agent_impl S) : Prop :=
  a.m_start = start ∧ a.m_state0 = s0 ∧
    (a.m_reset = true → a.m_time = start ∧ a.m_state = s0 ∧ a.m_live = true ∧ a.m_dtime = 0)

/-- Order of two cache records by their time. -/
def earlier {S : Type} (x y : cached_type S) : Prop := x.time < y.time

/-- The cache invariant: the records are strictly increasing in time and the
iterator designates a record whose time is the agent's current time. -/
def basic_cached_agent.cache_ok {S W : Type} (c : basic_cached_agent S W) : Prop :=
  List.Pairwise earlier c.m_cache ∧
    (∃ k x, c.m_itr = some k ∧ c.m_cache[k]? = some x ∧ x.time = c.base.self.m_time) ∧
    (c.base.self.m_reset = true → c.m_cache.length = 1) ∧
    (∃ x, c.m_cache[0]? = some x ∧ x.time = c.base.self.m_start)

/-- The state held by the cache for time `t`: that of the first record with
that time, `none` when there is no such record. -/
def basic_cached_agent.recorded {S : Type} : List (cached_type S) → Int → Option S
  | [], _ => none
  | x :: xs, t => if x.time = t then some x.state else basic_cached_agent.recorded xs t

/-- A sequence of driver calls on a cached agent, returning what `state()` and
`is_live()` give after each call (`none` as soon as a call or a read of the
state is undefined). -/
def basic_cached_agent.expose {S W : Type} (h : agent_hooks S W) (ds : List (linked_type W)) :
    List op → basic_cached_agent S W → Option (List (S × Bool))
  | [], _ => some []
  | o :: os, c =>
    match basic_cached_agent.step h ds o c with
    | some c1 =>
      match c1.state, basic_cached_agent.expose h ds os c1 with
      | some s, some ss => some ((s, c1.is_live) :: ss)
      | _, _ => none
    | none => none

/-- State of a `simulator` as far as its schedule goes: the fix times and the
observers, one per fix, with the observer copied into new fixes. -/
structure simulator (O : Type) where
  m_samples : Nat
  m_start : Int
  m_fixes : List Int
  m_step : Int
  m_seed : Int
  m_observers : List O
  m_observer_template : O
  deriving DecidableEq

/-- Method `simulator::clear_fixes()`. -/
def simulator.clear_fixes {O : Type} (s : simulator O) : simulator O :=
  { s with m_fixes := [], m_observers := [] }

/-- Method `simulator::add_fix(_fix,_observer)`; `none` is the thrown error
"Time fixes must be strictly increasing", which leaves the simulator as it was. -/
def simulator.add_fix {O : Type} (fix : Int) (observer : O) (s : simulator O) :
    Option (simulator O) :=
  match s.m_fixes.getLast? with
  | some back =>
    if fix ≤ back then none
    else some { s with m_fixes := s.m_fixes ++ [fix], m_observers := s.m_observers ++ [observer] }
  | none =>
    some { s with m_fixes := s.m_fixes ++ [fix], m_observers := s.m_observers ++ [observer] }

/-- A call on the schedule of a simulator made by client code. -/
inductive schedule_call (O : Type) where
  | add_fix (fix : Int) (observer : O)
  | clear_fixes

/-- The simulator after one such call; a call that throws leaves it unchanged
for the calls that follow. -/
def simulator.after {O : Type} : schedule_call O → simulator O → simulator O
  | schedule_call.add_fix fix observer, s => (simulator.add_fix fix observer s).getD s
  | schedule_call.clear_fixes, s => simulator.clear_fixes s

/-- The simulator after a sequence of such calls, first call first. -/
def simulator.after_all {O : Type} : List (schedule_call O) → simulator O → simulator O
  | [], s => s
  | c :: cs, s => simulator.after_all cs (simulator.after c s)

/-- The loop of `simulator::simulate_to`,
`for (t = ...; t <= _end; t += m_step) _agent->update(t);`, entered with `t`, on
an agent given by its `update`.  The first argument bounds the number of
iterations: `none` when the loop has not ended within it. -/
def simulator.simulate_to_loop {A : Type} (update : Int → A → A) (step stop : Int) :
    Nat → Int → A → Option A
  | 0, _, _ => none
  | fuel + 1, t, a =>
    if t ≤ stop then simulator.simulate_to_loop update step stop fuel (t + step) (update t a)
    else some a

/-- Method `simulator::simulate_to(_agent,_start,_end)`: the loop from
`_start + m_step`, then `_agent->update(_end)`. -/
def simulator.simulate_to {A : Type} (update : Int → A → A) (step : Int) (fuel : Nat)
    (start stop : Int) (a : A) : Option A :=
  (simulator.simulate_to_loop update step stop fuel (start + step) a).map (update stop)

/-- An agent that only records the times of the `update` calls it receives. -/
def recording_update (t : Int) (seen : List Int) : List Int := seen ++ [t]

/-- Constructor `simulator()`: start 0, step `numeric_limits<int>::max()`, seed
839823, no fix and no observer.  `m_samples` is left uninitialised by the source
and the observer template is default-constructed: both are given. -/
def simulator.ctor {O : Type} (samples : Nat) (template : O) : simulator O :=
  { m_samples := samples, m_start := 0, m_fixes := [], m_step := 2147483647,
    m_seed := 839823, m_observers := [], m_observer_template := template }

/-- The variate generator `math::mersenne_twister` as the driver uses it, over
its own state `R`: `seed` and the draw `operator()`.  It is outside the
framework and is given. -/
structure variate_source (R F : Type) where
  seed : Int → R → R
  draw : R → F × R

/-- Class `generator`: the variate generator and the path weight. -/
structure generator (R F : Type) where
  m_rnd : R
  m_weight : F

/-- Constructor `generator()`: weight 1. -/
def generator.ctor {R F : Type} [One F] (r : R) : generator R F :=
  { m_rnd := r, m_weight := 1 }

/-- Method `generator::rnd`: the deviate and the generator after the draw. -/
def generator.rnd {R F : Type} (vs : variate_source R F) (g : generator R F) :
    F × generator R F :=
  ((vs.draw g.m_rnd).1, { g with m_rnd := (vs.draw g.m_rnd).2 })

/-- Method `generator::weight`. -/
def generator.weight {R F : Type} (g : generator R F) : F := g.m_weight

/-- Method `generator::reset`. -/
def generator.reset {R F : Type} [One F] (g : generator R F) : generator R F :=
  { g with m_weight := 1 }

/-- Method `generator::update_weight`. -/
def generator.update_weight {R F : Type} [Mul F] (w : F) (g : generator R F) : generator R F :=
  { g with m_weight := g.m_weight * w }

/-- A call made on the driver during a path. -/
inductive generator_call (F : Type) where
  | rnd
  | update_weight (w : F)

/-- The driver after a sequence of such calls, first call first. -/
def generator.after {R F : Type} [Mul F] (vs : variate_source R F) :
    List (generator_call F) → generator R F → generator R F
  | [], g => g
  | generator_call.rnd :: cs, g => generator.after vs cs (generator.rnd vs g).2
  | generator_call.update_weight w :: cs, g =>
    generator.after vs cs (generator.update_weight w g)

/-- The factors passed to `update_weight` in a sequence of calls, in order. -/
def generator_call.factors {F : Type} : List (generator_call F) → List F
  | [] => []
  | generator_call.rnd :: cs => generator_call.factors cs
  | generator_call.update_weight w :: cs => w :: generator_call.factors cs

/-- The root agent as the simulator sees it (`double_agent_ptr`): its virtual
`init`, `reset`, `update` and `state`, acting on the agent graph `A` together
with the driver the agents refer to. -/
structure double_agent (A R F : Type) where
  init : Int → Int → A × generator R F → A × generator R F
  reset : A × generator R F → A × generator R F
  update : Int → A × generator R F → A × generator R F
  state : A × generator R F → F

/-- The observer type of a simulator (`_observer_type`): `set_agent` binding it
to the root agent, `init` (`none` when it throws), `observe(_weight)`, which
reads the agents, and `end()`. -/
structure observer_type (O A R F : Type) where
  set_agent : O → O
  init : O → Option O
  observe : A × generator R F → F → O → O
  finish : O → O

/-- Class `statistics`, over a field `F` standing for the reals.  `mp_agent`
records whether the target agent is set. -/
structure statistics (F : Type) where
  mp_agent : Bool
  m_expectation : F
  m_variance : F
  m_stderr : F
  m_max : F
  m_min : F
  m_cum_weight : F

/-- Method `statistics::init`, with `numeric_limits<double>::max()` and
`numeric_limits<double>::min()` given; `none` is the thrown error "Observer's
target agent is not set". -/
def statistics.init {F : Type} [Zero F] (dbl_max dbl_min : F) (o : statistics F) :
    Option (statistics F) :=
  if !o.mp_agent then none
  else some { o with
    m_expectation := 0, m_variance := 0, m_stderr := 0, m_cum_weight := 0,
    m_min := dbl_max, m_max := dbl_min }

/-- Method `statistics::observe(_weight)`, `v` being `mp_agent->state()`. -/
def statistics.observe {F : Type} [LinearOrderedField F] (v weight : F) (o : statistics F) :
    statistics F :=
  { o with
    m_expectation := o.m_expectation + v * weight,
    m_variance := o.m_variance + v * v * weight,
    m_cum_weight := o.m_cum_weight + weight,
    m_min := min o.m_min v,
    m_max := max o.m_max v,
    m_stderr := o.m_stderr + 1 }

/-- Method `statistics::end`, with `std::sqrt` given. -/
def statistics.finish {F : Type} [LinearOrderedField F] (sqrt : F → F) (o : statistics F) :
    statistics F :=
  let e := o.m_expectation / o.m_cum_weight
  let v := o.m_variance / o.m_cum_weight - e * e
  { o with m_expectation := e, m_variance := v, m_stderr := sqrt (v / o.m_stderr) }

/-- The observer type `statistics` of a simulator whose root agent is `agent`. -/
def statistics.observer {A R F : Type} [LinearOrderedField F] (sqrt : F → F)
    (dbl_max dbl_min : F) (agent : double_agent A R F) :
    observer_type (statistics F) A R F :=
  { set_agent := fun o => { o with mp_agent := true },
    init := statistics.init dbl_max dbl_min,
    observe := fun y w o => statistics.observe (agent.state y) w o,
    finish := statistics.finish sqrt }

/-- A dependency through which the state is read (a pointer to a
`basic_valued_agent`): the lifecycle methods together with the virtual `state()`
and `is_live()`. -/
structure basic_valued_agent (W X : Type) extends linked_type W where
  state : W → X
  is_live : W → Bool

/-- What `state()` of a dependency gives after each of the calls `update(t1)`,
..., `update(tn)` made on it in turn. -/
def basic_valued_agent.states_after {W X : Type} (src : basic_valued_agent W X) :
    List Int → W → List X
  | [], _ => []
  | t :: ts, w => src.state (src.update t w) :: src.states_after ts (src.update t w)

/-- What `is_live()` of a dependency gives after each of those calls. -/
def basic_valued_agent.lives_after {W X : Type} (src : basic_valued_agent W X) :
    List Int → W → List Bool
  | [], _ => []
  | t :: ts, w => src.is_live (src.update t w) :: src.lives_after ts (src.update t w)

/-- The state of a base agent after each of the calls `update(t1)`, ...,
`update(tn)` made on it in turn. -/
def basic_agent_impl.states_after {S W : Type} (h : agent_hooks S W)
    (ds : List (linked_type W)) : List Int → machine S W → List S
  | [], _ => []
  | t :: ts, m =>
    (basic_agent_impl.update h ds t m).self.m_state ::
      basic_agent_impl.states_after h ds ts (basic_agent_impl.update h ds t m)

/-- A base agent with hooks `hk` held in slot `i` of a store, as a dependency
whose state is read; an empty slot reads as the default state, not live. -/
def stored_valued_agent {S : Type} [Inhabited S] (hk : agent_hooks S Unit) (i : Nat) :
    basic_valued_agent (List (basic_agent_impl S)) S :=
  { tolinked_type := stored_agent hk i,
    state := fun w => ((w[i]?).map (fun a => a.m_state)).getD default,
    is_live := fun w => ((w[i]?).map (fun a => a.m_live)).getD false }

/-- Class `constant` (`basic_agents.h`): the value and its saved copy. -/
structure constant (X : Type) where
  m_state : X
  m_initial : X
  deriving DecidableEq

/-- A `constant` held in slot `i` of a store, as a dependency: always live,
`init` saves the value, `reset` restores it, `update` does nothing. -/
def constant.agent {X : Type} [Inhabited X] (i : Nat) :
    basic_valued_agent (List (constant X)) X :=
  { init := fun _ _ _ w =>
      match w[i]? with
      | some c => w.set i { c with m_initial := c.m_state }
      | none => w,
    reset := fun w =>
      match w[i]? with
      | some c => w.set i { c with m_state := c.m_initial }
      | none => w,
    update := fun _ w => w,
    state := fun w => ((w[i]?).map (fun c => c.m_state)).getD default,
    is_live := fun _ => true }

/-- Operation `operators::sum`. -/
def operators.sum {F : Type} [Add F] (a b : F) : F := a + b

/-- Operation `operators::difference`. -/
def operators.difference {F : Type} [Sub F] (a b : F) : F := a - b

/-- Operation `operators::maximum`. -/
def operators.maximum {F : Type} [Max F] (a b : F) : F := max a b

/-- Hooks of `cumulative_operator` with operation `f` on the dependency `src`:
`reset_impl` copies the state of the dependency, `update_impl` folds it into the
state and returns whether the dependency is live. -/
def cumulative_operator.hooks {W F : Type} (f : F → F → F) (src : basic_valued_agent W F) :
    agent_hooks F W :=
  { init_impl := fun a w => (a.m_state, w),
    reset_impl := fun a w => (src.state w, a.m_live, w),
    update_impl := fun a w => (f (src.state w) a.m_state, src.is_live w, w) }

/-- Members that `sequential_operator` adds to the agent, with the world `W` in
which its dependency lives. -/
structure sequential_operator (W X : Type) where
  linked : W
  m_last : X
  m_initial : X
  m_has_initial : Bool

/-- The dependency of a sequential operator, acting on the part of the world in
which it lives. -/
def sequential_operator.source {W X : Type} (src : basic_valued_agent W X) :
    linked_type (sequential_operator W X) :=
  { init := fun start stop rnd v => { v with linked := src.init start stop rnd v.linked },
    reset := fun v => { v with linked := src.reset v.linked },
    update := fun t v => { v with linked := src.update t v.linked } }

/-- Method `sequential_operator::update_impl`: the new state, the value
returned and the new `m_last`. -/
def sequential_operator.update_impl {W X Y : Type} (f : X → X → Y)
    (src : basic_valued_agent W X) (v : sequential_operator W X) :
    Y × Bool × sequential_operator W X :=
  (f (src.state v.linked) v.m_last, src.is_live v.linked,
    { v with m_last := src.state v.linked })

/-- Hooks of `sequential_operator`: `reset_impl` sets `m_last` to the supplied
initial value, or to the state of the dependency when none was supplied, and
calls `update_impl`, whose result it drops. -/
def sequential_operator.hooks {W X Y : Type} (f : X → X → Y) (src : basic_valued_agent W X) :
    agent_hooks Y (sequential_operator W X) :=
  { init_impl := fun a v => (a.m_state, v),
    reset_impl := fun a v =>
      let r := sequential_operator.update_impl f src
        { v with m_last := if v.m_has_initial then v.m_initial else src.state v.linked }
      (r.1, a.m_live, r.2.2),
    update_impl := fun _ v => sequential_operator.update_impl f src v }

/-- Left-to-right reduction of the states of a list of dependencies, as the loop
of `binary_operator::update_impl` computes it; `none` for the empty list, where
the source dereferences `end()`. -/
def binary_operator.reduce {W F : Type} (f : F → F → F) (w : W) :
    List (basic_valued_agent W F) → Option F
  | [] => none
  | c :: cs => some (cs.foldl (fun acc d => f acc (d.state w)) (c.state w))

/-- The value `s` returned by `binary_operator::update_impl`: whether any
dependency is live. -/
def binary_operator.any_live {W F : Type} (w : W) : List (basic_valued_agent W F) → Bool
  | [] => false
  | c :: cs => cs.foldl (fun s d => s || d.is_live w) (c.is_live w)

/-- Hooks of `binary_operator` on the dependencies `cs`; `reset_impl` calls
`update_impl` and drops its result.  Without dependencies (undefined in the
source) the state is left as it is. -/
def binary_operator.hooks {W F : Type} (f : F → F → F) (cs : List (basic_valued_agent W F)) :
    agent_hooks F W :=
  { init_impl := fun a w => (a.m_state, w),
    reset_impl := fun a w => ((binary_operator.reduce f w cs).getD a.m_state, a.m_live, w),
    update_impl := fun a w =>
      ((binary_operator.reduce f w cs).getD a.m_state, binary_operator.any_live w cs, w) }

/-- Method `init` of a `binary_operator`: the base `init`, whose `init_impl`
throws "binary_operator requires at least 1 underlying agent" when
`count_connected() < 1`.  `Except.error` carries the agent as the throw leaves
it: members assigned, `m_init` still false. -/
def binary_operator.init {W F : Type} (f : F → F → F) (cs : List (basic_valued_agent W F))
    (start stop : Int) (rnd : Nat) (m : machine F W) : Except (machine F W) (machine F W) :=
  if m.self.m_init then Except.ok m
  else if cs.length < 1 then
    let wc := linked_list_policy.init start stop rnd (cs.map (fun c => c.tolinked_type)) 0
      (m.world, m.calls)
    Except.error
      { self := { m.self with mp_rnd := rnd, m_start := start, m_time := start, m_end := stop },
        world := wc.1,
        calls := wc.2 ++ [call.init_impl] }
  else
    Except.ok (basic_agent_impl.init (binary_operator.hooks f cs)
      (cs.map (fun c => c.tolinked_type)) start stop rnd m)

/-- The world after `linked_list_policy::update` has forwarded `update(t)` to
the dependencies `cs` in order. -/
def binary_operator.forward {W F : Type} (cs : List (basic_valued_agent W F)) (t : Int)
    (w : W) : W :=
  cs.foldl (fun v d => d.update t v) w

/-- What holds of a binary operator between calls: its state is the reduction
of the states of its dependencies, and if it is not live none of them is. -/
def binary_operator.reduced {W F : Type} (f : F → F → F) (cs : List (basic_valued_agent W F))
    (m : machine F W) : Prop :=
  binary_operator.reduce f m.world cs = some m.self.m_state ∧
    (m.self.m_live = false → ∀ d ∈ cs, d.is_live m.world = false)

/-- The number of steps of a loop `while (itr != end && p(*itr)) ++itr;` over
the elements from the iterator onwards. -/
def memory.count_while (p : Int → Bool) : List Int → Nat
  | [] => 0
  | x :: xs => if p x then memory.count_while p xs + 1 else 0

/-- Members that `memory` adds to the agent: the iterators `m_trigger_itr` and
`m_trigger_start` into `m_triggers`, as positions (the length being `end()`),
with the world `src` in which the underlying agent `mp_src` lives. -/
structure memory (C : Type) where
  src : C
  m_trigger_itr : Nat
  m_trigger_start : Nat

/-- Method `memory::update_impl` at agent time `time` and agent state `state`:
the new state, the value returned and the members afterwards.  The inner loop
`while (m_time >= *itr) { ++itr; if (itr == end) return false; }` moves the
iterator past the triggers reached and returns false at the end. -/
def memory.update_impl {C S : Type} (triggers : List Int) (always_update : Bool)
    (src : basic_valued_agent C S) (time : Int) (state : S) (v : memory C) :
    S × Bool × memory C :=
  match triggers[v.m_trigger_itr]? with
  | none => (state, false, v)
  | some trigger =>
    if trigger ≤ time then
      let c1 := src.update time v.src
      let itr := v.m_trigger_itr +
        memory.count_while (fun x => decide (x ≤ time)) (triggers.drop v.m_trigger_itr)
      if itr = triggers.length then
        (src.state c1, false, { v with src := c1, m_trigger_itr := itr })
      else
        (src.state c1, true,
          { v with src := if always_update then src.update time c1 else c1,
                   m_trigger_itr := itr })
    else
      (state, true, { v with src := if always_update then src.update time v.src else v.src })

/-- Hooks of `memory` set up with the triggers, the flag `_always_update` and
the underlying agent: `init_impl` initialises the underlying agent and places
`m_trigger_start` on the first trigger not before the start; `reset_impl` resets
the underlying agent, rewinds the iterator and assigns the result of
`update_impl` to `m_live`. -/
def memory.hooks {C S : Type} (triggers : List Int) (always_update : Bool)
    (src : basic_valued_agent C S) : agent_hooks S (memory C) :=
  { init_impl := fun a v =>
      (a.m_state,
        { v with src := src.init a.m_start a.m_end a.mp_rnd v.src,
                 m_trigger_start :=
                   memory.count_while (fun x => decide (x < a.m_start)) triggers }),
    reset_impl := fun a v =>
      memory.update_impl triggers always_update src a.m_time a.m_state
        { v with src := src.reset v.src, m_trigger_itr := v.m_trigger_start },
    update_impl := fun a v =>
      memory.update_impl triggers always_update src a.m_time a.m_state v }

/-- What holds of a memory agent between calls once it has been reset: the
iterator has passed exactly the triggers reached by the agent's time, the agent
is live exactly while a trigger is pending, and `m_trigger_start` stands on the
first trigger not before the start. -/
def memory.tracked {C S : Type} (triggers : List Int) (m : machine S (memory C)) : Prop :=
  (∀ x ∈ triggers.take m.world.m_trigger_itr, x ≤ m.self.m_time) ∧
    (∀ x ∈ triggers.drop m.world.m_trigger_itr, m.self.m_time < x) ∧
    (m.self.m_live = true ↔ m.world.m_trigger_itr < triggers.length) ∧
    (∀ x ∈ triggers.take m.world.m_trigger_start, x < m.self.m_start) ∧
    (∀ x ∈ triggers.drop m.world.m_trigger_start, m.self.m_start ≤ x) ∧
    m.self.m_start ≤ m.self.m_time

/-- Members that `lookback` adds to the agent, with the world `C` in which its
dependency lives: the deque `m_queue` of pairs (expiry time, value), front
first.  The flag `m_defined` is a ghost: it falls once `front()` has been read
on an empty deque or the reducer had no value to give. -/
structure lookback (C S : Type) where
  linked : C
  m_queue : List (Int × S)
  m_defined : Bool

/-- The dependency of a lookback agent, acting on the part of the world in
which it lives. -/
def lookback.source {C S : Type} (src : basic_valued_agent C S) : linked_type (lookback C S) :=
  { init := fun start stop rnd v => { v with linked := src.init start stop rnd v.linked },
    reset := fun v => { v with linked := src.reset v.linked },
    update := fun t v => { v with linked := src.update t v.linked } }

/-- The loop `while (m_queue.front().first <= m_time) m_queue.pop_front();` of
`lookback::update_impl`; `none` when it reads `front()` on an empty deque. -/
def lookback.drain {S : Type} (time : Int) : List (Int × S) → Option (List (Int × S))
  | [] => none
  | e :: q => if e.1 ≤ time then lookback.drain time q else some (e :: q)

/-- Method `lookback::update_impl` at agent time `time`, with the reducer `m_op`
and the period `period`: the new state, the value returned and the new members;
`none` where the source has no defined behaviour. -/
def lookback.update_impl {C S : Type} (m_op : List (Int × S) → Option S) (period : Int)
    (src : basic_valued_agent C S) (time : Int) (v : lookback C S) :
    Option (S × Bool × lookback C S) :=
  match lookback.drain time (v.m_queue ++ [(time + period, src.state v.linked)]) with
  | none => none
  | some q =>
    match m_op q with
    | none => none
    | some s => some (s, true, { v with m_queue := q })

/-- Hooks of `lookback`: `reset_impl` clears the deque and assigns the result
of `update_impl` to `m_live`. -/
def lookback.hooks {C S : Type} (m_op : List (Int × S) → Option S) (period : Int)
    (src : basic_valued_agent C S) : agent_hooks S (lookback C S) :=
  { init_impl := fun a v => (a.m_state, v),
    reset_impl := fun a v =>
      (lookback.update_impl m_op period src a.m_time { v with m_queue := [] }).getD
        (a.m_state, a.m_live, { v with m_queue := [], m_defined := false }),
    update_impl := fun a v =>
      (lookback.update_impl m_op period src a.m_time v).getD
        (a.m_state, a.m_live, { v with m_defined := false }) }

/-- Reducer `operators::queue_std`, with `std::sqrt` given: the loop starts the
count `n` at 1, adds one per value and adds the squares of the values; the
result is `sqrt(x) / n`. -/
def operators.queue_std {F : Type} [Add F] [Mul F] [Zero F] [Div F] [NatCast F]
    (sqrt : F → F) (q : List (Int × F)) : Option F :=
  let r := q.foldl (fun (nx : Nat × F) e => (nx.1 + 1, nx.2 + e.2 * e.2)) (1, 0)
  some (sqrt r.2 / (r.1 : F))

/-- The standard deviation of the values `vs` as the text words it: the square
root of their variance about their mean, the squared deviations being divided
by `n - 1`. -/
def operators.sample_standard_deviation {F : Type} [Field F] (sqrt : F → F) (vs : List F) : F :=
  let mean := vs.sum / (vs.length : F)
  sqrt ((vs.map (fun v => (v - mean) * (v - mean))).sum / ((vs.length : F) - 1))

/-- Function `math::is_zero` with the constant `math::TINY` given. -/
def math.is_zero {F : Type} [LinearOrderedField F] (tiny v : F) : Bool :=
  decide (v < tiny ∧ -tiny < v)

/-- Method `statistics::standard_deviation`, with `std::sqrt` and `math::TINY`
given. -/
def statistics.standard_deviation {F : Type} [LinearOrderedField F] (sqrt : F → F) (tiny : F)
    (o : statistics F) : F :=
  if math.is_zero tiny o.m_variance then 0 else sqrt o.m_variance

/-- The calls `observe(w)` of a statistics observer for the pairs (agent state,
weight) of `obs`, in turn. -/
def statistics.observe_all {F : Type} [LinearOrderedField F] (obs : List (F × F))
    (o : statistics F) : statistics F :=
  obs.foldl (fun a vw => statistics.observe vw.1 vw.2 a) o

/-- Class `bounds`, over a field `F` standing for the reals.  `mp_agent` records
whether the target agent is set. -/
structure bounds (F : Type) where
  mp_agent : Bool
  m_max : F
  m_min : F

/-- Method `bounds::init`, with `numeric_limits<double>::max()` and
`numeric_limits<double>::min()` given; `none` is the thrown error. -/
def bounds.init {F : Type} (dbl_max dbl_min : F) (o : bounds F) : Option (bounds F) :=
  if !o.mp_agent then none
  else some { o with m_min := dbl_max, m_max := dbl_min }

/-- Method `bounds::observe(_weight)`, `v` being `mp_agent->state()`. -/
def bounds.observe {F : Type} [LinearOrderedField F] (v _weight : F) (o : bounds F) : bounds F :=
  { o with m_min := min o.m_min v, m_max := max o.m_max v }

/-- The calls `observe(w)` of a bounds observer for the pairs (agent state,
weight) of `obs`, in turn. -/
def bounds.observe_all {F : Type} [LinearOrderedField F] (obs : List (F × F))
    (o : bounds F) : bounds F :=
  obs.foldl (fun a vw => bounds.observe vw.1 vw.2 a) o

/-- Class `cross_moments`: the vector of expectations, the matrix `m_covar` by
rows, the sample count and the weight.  The registered agents enter through
their number and, at each observation, their states. -/
structure cross_moments (F : Type) where
  m_expectation : List F
  m_covar : List (List F)
  m_samples : Nat
  m_weight : F
  deriving DecidableEq

/-- Method `cross_moments::init` with `sz` agents registered; `none` is the
thrown error for `sz < 1`. -/
def cross_moments.init {F : Type} [Zero F] (sz : Nat) (_o : cross_moments F) :
    Option (cross_moments F) :=
  if sz < 1 then none
  else some { m_weight := 0, m_samples := 0,
              m_expectation := List.replicate sz 0,
              m_covar := List.replicate sz (List.replicate sz 0) }

/-- The statement `x[i] += d` on a `std::vector`, for `i` in range. -/
def vector_add_at {F : Type} [Add F] [Zero F] (i : Nat) (d : F) (x : List F) : List F :=
  x.set i (x.getD i 0 + d)

/-- One turn of the outer loop of `cross_moments::observe(_weight)`, for the
agent at position `i`, the states of the agents being `vs`: the expectation,
the entries of row `i` left of the diagonal, the diagonal entry, and then
`m_weight += _weight; ++m_samples`. -/
def cross_moments.observe_agent {F : Type} [Add F] [Mul F] [Zero F] (vs : List F) (weight : F)
    (o : cross_moments F) (i : Nat) : cross_moments F :=
  let v := vs.getD i 0
  let row := (List.range i).foldl
    (fun r j => vector_add_at j (v * vs.getD j 0 * weight) r) (o.m_covar.getD i [])
  { m_expectation := vector_add_at i (v * weight) o.m_expectation,
    m_covar := o.m_covar.set i (vector_add_at i (v * v * weight) row),
    m_weight := o.m_weight + weight,
    m_samples := o.m_samples + 1 }

/-- Method `cross_moments::observe(_weight)`, the states of the registered
agents being `vs`. -/
def cross_moments.observe {F : Type} [Add F] [Mul F] [Zero F] (vs : List F) (weight : F)
    (o : cross_moments F) : cross_moments F :=
  (List.range vs.length).foldl (cross_moments.observe_agent vs weight) o

/-- Method `cross_moments::end` with `sz` agents registered: the expectations
are divided by the weight, then the entries `[i][j]`, `j <= i`, are divided by
the weight and reduced by the product of the expectations. -/
def cross_moments.finish {F : Type} [Field F] (sz : Nat) (o : cross_moments F) :
    cross_moments F :=
  let e := (List.range sz).foldl
    (fun x i => x.set i (x.getD i 0 / o.m_weight)) o.m_expectation
  let c := (List.range sz).foldl
    (fun m i => (List.range (i + 1)).foldl
      (fun m2 j => m2.set i ((m2.getD i []).set j
        ((m2.getD i []).getD j 0 / o.m_weight - e.getD i 0 * e.getD j 0))) m) o.m_covar
  { o with m_expectation := e, m_covar := c }

/-- Accessor `cross_moments::expectation(_i)`; `none` out of range. -/
def cross_moments.expectation {F : Type} (i : Nat) (o : cross_moments F) : Option F :=
  o.m_expectation[i]?

/-- Accessor `cross_moments::covariance(_i,_j)`, reading `m_covar[_i][_j]`;
`none` out of range. -/
def cross_moments.covariance {F : Type} (i j : Nat) (o : cross_moments F) : Option F :=
  (o.m_covar[i]?).bind (fun r => r[j]?)

/-- What a method of `histogram` can end in besides returning: the two errors
it throws, a loop that has not ended within its bound, and an index outside the
vector (undefined in the source). -/
inductive histogram_error where
  | interval_too_small
  | unsupported_order
  | not_finished
  | out_of_range
  deriving DecidableEq, Repr

/-- Class `histogram`, over a field `F` standing for the reals. -/
structure histogram (F : Type) where
  m_pdf : Bool
  m_order : Nat
  m_max : F
  m_min : F
  m_step : F
  m_cum_weight : F
  m_bins : List F
  m_probs : List F

/-- The loop of `histogram::init`,
`for (v = m_min; v <= m_max + TINY; v += m_step)`, entered with `v` and the two
vectors, `bound` being `m_max + TINY`.  The first argument bounds the number of
iterations: `none` when the loop has not ended within it. -/
def histogram.init_loop {F : Type} [LinearOrderedField F] (bound step : F) :
    Nat → F → List F × List F → Option (List F × List F)
  | 0, _, _ => none
  | fuel + 1, v, bp =>
    if v ≤ bound then histogram.init_loop bound step fuel (v + step) (bp.1 ++ [v], bp.2 ++ [0])
    else some bp

/-- Method `histogram::init`, with `math::TINY` given. -/
def histogram.init {F : Type} [LinearOrderedField F] (tiny : F) (fuel : Nat)
    (h : histogram F) : Except histogram_error (histogram F) :=
  if h.m_max ≤ h.m_min + tiny then Except.error histogram_error.interval_too_small
  else
    match histogram.init_loop (h.m_max + tiny) h.m_step fuel h.m_min ([], []) with
    | none => Except.error histogram_error.not_finished
    | some bp => Except.ok { h with m_bins := bp.1, m_probs := bp.2, m_cum_weight := 0 }

/-- Method `histogram::pos`: the grid index and the remainder of `_value`.
The conversion `static_cast<size_type>` of a value that is not negative is the
floor, `size_type` being taken wide enough to hold it. -/
def histogram.pos {F : Type} [LinearOrderedField F] [FloorRing F] (value : F)
    (h : histogram F) : Nat × F :=
  let x := (value - h.m_min) / h.m_step
  if 0 ≤ x then (Nat.floor x, x - (Nat.floor x : F)) else (0, 0)

/-- Method `histogram::observe(_weight)`, `v` being `mp_agent->state()`.  With
an empty `m_probs` the source indexes position `sz - 1` of an empty vector. -/
def histogram.observe {F : Type} [LinearOrderedField F] [FloorRing F] (v weight : F)
    (h : histogram F) : Except histogram_error (histogram F) :=
  let p := histogram.pos v h
  let sz := h.m_probs.length
  let h1 := { h with m_cum_weight := h.m_cum_weight + weight }
  if h.m_order = 1 then
    if sz = 0 then Except.error histogram_error.out_of_range
    else
      Except.ok { h1 with
        m_probs := vector_add_at (if sz ≤ p.1 then sz - 1 else p.1) weight h.m_probs }
  else if h.m_order = 2 then
    if sz = 0 then Except.error histogram_error.out_of_range
    else
      let prob1 := weight * (1 - p.2)
      let prob2 := weight * p.2
      let probs1 := vector_add_at (if sz ≤ p.1 then sz - 1 else p.1) prob1 h.m_probs
      Except.ok { h1 with
        m_probs := vector_add_at (if sz ≤ p.1 + 1 then sz - 1 else p.1 + 1) prob2 probs1 }
  else Except.error histogram_error.unsupported_order

/-- The calls `observe(w)` of a histogram for the pairs (agent state, weight)
of `obs`, in turn, up to the first that does not return. -/
def histogram.observe_all {F : Type} [LinearOrderedField F] [FloorRing F] :
    List (F × F) → histogram F → Except histogram_error (histogram F)
  | [], h => Except.ok h
  | vw :: obs, h =>
    match histogram.observe vw.1 vw.2 h with
    | Except.error e => Except.error e
    | Except.ok h1 => histogram.observe_all obs h1

/-- Method `histogram::end`. -/
def histogram.finish {F : Type} [LinearOrderedField F] (h : histogram F) : histogram F :=
  let w := if h.m_pdf then h.m_cum_weight * h.m_step else h.m_cum_weight
  { h with m_probs := h.m_probs.map (fun p => p / w) }

/-- The calls `init()`, `observe(w)` for each pair of `obs`, and `end()`. -/
def histogram.run {F : Type} [LinearOrderedField F] [FloorRing F] (tiny : F) (fuel : Nat)
    (obs : List (F × F)) (h : histogram F) : Except histogram_error (histogram F) :=
  match histogram.init tiny fuel h with
  | Except.error e => Except.error e
  | Except.ok h0 =>
    match histogram.observe_all obs h0 with
    | Except.error e => Except.error e
    | Except.ok h1 => Except.ok (histogram.finish h1)

/-- The comparison `a <= b + .1` between two times (`int`), as the legs write
it: the sum is taken in floating point, the tenth standing for any amount
strictly between 0 and 1. -/
def time_reached (a b : Int) : Bool := decide ((a : ℚ) ≤ (b : ℚ) + 1 / 10)

/-- The loop `while (itr != end && itr->key <= _time + .1) { ...; ++itr; }` of
the legs, run on the elements from the iterator on: the accumulated value and
the number of elements passed. -/
def seek_while {E A : Type} (key : E → Int) (step : A → E → A) (time : Int) :
    List E → A → A × Nat
  | [], acc => (acc, 0)
  | e :: rest, acc =>
    if time_reached (key e) time then
      ((seek_while key step time rest (step acc e)).1,
        (seek_while key step time rest (step acc e)).2 + 1)
    else (acc, 0)

/-- Struct `instrument_state`: market value, cashflow since the last step, and
whether the asset has terminated. -/
structure instrument_state (F : Type) where
  value : F
  flow : F
  matured : Bool
  deriving DecidableEq

/-- Constructor `instrument_state()` and method `clear()`. -/
def instrument_state.clear {F : Type} [Zero F] : instrument_state F :=
  { value := 0, flow := 0, matured := false }

/-- Operator `+=` of `instrument_state`. -/
def instrument_state.add {F : Type} [Add F] (a b : instrument_state F) : instrument_state F :=
  { value := a.value + b.value, flow := a.flow + b.flow, matured := a.matured && b.matured }

/-- Operator `*` of `instrument_state` with a `double`. -/
def instrument_state.scale {F : Type} [Mul F] (a : instrument_state F) (weight : F) :
    instrument_state F :=
  { a with value := a.value * weight, flow := a.flow * weight }

/-- A dependency that is a yield curve (a pointer to a `basic_yield_curve`): the
lifecycle methods together with the virtual `discount(_time)`. -/
structure yield_curve (C F : Type) extends linked_type C where
  discount : C → Int → F

/-- Struct `fixed_leg::flow_type`. -/
structure fixed_leg.flow_type (F : Type) where
  time : Int
  amount : F
  deriving DecidableEq

/-- Members that `fixed_leg` adds to the agent, with the world `C` in which its
yield curve lives; the iterators are positions in `m_flows`. -/
structure fixed_leg (C F : Type) where
  linked : C
  m_flows : List (fixed_leg.flow_type F)
  m_itr : Nat
  m_itr0 : Nat

/-- The dependency of a fixed leg, its yield curve, acting on the part of the
world in which it lives. -/
def fixed_leg.source {C F : Type} (yc : yield_curve C F) : linked_type (fixed_leg C F) :=
  { init := fun start stop rnd v => { v with linked := yc.init start stop rnd v.linked },
    reset := fun v => { v with linked := yc.reset v.linked },
    update := fun t v => { v with linked := yc.update t v.linked } }

/-- Method `fixed_leg::seek(_time)`: the amounts passed and the new members. -/
def fixed_leg.seek {C F : Type} [Add F] [Zero F] (time : Int) (v : fixed_leg C F) :
    F × fixed_leg C F :=
  let r := seek_while (fun e : fixed_leg.flow_type F => e.time) (fun x e => x + e.amount) time
    (v.m_flows.drop v.m_itr) 0
  (r.1, { v with m_itr := v.m_itr + r.2 })

/-- Method `fixed_leg::update_impl` at agent time `time` and agent state
`state`: the new state, the value returned and the new members. -/
def fixed_leg.update_impl {C F : Type} [Add F] [Mul F] [Zero F] (yc : yield_curve C F)
    (time : Int) (state : instrument_state F) (v : fixed_leg C F) :
    instrument_state F × Bool × fixed_leg C F :=
  if state.matured then ({ state with flow := 0, value := 0 }, false, v)
  else
    let r := fixed_leg.seek time v
    if r.2.m_itr = r.2.m_flows.length then
      ({ value := 0, flow := r.1, matured := true }, true, r.2)
    else
      ({ value := (r.2.m_flows.drop r.2.m_itr).foldl
            (fun x e => x + e.amount * yc.discount r.2.linked e.time) 0,
         flow := r.1, matured := state.matured }, true, r.2)

/-- Hooks of `fixed_leg` with its yield curve set: `init_impl` places the
iterator after the flows up to the start and saves it; `reset_impl` restores it
and calls `update_impl`, whose result it drops. -/
def fixed_leg.hooks {C F : Type} [Add F] [Mul F] [Zero F] (yc : yield_curve C F) :
    agent_hooks (instrument_state F) (fixed_leg C F) :=
  { init_impl := fun a v =>
      let v1 := (fixed_leg.seek a.m_start { v with m_itr := 0 }).2
      ({ value := 0, flow := 0, matured := decide (v1.m_itr = v1.m_flows.length) },
        { v1 with m_itr0 := v1.m_itr }),
    reset_impl := fun a v =>
      let r := fixed_leg.update_impl yc a.m_time a.m_state { v with m_itr := v.m_itr0 }
      (r.1, a.m_live, r.2.2),
    update_impl := fun a v => fixed_leg.update_impl yc a.m_time a.m_state v }

/-- An iterator at position `i` of the list `l`, ordered by `key`, stands
exactly after the elements whose key is at most `t`. -/
def cursor_at {E : Type} (key : E → Int) (l : List E) (i : Nat) (t : Int) : Prop :=
  i ≤ l.length ∧ (∀ e ∈ l.take i, key e ≤ t) ∧ (∀ e ∈ l.drop i, t < key e)

/-- What holds of a fixed leg with flows `fl` between calls once it has been
reset, `T` being the last time it was called for: the iterators stand after the
flows up to `T` and up to the start; a live leg is at time `T` and is marked
matured exactly when no flow is left; a leg that is no longer live has no flow
left and shows no flow and no value. -/
def fixed_leg.tracked {C F : Type} [Zero F] (fl : List (fixed_leg.flow_type F)) (T : Int)
    (m : machine (instrument_state F) (fixed_leg C F)) : Prop :=
  m.world.m_flows = fl ∧
    cursor_at (fun e : fixed_leg.flow_type F => e.time) fl m.world.m_itr T ∧
    cursor_at (fun e : fixed_leg.flow_type F => e.time) fl m.world.m_itr0 m.self.m_start ∧
    m.self.m_state0 = ⟨0, 0, decide (m.world.m_itr0 = fl.length)⟩ ∧
    m.self.m_start ≤ T ∧ m.self.m_time ≤ T ∧
    (m.self.m_live = true → m.self.m_time = T ∧
      (m.self.m_state.matured = true ↔ m.world.m_itr = fl.length)) ∧
    (m.self.m_live = false → m.world.m_itr = fl.length ∧ m.self.m_state.flow = 0 ∧
      m.self.m_state.value = 0)

/-- Class `cash`: the agent itself (an `instrument_agent`) and the members the
class adds. -/
structure cash (F : Type) where
  self : basic_agent_impl (instrument_state F)
  m_initial : F
  m_depo : F
  m_loan : F
  m_last_rate : F
  m_local_flow : F

/-- Method `cash::transaction(_value)`. -/
def cash.transaction {F : Type} [Add F] [Sub F] (value : F) (c : cash F) : cash F :=
  { c with
    m_local_flow := c.m_local_flow - value,
    self := { c.self with
      m_state := { c.self.m_state with value := c.self.m_state.value + value } } }

/-- Members that `portfolio` adds to the agent: the world `W` in which the
instruments, the weights and the rate agent live, and the cash account that
`mp_cash` points to when one is attached. -/
structure portfolio (W F : Type) where
  linked : W
  cash : cash F

/-- The loop of `portfolio::update_impl` over `m_names`, from a cleared state:
`m_state += itr->first->state() * itr->second->state()`. -/
def portfolio.aggregate {W F : Type} [Add F] [Mul F] [Zero F]
    (m_names : List (basic_valued_agent W (instrument_state F) × basic_valued_agent W F))
    (w : W) : instrument_state F :=
  m_names.foldl (fun st nw => st.add ((nw.1.state w).scale (nw.2.state w)))
    instrument_state.clear

/-- Method `portfolio::update_impl`, `has_cash` telling whether `mp_cash` is
set: the new state, the value returned and the new members. -/
def portfolio.update_impl {W F : Type} [Add F] [Sub F] [Mul F] [Zero F] (has_cash : Bool)
    (m_names : List (basic_valued_agent W (instrument_state F) × basic_valued_agent W F))
    (v : portfolio W F) : instrument_state F × Bool × portfolio W F :=
  let s := portfolio.aggregate m_names v.linked
  if has_cash then
    let c := cash.transaction s.flow v.cash
    ({ s with flow := 0, value := s.value + c.self.m_state.value }, !s.matured,
      { v with cash := c })
  else (s, !s.matured, v)

/-- Hooks of `portfolio`: `reset_impl` calls `update_impl` and drops its
result. -/
def portfolio.hooks {W F : Type} [Add F] [Sub F] [Mul F] [Zero F] (has_cash : Bool)
    (m_names : List (basic_valued_agent W (instrument_state F) × basic_valued_agent W F)) :
    agent_hooks (instrument_state F) (portfolio W F) :=
  { init_impl := fun a v => (a.m_state, v),
    reset_impl := fun a v =>
      ((portfolio.update_impl has_cash m_names v).1, a.m_live,
        (portfolio.update_impl has_cash m_names v).2.2),
    update_impl := fun _ v => portfolio.update_impl has_cash m_names v }

/-- What the text says of a portfolio with a cash account: no flow, and the
value is the weighted sum of the values of the instruments plus the value of the
account. -/
def portfolio.balanced {W F : Type} [Add F] [Mul F] [Zero F]
    (m_names : List (basic_valued_agent W (instrument_state F) × basic_valued_agent W F))
    (m : machine (instrument_state F) (portfolio W F)) : Prop :=
  m.self.m_state.flow = 0 ∧
    m.self.m_state.value =
      (m_names.map (fun nw => nw.2.state m.world.linked * (nw.1.state m.world.linked).value)).sum +
        m.world.cash.self.m_state.value

/-- Struct `flows::flow_type`; the member `end` is written `stop`. -/
structure flows.flow_type (F : Type) where
  fix : Int
  start : Int
  stop : Int
  pay : Int
  margin : F
  multiplier : F
  principal : F
  yf : F
  fixing : F
  deriving DecidableEq

/-- Members that `flows` adds to the agent, with the world `C` in which its
index agent lives; the iterators are positions in `m_leg`. -/
structure flows (C F : Type) where
  linked : C
  m_leg : List (flows.flow_type F)
  m_pitr : Nat
  m_fitr : Nat
  m_pitr0 : Nat
  m_fitr0 : Nat
  m_matured : Bool

/-- Method `flows::add(_fix,_start,_end,_pay,_multiplier,_margin,_principal,_yf)`
on `m_leg`; a negative `_yf` stands for none supplied. -/
def flows.add {F : Type} [LinearOrderedField F] (fix start stop pay : Int)
    (multiplier margin principal yf : F) (m_leg : List (flows.flow_type F)) :
    List (flows.flow_type F) :=
  m_leg ++ [{ fix := fix, start := start, stop := stop, pay := pay, multiplier := multiplier,
              margin := margin, principal := principal,
              yf := if yf < 0 then ((stop - start : Int) : F) / 365 else yf,
              fixing := 0 }]

/-- The dependency of a flows leg, its index agent, acting on the part of the
world in which it lives. -/
def flows.source {C F : Type} (index : basic_valued_agent C F) : linked_type (flows C F) :=
  { init := fun start stop rnd v => { v with linked := index.init start stop rnd v.linked },
    reset := fun v => { v with linked := index.reset v.linked },
    update := fun t v => { v with linked := index.update t v.linked } }

/-- What one row pays: `principal + (multiplier * fixing + margin) * yf`. -/
def flows.flow_type.amount {F : Type} [Add F] [Mul F] (e : flows.flow_type F) : F :=
  e.principal + (e.multiplier * e.fixing + e.margin) * e.yf

/-- Method `flows::seek(_time)`, `mp_index` being the index agent when one is
set: the first loop writes the state of the index into the rows whose fix date
is reached, the second adds up what the rows whose pay date is reached pay. -/
def flows.seek {C F : Type} [Add F] [Mul F] [Zero F] (mp_index : Option (basic_valued_agent C F))
    (time : Int) (v : flows C F) : F × flows C F :=
  let v1 : flows C F :=
    match mp_index with
    | some index =>
      let r := seek_while (fun e : flows.flow_type F => e.fix)
        (fun (acc : List (flows.flow_type F)) e =>
          acc ++ [{ e with fixing := index.state v.linked }])
        time (v.m_leg.drop v.m_fitr) []
      { v with m_leg := v.m_leg.take v.m_fitr ++ (r.1 ++ v.m_leg.drop (v.m_fitr + r.2)),
               m_fitr := v.m_fitr + r.2 }
    | none => v
  let p := seek_while (fun e : flows.flow_type F => e.pay) (fun (x : F) e => x + e.amount) time
    (v1.m_leg.drop v1.m_pitr) 0
  (p.1, { v1 with m_pitr := v1.m_pitr + p.2 })

/-- Method `flows::update_impl` at agent time `time`: the new state, the value
returned and the new members. -/
def flows.update_impl {C F : Type} [Add F] [Mul F] [Zero F]
    (mp_index : Option (basic_valued_agent C F)) (time : Int) (v : flows C F) :
    F × Bool × flows C F :=
  if v.m_matured then (0, false, v)
  else
    let r := flows.seek mp_index time v
    (r.1, true, { r.2 with m_matured := decide (r.2.m_pitr = r.2.m_leg.length) || r.2.m_matured })

/-- Hooks of `flows`: `init_impl` runs `seek(m_start)` from the beginning and
saves the two iterators; `reset_impl` clears `m_matured`, restores the
iterators and calls `update_impl`, whose result it drops. -/
def flows.hooks {C F : Type} [Add F] [Mul F] [Zero F]
    (mp_index : Option (basic_valued_agent C F)) : agent_hooks F (flows C F) :=
  { init_impl := fun a v =>
      let v1 := (flows.seek mp_index a.m_start { v with m_fitr := 0, m_pitr := 0 }).2
      (0, { v1 with m_fitr0 := v1.m_fitr, m_pitr0 := v1.m_pitr }),
    reset_impl := fun a v =>
      let r := flows.update_impl mp_index a.m_time
        { v with m_matured := false, m_fitr := v.m_fitr0, m_pitr := v.m_pitr0 }
      (r.1, a.m_live, r.2.2),
    update_impl := fun a v => flows.update_impl mp_index a.m_time v }

/-- What holds of a flows leg between calls once it has been reset, `T` being
the last time it was called for: the rows are ordered by fix date and by pay
date and none pays before it is fixed; the two iterators stand after the rows
fixed and paid up to `T`; a live leg is at time `T` and is marked matured
exactly when no row is left to pay; a leg that is no longer live has no row left
and shows the state 0. -/
def flows.tracked {C F : Type} [Zero F] (T : Int) (m : machine F (flows C F)) : Prop :=
  List.Pairwise (fun a b : flows.flow_type F => a.fix ≤ b.fix) m.world.m_leg ∧
    List.Pairwise (fun a b : flows.flow_type F => a.pay ≤ b.pay) m.world.m_leg ∧
    (∀ e ∈ m.world.m_leg, e.fix ≤ e.pay) ∧
    cursor_at (fun e : flows.flow_type F => e.fix) m.world.m_leg m.world.m_fitr T ∧
    cursor_at (fun e : flows.flow_type F => e.pay) m.world.m_leg m.world.m_pitr T ∧
    m.self.m_time ≤ T ∧
    (m.self.m_live = true → m.self.m_time = T ∧
      (m.world.m_matured = true ↔ m.world.m_pitr = m.world.m_leg.length)) ∧
    (m.self.m_live = false → m.world.m_pitr = m.world.m_leg.length ∧ m.self.m_state = 0)

/-- What `coupon_impl::setup` throws. -/
inductive coupon_error where
  | payment_before_fixing
  | end_before_start
  deriving DecidableEq, Repr

/-- Members of `coupon_impl` set by `setup`. -/
structure coupon_impl (F : Type) where
  m_fix : Int
  m_accrual_start : Int
  m_accrual_end : Int
  m_pay : Int
  m_year_fraction : F

/-- Method `coupon_impl::setup(_fix,_start,_end,_pay,_year_fraction)`. -/
def coupon_impl.setup {F : Type} (fix start stop pay : Int) (year_fraction : F)
    (_c : coupon_impl F) : Except coupon_error (coupon_impl F) :=
  if pay < fix then Except.error coupon_error.payment_before_fixing
  else if stop < start then Except.error coupon_error.end_before_start
  else Except.ok { m_fix := fix, m_accrual_start := start, m_accrual_end := stop, m_pay := pay,
                   m_year_fraction := year_fraction }

/-- Method `year_fraction::yf(_dt)` with the static `m_ratio` (365 unless
`set_ratio` changed it). -/
def year_fraction.yf {F : Type} [Div F] (ratio dt : F) : F := dt / ratio

/-- Members that `forward` adds to the agent, with the world `C` in which the
curve and the three agents it is connected to live.  The member `m_start` of
`forward` hides the one of the base agent. -/
structure forward (C F : Type) where
  linked : C
  m_start : Int
  m_expiry : Int
  m_has_started : Bool
  m_actual_strike : F
  m_actual_notional : F

/-- The curve and the agents a forward is connected to by `setup`. -/
structure forward.sources (C F : Type) where
  mp_yc : yield_curve C F
  mp_sec : basic_valued_agent C F
  mp_notional : basic_valued_agent C F
  mp_strike : basic_valued_agent C F

/-- Method `forward::setup` on the members (the connections are the `sources`). -/
def forward.setup {C F : Type} (start expiry : Int) (v : forward C F) : forward C F :=
  { v with m_start := start, m_expiry := expiry, m_has_started := false }

/-- The dependencies of a forward in the order `setup` connects them, each
acting on the part of the world in which it lives. -/
def forward.connected {C F : Type} (src : forward.sources C F) : List (linked_type (forward C F)) :=
  [src.mp_yc.tolinked_type, src.mp_sec.tolinked_type, src.mp_notional.tolinked_type,
    src.mp_strike.tolinked_type].map (fun d =>
      { init := fun start stop rnd v => { v with linked := d.init start stop rnd v.linked },
        reset := fun v => { v with linked := d.reset v.linked },
        update := fun t v => { v with linked := d.update t v.linked } })

/-- Method `forward::update_impl`: the new state, the value returned and the
new members. -/
def forward.update_impl {C F : Type} [Sub F] [Mul F] [Zero F] (src : forward.sources C F)
    (a : basic_agent_impl (instrument_state F)) (v : forward C F) :
    instrument_state F × Bool × forward C F :=
  if a.m_state.matured then ({ a.m_state with value := 0, flow := 0 }, false, v)
  else
    let v1 : forward C F :=
      if (!v.m_has_started) && decide (a.m_time ≥ v.m_start) then
        { v with m_actual_strike := src.mp_strike.state v.linked,
                 m_actual_notional := src.mp_notional.state v.linked,
                 m_has_started := true }
      else v
    let x := src.mp_sec.state v.linked
    if a.m_time ≥ v.m_expiry then
      ({ value := 0, flow := v1.m_actual_notional * (x - v1.m_actual_strike), matured := true },
        true, v1)
    else
      ({ a.m_state with
          value := v1.m_actual_notional * (x - v1.m_actual_strike) *
            src.mp_yc.discount v.linked v.m_expiry,
          flow := 0 }, true, v1)

/-- Hooks of `forward`: no `init_impl`; `reset_impl` calls `update_impl` and
drops its result. -/
def forward.hooks {C F : Type} [Sub F] [Mul F] [Zero F] (src : forward.sources C F) :
    agent_hooks (instrument_state F) (forward C F) :=
  { init_impl := fun a v => (a.m_state, v),
    reset_impl := fun a v =>
      ((forward.update_impl src a v).1, a.m_live, (forward.update_impl src a v).2.2),
    update_impl := fun a v => forward.update_impl src a v }

/-- Struct `swap_yield_curve::rate_type`: a rate agent and its tenor. -/
structure swap_yield_curve.rate_type (C F : Type) where
  rate : basic_valued_agent C F
  tenor : Int

/-- The loop `while(itr != m_rates.end() && itr->tenor > _time) ++itr;` of
`swap_yield_curve::discount`: the position at which the iterator stops. -/
def swap_yield_curve.discount_loop {C F : Type} (time : Int) :
    List (swap_yield_curve.rate_type C F) → Nat
  | [] => 0
  | r :: rs => if r.tenor > time then swap_yield_curve.discount_loop time rs + 1 else 0

/-- Method `swap_yield_curve::discount(_time)`, `exp` standing for `std::exp`
and `ratio` for the year-fraction ratio: `none` would be a read outside
`m_rates`. -/
def swap_yield_curve.discount {C F : Type} [Neg F] [Mul F] [Div F] [One F] [IntCast F]
    (exp : F → F) (ratio : F) (m_rates : List (swap_yield_curve.rate_type C F)) (c : C)
    (time : Int) : Option F :=
  let itr := swap_yield_curve.discount_loop time m_rates
  if itr = 0 then some 1
  else
    match m_rates[itr - 1]? with
    | some r => some (exp (-(r.rate.state c) * year_fraction.yf ratio (time : F)))
    | none => none

/-- What the text says `discount(t)` of the swap-rate curve is: the rate whose
tenor is the largest listed tenor not above `t`, and 1 when there is none. -/
def swap_yield_curve.discount_by_largest_tenor_below {C F : Type} [Neg F] [Mul F] [Div F]
    [One F] [IntCast F] (exp : F → F) (ratio : F)
    (m_rates : List (swap_yield_curve.rate_type C F)) (c : C) (time : Int) : F :=
  match (m_rates.filter (fun r => decide (r.tenor ≤ time))).getLast? with
  | some r => exp (-(r.rate.state c) * ((time : F) / ratio))
  | none => 1

/-- Method `constant_rate_yield_curve::discount(_time)` of a curve with rate
`m_rate` whose agent time is `m_time`. -/
def constant_rate_yield_curve.discount {F : Type} [Neg F] [Mul F] [Div F] [IntCast F]
    [OfNat F 365] (exp : F → F) (m_rate : F) (m_time time : Int) : F :=
  exp (-m_rate * ((time - m_time : Int) : F) / 365)

/-- Hooks of `constant_rate_yield_curve`: `reset_impl() {}` and
`update_impl() { return false; }`; the state is the rate set by `setup`. -/
def constant_rate_yield_curve.hooks {F : Type} : agent_hooks F Unit :=
  { init_impl := fun a v => (a.m_state, v),
    reset_impl := fun a v => (a.m_state, a.m_live, v),
    update_impl := fun a v => (a.m_state, false, v) }

/-- Method `static_yield_curve::discount(_time)`, `df` being the line
`*mp_df`. -/
def static_yield_curve.discount {F : Type} [Div F] [IntCast F] (df : F → F)
    (m_time time : Int) : F :=
  df (time : F) / df (m_time : F)

/-- Method `libor_yield_curve::discount(_time)` on the rate agents `m_rates`
and the stored discount factors `m_df`: `none` is a read outside one of the two
vectors. -/
def libor_yield_curve.discount {C F : Type} [LinearOrderedField F] [FloorRing F]
    (exp : F → F) (ratio : F) (m_rates : List (basic_valued_agent C F)) (m_df : List F)
    (m_tenor : Int) (m_time : Int) (c : C) (time : Int) : Option F :=
  let t : F := ((time - m_time : Int) : F)
  let n : F := t / (m_tenor : F)
  let i : Nat := Nat.floor n
  let i1 : Nat := if i ≥ m_rates.length then m_rates.length - 1 else i
  let acc : F := year_fraction.yf ratio (t - (i1 : F) * (m_tenor : F))
  match m_rates[i1]? with
  | none => none
  | some rate =>
    let df := exp (-(rate.state c) * acc)
    if i = 0 then some df
    else
      match m_df[i - 1]? with
      | none => none
      | some d => some (d * df)

/-- Method `libor_yield_curve::add_rate` on the two vectors. -/
def libor_yield_curve.add_rate {C F : Type} [One F] (rate : basic_valued_agent C F)
    (v : List (basic_valued_agent C F) × List F) : List (basic_valued_agent C F) × List F :=
  (v.1 ++ [rate], v.2 ++ [1])

/-- Method `combined_yield_curve::discount(_time)` from the `discount(_time)` of
its two curves. -/
def combined_yield_curve.discount {F : Type} [Mul F] (d1 d2 : Int → F) (time : Int) : F :=
  d1 time * d2 time

/-- The loop `while (x1 - x0 > 1) { ... }` of `math::sorted_find` on the
container `v`, entered with the indices `x0` and `x1`: the index returned.  The
first argument bounds the number of turns; `none` when the loop has not ended
within it or has read outside `v`. -/
def math.sorted_find_loop {α : Type} [LinearOrder α] (v : List α) (y : α) :
    Nat → Nat → Nat → Option Nat
  | 0, _, _ => none
  | fuel + 1, x0, x1 =>
    if x1 - x0 > 1 then
      match v[(x0 + x1) / 2]? with
      | none => none
      | some vy =>
        if y < vy then math.sorted_find_loop v y fuel x0 ((x0 + x1) / 2)
        else math.sorted_find_loop v y fuel ((x0 + x1) / 2) x1
    else some x0

/-- Function `math::sorted_find(v, y)`: `none` when it has read outside `v`
(the first reads `v[0]` and `v[size-1]` of an empty container) or when the loop
has not ended within the bound. -/
def math.sorted_find {α : Type} [LinearOrder α] (fuel : Nat) (v : List α) (y : α) :
    Option Int :=
  match v[0]?, v[v.length - 1]? with
  | some y0, some y1 =>
    if y < y0 then some (-1)
    else if y ≥ y1 then some ((v.length : Int) - 1)
    else
      match math.sorted_find_loop v y fuel 0 (v.length - 1) with
      | some i => some (i : Int)
      | none => none
  | _, _ => none

/-- Method `constant_interpolator<_dir>::operator()(_x)` on the table
`mr_table` of nodes `(x, y)`, `interp` being `_dir::interp`; `none` is a read
outside the table.  `linear_interpolator::operator()` has the same body with
`interp1` for `interp`. -/
def constant_interpolator.call {F : Type} [LinearOrder F] (interp : F → F → F → F → F → F)
    (fuel : Nat) (mr_table : List (F × F)) (x : F) : Option F :=
  match mr_table.head?, mr_table.getLast? with
  | some front, some back =>
    if x ≤ front.1 then some front.2
    else if x ≥ back.1 then some back.2
    else
      match math.sorted_find fuel (mr_table.map Prod.fst) x with
      | none => none
      | some i0 =>
        if i0 < 0 then none
        else
          match mr_table[i0.toNat]?, mr_table[i0.toNat + 1]? with
          | some a, some b => some (interp x a.1 b.1 a.2 b.2)
          | _, _ => none
  | _, _ => none

/-! ## The linked-list policy -/

theorem linked_list_policy.init_eq {W : Type} (start stop : Int) (rnd : Nat)
    (ds : List (linked_type W)) (i : Nat) (wc : W × List call) :
    linked_list_policy.init start stop rnd ds i wc =
      (ds.foldl (fun w d => d.init start stop rnd w) wc.1,
       wc.2 ++ (List.range ds.length).map (fun j => call.linked_init (i + j) start stop rnd)) := by
  induction ds generalizing i wc with
  | nil => simp [linked_list_policy.init]
  | cons d ds ih =>
    simp only [linked_list_policy.init, ih, List.foldl_cons, List.length_cons, List.range_succ_eq_map,
      List.map_cons, List.map_map, List.append_assoc, List.singleton_append, Nat.add_zero]
    congr 2
    simp only [List.cons.injEq, true_and]
    apply List.map_congr_left
    intro j _
    simp only [Function.comp_apply]
    congr 1
    omega

theorem linked_list_policy.reset_eq {W : Type}
    (ds : List (linked_type W)) (i : Nat) (wc : W × List call) :
    linked_list_policy.reset ds i wc =
      (ds.foldl (fun w d => d.reset w) wc.1,
       wc.2 ++ (List.range ds.length).map (fun j => call.linked_reset (i + j))) := by
  induction ds generalizing i wc with
  | nil => simp [linked_list_policy.reset]
  | cons d ds ih =>
    simp only [linked_list_policy.reset, ih, List.foldl_cons, List.length_cons, List.range_succ_eq_map,
      List.map_cons, List.map_map, List.append_assoc, List.singleton_append, Nat.add_zero]
    congr 2
    simp only [List.cons.injEq, true_and]
    apply List.map_congr_left
    intro j _
    simp only [Function.comp_apply]
    congr 1
    omega

theorem linked_list_policy.update_eq {W : Type} (t : Int)
    (ds : List (linked_type W)) (i : Nat) (wc : W × List call) :
    linked_list_policy.update t ds i wc =
      (ds.foldl (fun w d => d.update t w) wc.1,
       wc.2 ++ (List.range ds.length).map (fun j => call.linked_update (i + j) t)) := by
  induction ds generalizing i wc with
  | nil => simp [linked_list_policy.update]
  | cons d ds ih =>
    simp only [linked_list_policy.update, ih, List.foldl_cons, List.length_cons, List.range_succ_eq_map,
      List.map_cons, List.map_map, List.append_assoc, List.singleton_append, Nat.add_zero]
    congr 2
    simp only [List.cons.injEq, true_and]
    apply List.map_congr_left
    intro j _
    simp only [Function.comp_apply]
    congr 1
    omega

/-! ## The base agent -/

theorem basic_agent_impl.update_of_le {S W : Type} (h : agent_hooks S W)
    (ds : List (linked_type W)) (t : Int) (m : machine S W) (ht : t ≤ m.self.m_time) :
    basic_agent_impl.update h ds t m = m := by
  simp [basic_agent_impl.update, ht]

theorem basic_agent_impl.update_self_of_not_live {S W : Type} (h : agent_hooks S W)
    (ds : List (linked_type W)) (t : Int) (m : machine S W) (hl : m.self.m_live = false) :
    (basic_agent_impl.update h ds t m).self = m.self := by
  unfold basic_agent_impl.update
  split_ifs <;> simp_all


theorem basic_agent_impl.update_live_false {S W : Type} (h : agent_hooks S W)
    (ds : List (linked_type W)) (t : Int) (m : machine S W) (hl : m.self.m_live = false) :
    (basic_agent_impl.update h ds t m).self.m_live = false := by
  rw [basic_agent_impl.update_self_of_not_live h ds t m hl]; exact hl

theorem basic_agent_impl.updates_live_false {S W : Type} (h : agent_hooks S W)
    (ds : List (linked_type W)) (ts : List Int) (m : machine S W) (hl : m.self.m_live = false) :
    (basic_agent_impl.updates h ds ts m).self.m_live = false := by
  induction ts generalizing m with
  | nil => exact hl
  | cons t ts ih => exact ih _ (basic_agent_impl.update_live_false h ds t m hl)

theorem basic_agent_impl.reset_image_step {S W : Type} (h : agent_hooks S W)
    (ds : List (linked_type W)) (start : Int) (s0 : S) (o : op) (m : machine S W)
    (hm : reset_image start s0 m.self) :
    reset_image start s0
      (basic_agent_impl.step { h with reset_impl := (agent_hooks.default S W).reset_impl } ds o
        m).self := by
  obtain ⟨h1, h2, h3⟩ := hm
  cases o with
  | reset =>
    simp only [basic_agent_impl.step, basic_agent_impl.reset, agent_hooks.default]
    split_ifs with hr
    · exact ⟨h1, h2, h3⟩
    · exact ⟨h1, h2, fun _ => ⟨h1, h2, rfl, rfl⟩⟩
  | update t =>
    simp only [basic_agent_impl.step, basic_agent_impl.update]
    split_ifs with ht hl
    · exact ⟨h1, h2, h3⟩
    · exact ⟨h1, h2, h3⟩
    · exact ⟨h1, h2, fun hr => by simp at hr⟩

theorem basic_agent_impl.reset_image_run {S W : Type} (h : agent_hooks S W)
    (ds : List (linked_type W)) (start : Int) (s0 : S) (os : List op) (m : machine S W)
    (hm : reset_image start s0 m.self) :
    reset_image start s0
      (basic_agent_impl.run { h with reset_impl := (agent_hooks.default S W).reset_impl } ds os
        m).self := by
  induction os generalizing m with
  | nil => exact hm
  | cons o os ih => exact ih _ (basic_agent_impl.reset_image_step h ds start s0 o m hm)

/-- C1. A base agent with the default `reset_impl` (any `init_impl` and
`update_impl`, any dependencies) that is initialised by `init(start, end, rnd)`
and then driven through any sequence of `update` and `reset` calls is, after a
further `reset()`, at `time = start`, in the state it had at the end of `init`
(which is `m_state0`), live, and with `dtime = 0`. -/
theorem basic_agent_impl.reset_restores {S W : Type} (h : agent_hooks S W)
    (ds : List (linked_type W)) (start stop : Int) (rnd : Nat) (os : List op)
    (m : machine S W) (hi : m.self.m_init = false) :
    let h0 : agent_hooks S W := { h with reset_impl := (agent_hooks.default S W).reset_impl }
    let m1 := basic_agent_impl.init h0 ds start stop rnd m
    let m2 := basic_agent_impl.reset h0 ds (basic_agent_impl.run h0 ds os m1)
    m1.self.m_state0 = m1.self.m_state ∧
      m2.self.m_time = start ∧ m2.self.m_state = m1.self.m_state ∧
      m2.self.m_live = true ∧ m2.self.m_dtime = 0 := by
  intro h0 m1 m2
  have hs : m1.self.m_state0 = m1.self.m_state := by
    simp [m1, basic_agent_impl.init, hi]
  have hm1 : reset_image start m1.self.m_state m1.self := by
    refine ⟨?_, hs, ?_⟩ <;> simp [m1, basic_agent_impl.init, hi]
  have hrun := basic_agent_impl.reset_image_run h ds start m1.self.m_state os m1 hm1
  have hlast := basic_agent_impl.reset_image_step h ds start m1.self.m_state op.reset _ hrun
  have hflag : m2.self.m_reset = true := by
    simp only [m2, basic_agent_impl.reset]
    split_ifs with hr
    · exact hr
    · rfl
  obtain ⟨_, _, h3⟩ := hlast
  obtain ⟨a, b, c, d⟩ := h3 hflag
  exact ⟨hs, a, b, c, d⟩

/-- C2. For every base agent and every `t <= time`, `update(t)` changes
nothing: the agent (time, dtime, state, live, flags), the dependencies and the
record of calls are the same, so neither `update_impl` nor any dependency was
called. -/
theorem basic_agent_impl.update_not_after_is_noop {S W : Type} (h : agent_hooks S W)
    (ds : List (linked_type W)) (t : Int) (m : machine S W) (ht : t ≤ m.self.m_time) :
    basic_agent_impl.update h ds t m = m ∧
      (basic_agent_impl.update h ds t m).self = m.self ∧
      (basic_agent_impl.update h ds t m).world = m.world ∧
      (basic_agent_impl.update h ds t m).calls = m.calls := by
  rw [basic_agent_impl.update_of_le h ds t m ht]
  exact ⟨rfl, rfl, rfl, rfl⟩


/-- Witness of C1: the `time` agent, constructed, initialised on `[0, 10]`,
reset, updated to 3 and reset again. -/
theorem basic_agent_impl.reset_restores_witness :
    (⟨basic_agent_impl.ctor (0 : Int), (), []⟩ : machine Int Unit).self.m_init = false ∧
    (let h0 : agent_hooks Int Unit :=
        { time_hooks Unit with reset_impl := (agent_hooks.default Int Unit).reset_impl }
     let m1 := basic_agent_impl.init h0 [] 0 10 0 ⟨basic_agent_impl.ctor (0 : Int), (), []⟩
     let m2 := basic_agent_impl.reset h0 []
        (basic_agent_impl.run h0 [] [op.reset, op.update 3] m1)
     m1.self.m_state0 = m1.self.m_state ∧
      m2.self.m_time = 0 ∧ m2.self.m_state = m1.self.m_state ∧
      m2.self.m_live = true ∧ m2.self.m_dtime = 0) :=
  ⟨rfl, basic_agent_impl.reset_restores (time_hooks Unit) [] 0 10 0 [op.reset, op.update 3]
    ⟨basic_agent_impl.ctor (0 : Int), (), []⟩ rfl⟩

/-- Witness of C2: the `time` agent at time 3 receives `update(2)`. -/
theorem basic_agent_impl.update_not_after_is_noop_witness :
    let m : machine Int Unit :=
      basic_agent_impl.run (time_hooks Unit) [] [op.reset, op.update 3]
        (basic_agent_impl.init (time_hooks Unit) [] 0 10 0 ⟨basic_agent_impl.ctor 0, (), []⟩)
    (2 : Int) ≤ m.self.m_time ∧ basic_agent_impl.update (time_hooks Unit) [] 2 m = m :=
  ⟨by decide,
   (basic_agent_impl.update_not_after_is_noop (time_hooks Unit) [] 2
      (basic_agent_impl.run (time_hooks Unit) [] [op.reset, op.update 3]
        (basic_agent_impl.init (time_hooks Unit) [] 0 10 0 ⟨basic_agent_impl.ctor 0, (), []⟩))
      (by decide)).1⟩

theorem le_foldl_max (ts : List Int) (a : Int) : a ≤ ts.foldl max a := by
  induction ts generalizing a with
  | nil => exact le_refl a
  | cons t ts ih => exact le_trans (le_max_left a t) (ih (max a t))

theorem foldl_max_mono (ts : List Int) (a b : Int) (hab : a ≤ b) :
    ts.foldl max a ≤ ts.foldl max b := by
  induction ts generalizing a b with
  | nil => exact hab
  | cons t ts ih => exact ih _ _ (max_le_max hab (le_refl t))

theorem basic_agent_impl.update_time {S W : Type} (h : agent_hooks S W)
    (ds : List (linked_type W)) (t : Int) (m : machine S W) :
    (basic_agent_impl.update h ds t m).self.m_time =
      if t ≤ m.self.m_time ∨ m.self.m_live = false then m.self.m_time else t := by
  by_cases ht : t ≤ m.self.m_time
  · simp [basic_agent_impl.update, ht]
  · cases hl : m.self.m_live <;> simp [basic_agent_impl.update, ht, hl]

theorem basic_agent_impl.updates_time_bounds {S W : Type} (h : agent_hooks S W)
    (ds : List (linked_type W)) (ts : List Int) (m : machine S W) :
    m.self.m_time ≤ (basic_agent_impl.updates h ds ts m).self.m_time ∧
      (basic_agent_impl.updates h ds ts m).self.m_time ≤ ts.foldl max m.self.m_time := by
  induction ts generalizing m with
  | nil => exact ⟨le_refl _, le_refl _⟩
  | cons t ts ih =>
    obtain ⟨h1, h2⟩ := ih (basic_agent_impl.update h ds t m)
    have ht := basic_agent_impl.update_time h ds t m
    simp only [basic_agent_impl.updates, List.foldl_cons]
    constructor
    · refine le_trans ?_ h1
      rw [ht]; split_ifs with hc
      · exact le_refl _
      · push_neg at hc; exact le_of_lt hc.1
    · refine le_trans h2 (foldl_max_mono ts _ _ ?_)
      rw [ht]; split_ifs with hc
      · exact le_max_left _ _
      · exact le_max_right _ _

theorem basic_agent_impl.updates_time_live {S W : Type} (h : agent_hooks S W)
    (ds : List (linked_type W)) (ts : List Int) (m : machine S W)
    (hl : (basic_agent_impl.updates h ds ts m).self.m_live = true) :
    (basic_agent_impl.updates h ds ts m).self.m_time = ts.foldl max m.self.m_time := by
  induction ts generalizing m with
  | nil => rfl
  | cons t ts ih =>
    simp only [basic_agent_impl.updates, List.foldl_cons] at hl ⊢
    have hm : m.self.m_live = true := by
      by_contra hc
      have hf : m.self.m_live = false := by simpa using hc
      have := basic_agent_impl.updates_live_false h ds ts _
        (basic_agent_impl.update_live_false h ds t m hf)
      rw [this] at hl; exact Bool.noConfusion hl
    rw [ih _ hl, basic_agent_impl.update_time h ds t m]
    congr 1
    split_ifs with hc
    · rcases hc with hc | hc
      · exact (max_eq_left hc).symm
      · rw [hm] at hc; exact Bool.noConfusion hc
    · push_neg at hc; exact (max_eq_right (le_of_lt hc.1)).symm

theorem basic_agent_impl.reset_time {S W : Type} (h : agent_hooks S W)
    (ds : List (linked_type W)) (m : machine S W) (hr : m.self.m_reset = false) :
    (basic_agent_impl.reset h ds m).self.m_time = m.self.m_start ∧
      (basic_agent_impl.reset h ds m).self.m_start = m.self.m_start := by
  simp [basic_agent_impl.reset, hr]

/-- C3, the claim as stated fails: an agent whose `update_impl` returns false at
time 1 is reset at start 0 and receives `update(1)`, `update(2)`; its time stays
1 although the maximum of the start and the update times is 2. -/
theorem basic_agent_impl.monotone_time_counterexample :
    (basic_agent_impl.updates (maturing_hooks 1) [] [1, 2]
      (basic_agent_impl.reset (maturing_hooks 1) []
        (basic_agent_impl.init (maturing_hooks 1) [] 0 10 0
          ⟨basic_agent_impl.ctor 0, (), []⟩))).self.m_time = 1 ∧
    List.foldl max (0 : Int) [1, 2] = 2 := by
  decide

/-- C3, amended. For every agent on which `reset()` has just taken effect and
every sequence `update(t1), ..., update(tn)`: the time never falls below
`start` nor exceeds the maximum of `start` and the `ti`, and it equals that
maximum whenever the agent is still live after the sequence (every
`update_impl` that ran returned true). -/
theorem basic_agent_impl.monotone_time_while_live {S W : Type} (h : agent_hooks S W)
    (ds : List (linked_type W)) (ts : List Int) (m : machine S W)
    (hr : m.self.m_reset = false) :
    let m1 := basic_agent_impl.reset h ds m
    let m2 := basic_agent_impl.updates h ds ts m1
    m1.self.m_start ≤ m2.self.m_time ∧ m2.self.m_time ≤ ts.foldl max m1.self.m_start ∧
      (m2.self.m_live = true → m2.self.m_time = ts.foldl max m1.self.m_start) := by
  intro m1 m2
  obtain ⟨e1, e2⟩ := basic_agent_impl.reset_time h ds m hr
  have e : m1.self.m_time = m1.self.m_start := by
    show (basic_agent_impl.reset h ds m).self.m_time = (basic_agent_impl.reset h ds m).self.m_start
    rw [e1, e2]
  obtain ⟨b1, b2⟩ := basic_agent_impl.updates_time_bounds h ds ts m1
  rw [e] at b1 b2
  refine ⟨b1, b2, fun hl => ?_⟩
  have := basic_agent_impl.updates_time_live h ds ts m1 hl
  rw [e] at this
  exact this

/-- Witness of C3 (amended): the `time` agent, reset at start 0 and updated to
1, 5 and 3, is live and at time 5. -/
theorem basic_agent_impl.monotone_time_while_live_witness :
    let m : machine Int Unit :=
      basic_agent_impl.init (time_hooks Unit) [] 0 10 0 ⟨basic_agent_impl.ctor 0, (), []⟩
    let m2 := basic_agent_impl.updates (time_hooks Unit) [] [1, 5, 3]
      (basic_agent_impl.reset (time_hooks Unit) [] m)
    m.self.m_reset = false ∧ m2.self.m_live = true ∧ m2.self.m_time = 5 :=
  ⟨rfl, rfl,
   (basic_agent_impl.monotone_time_while_live (time_hooks Unit) [] [1, 5, 3]
      (basic_agent_impl.init (time_hooks Unit) [] 0 10 0 ⟨basic_agent_impl.ctor 0, (), []⟩)
      rfl).2.2 rfl⟩


/-- C4. `reset()` followed at once by `reset()` leaves the same agent, the same
dependencies and the same record of calls as a single `reset()`: the second call
changes no member and invokes neither `reset_impl` nor the dependencies. -/
theorem basic_agent_impl.reset_twice_is_reset {S W : Type} (h : agent_hooks S W)
    (ds : List (linked_type W)) (m : machine S W) :
    basic_agent_impl.reset h ds (basic_agent_impl.reset h ds m) =
      basic_agent_impl.reset h ds m := by
  cases hr : m.self.m_reset
  · simp [basic_agent_impl.reset, hr]
  · simp [basic_agent_impl.reset, hr]

/-- C5. After `init(s, e, r)`, a second `init(s2, e2, r2)` with any arguments
changes nothing: every member of the agent, the dependencies and the record of
calls are those left by the first call, so `init_impl` is not run again and no
dependency is initialised again. -/
theorem basic_agent_impl.init_twice_is_init {S W : Type} (h : agent_hooks S W)
    (ds : List (linked_type W)) (s e : Int) (r : Nat) (s2 e2 : Int) (r2 : Nat)
    (m : machine S W) :
    basic_agent_impl.init h ds s2 e2 r2 (basic_agent_impl.init h ds s e r m) =
      basic_agent_impl.init h ds s e r m := by
  cases hi : m.self.m_init
  · simp [basic_agent_impl.init, hi]
  · simp [basic_agent_impl.init, hi]

theorem basic_agent_impl.update_calls {S W : Type} (h : agent_hooks S W)
    (ds : List (linked_type W)) (t : Int) (m : machine S W) :
    (basic_agent_impl.update h ds t m).calls.count call.update_impl =
      m.calls.count call.update_impl +
        (if m.self.m_time < t ∧ m.self.m_live = true then 1 else 0) := by
  have hz : List.count call.update_impl
      ((List.range ds.length).map (fun j => call.linked_update j t)) = 0 := by
    rw [List.count_eq_zero]
    intro hmem
    obtain ⟨j, _, hj⟩ := List.mem_map.1 hmem
    exact call.noConfusion hj
  by_cases ht : t ≤ m.self.m_time
  · have : ¬ m.self.m_time < t := not_lt.2 ht
    simp [basic_agent_impl.update, ht, this]
  · have ht2 : m.self.m_time < t := not_le.1 ht
    cases hl : m.self.m_live
    · simp only [basic_agent_impl.update, ht, hl, linked_list_policy.update_eq, if_false,
        Bool.not_false, if_true, List.count_append]
      simpa using hz
    · simp only [basic_agent_impl.update, ht, hl, linked_list_policy.update_eq, if_false,
        Bool.not_true, List.count_append, ht2, and_self, if_true]
      simpa using hz

/-- C6. Once the live flag of a base agent is false, every further sequence of
`update(t)` calls, whatever the times, leaves all the agent's own members
(time, dtime, state, live among them) unchanged and does not invoke
`update_impl`: the record of calls holds as many `update_impl` entries after the
sequence as before. -/
theorem basic_agent_impl.not_live_updates_are_frozen {S W : Type} (h : agent_hooks S W)
    (ds : List (linked_type W)) (ts : List Int) (m : machine S W)
    (hl : m.self.m_live = false) :
    (basic_agent_impl.updates h ds ts m).self = m.self ∧
      (basic_agent_impl.updates h ds ts m).calls.count call.update_impl =
        m.calls.count call.update_impl := by
  induction ts generalizing m with
  | nil => exact ⟨rfl, rfl⟩
  | cons t ts ih =>
    have hs := basic_agent_impl.update_self_of_not_live h ds t m hl
    have hl2 : (basic_agent_impl.update h ds t m).self.m_live = false := by rw [hs]; exact hl
    obtain ⟨i1, i2⟩ := ih (basic_agent_impl.update h ds t m) hl2
    refine ⟨i1.trans hs, i2.trans ?_⟩
    rw [basic_agent_impl.update_calls h ds t m, hl]
    simp

/-- Witness of C6: an agent that matured at time 1 receives `update(2)`,
`update(7)`, `update(3)`. -/
theorem basic_agent_impl.not_live_updates_are_frozen_witness :
    let m : machine Int Unit :=
      basic_agent_impl.run (maturing_hooks 1) [] [op.reset, op.update 1]
        (basic_agent_impl.init (maturing_hooks 1) [] 0 10 0 ⟨basic_agent_impl.ctor 0, (), []⟩)
    m.self.m_live = false ∧
      (basic_agent_impl.updates (maturing_hooks 1) [] [2, 7, 3] m).self = m.self ∧
      (basic_agent_impl.updates (maturing_hooks 1) [] [2, 7, 3] m).calls.count
        call.update_impl = m.calls.count call.update_impl :=
  ⟨by decide,
   basic_agent_impl.not_live_updates_are_frozen (maturing_hooks 1) [] [2, 7, 3]
      (basic_agent_impl.run (maturing_hooks 1) [] [op.reset, op.update 1]
        (basic_agent_impl.init (maturing_hooks 1) [] 0 10 0 ⟨basic_agent_impl.ctor 0, (), []⟩))
      (by decide)⟩

/-- C8. When `update(t)`, with `t` after the agent's time, is delivered twice in
a row to a live base agent, the first call runs `update_impl` exactly once and
the second call changes nothing: agent, dependencies and record of calls are
those left by the first call. -/
theorem basic_agent_impl.update_twice_runs_hook_once {S W : Type} (h : agent_hooks S W)
    (ds : List (linked_type W)) (t : Int) (m : machine S W)
    (hl : m.self.m_live = true) (ht : m.self.m_time < t) :
    basic_agent_impl.update h ds t (basic_agent_impl.update h ds t m) =
        basic_agent_impl.update h ds t m ∧
      (basic_agent_impl.update h ds t m).calls.count call.update_impl =
        m.calls.count call.update_impl + 1 ∧
      (basic_agent_impl.update h ds t (basic_agent_impl.update h ds t m)).calls.count
        call.update_impl = m.calls.count call.update_impl + 1 := by
  have h1 : (basic_agent_impl.update h ds t m).self.m_time = t := by
    rw [basic_agent_impl.update_time h ds t m]
    have : ¬ t ≤ m.self.m_time := not_le.2 ht
    simp [this, hl]
  have h2 : basic_agent_impl.update h ds t (basic_agent_impl.update h ds t m) =
      basic_agent_impl.update h ds t m :=
    basic_agent_impl.update_of_le h ds t _ (le_of_eq h1.symm)
  have h3 : (basic_agent_impl.update h ds t m).calls.count call.update_impl =
      m.calls.count call.update_impl + 1 := by
    rw [basic_agent_impl.update_calls h ds t m]
    simp [ht, hl]
  exact ⟨h2, h3, by rw [h2]; exact h3⟩

/-- Witness of C8: the `time` agent, reset at 0, receives `update(4)` twice. -/
theorem basic_agent_impl.update_twice_runs_hook_once_witness :
    let m : machine Int Unit :=
      basic_agent_impl.reset (time_hooks Unit) []
        (basic_agent_impl.init (time_hooks Unit) [] 0 10 0 ⟨basic_agent_impl.ctor 0, (), []⟩)
    m.self.m_live = true ∧ m.self.m_time < 4 ∧
      basic_agent_impl.update (time_hooks Unit) [] 4
          (basic_agent_impl.update (time_hooks Unit) [] 4 m) =
        basic_agent_impl.update (time_hooks Unit) [] 4 m :=
  ⟨by decide, by decide,
   (basic_agent_impl.update_twice_runs_hook_once (time_hooks Unit) [] 4
      (basic_agent_impl.reset (time_hooks Unit) []
        (basic_agent_impl.init (time_hooks Unit) [] 0 10 0 ⟨basic_agent_impl.ctor 0, (), []⟩))
      (by decide) (by decide)).1⟩


/-! ## Forwarding to the dependencies -/

theorem stored_agent_update_get {D : Type} (hk : agent_hooks D Unit) (t : Int) (j k : Nat)
    (w : List (basic_agent_impl D)) :
    ((stored_agent hk j).update t w)[k]? =
      if j = k then (w[k]?).map (fun a => (basic_agent_impl.update hk [] t ⟨a, (), []⟩).self)
      else w[k]? := by
  by_cases hjk : j = k
  · subst hjk
    cases hw : w[j]? with
    | none => simp [stored_agent, hw]
    | some a =>
      have hlt : j < w.length := (List.getElem?_eq_some.1 hw).1
      simp [stored_agent, hw, List.getElem?_set_self hlt]
  · cases hw : w[j]? with
    | none => simp [stored_agent, hw, hjk]
    | some a => simp [stored_agent, hw, hjk, List.getElem?_set_ne hjk]

theorem stored_agent_fold_update {D : Type} (hk : agent_hooks D Unit) (t : Int) (i : Nat)
    (js : List Nat) (w : List (basic_agent_impl D)) (a : basic_agent_impl D)
    (hw : w[i]? = some a) :
    ∃ a2, ((js.map (stored_agent hk)).foldl (fun w d => d.update t w) w)[i]? = some a2 ∧
      (a.m_live = false → a2 = a) ∧
      (a.m_time = t → a2.m_time = t) ∧
      (i ∈ js → a.m_live = true → a.m_time ≤ t → a2.m_time = t) := by
  induction js generalizing w a with
  | nil => exact ⟨a, hw, fun _ => rfl, fun e => e, fun hmem => absurd hmem (List.not_mem_nil i)⟩
  | cons j js ih =>
    simp only [List.map_cons, List.foldl_cons]
    by_cases hji : j = i
    · have h1 : ((stored_agent hk j).update t w)[i]? =
          some (basic_agent_impl.update hk [] t ⟨a, (), []⟩).self := by
        rw [stored_agent_update_get, if_pos hji, hw]; rfl
      obtain ⟨a2, e2, p1, p2, _⟩ := ih _ _ h1
      have ht : (basic_agent_impl.update hk [] t ⟨a, (), []⟩).self.m_time =
          if t ≤ a.m_time ∨ a.m_live = false then a.m_time else t :=
        basic_agent_impl.update_time hk [] t ⟨a, (), []⟩
      refine ⟨a2, e2, ?_, ?_, ?_⟩
      · intro hl
        have hs : (basic_agent_impl.update hk [] t ⟨a, (), []⟩).self = a :=
          basic_agent_impl.update_self_of_not_live hk [] t ⟨a, (), []⟩ hl
        rw [hs] at p1
        exact p1 hl
      · intro he
        apply p2
        rw [ht]; simp [he]
      · intro _ hl hle
        apply p2
        rw [ht]
        split_ifs with hc
        · rcases hc with hc | hc
          · exact le_antisymm hle hc
          · rw [hl] at hc; exact Bool.noConfusion hc
        · rfl
    · have h1 : ((stored_agent hk j).update t w)[i]? = some a := by
        rw [stored_agent_update_get, if_neg hji, hw]
      obtain ⟨a2, e2, p1, p2, p3⟩ := ih _ _ h1
      refine ⟨a2, e2, p1, p2, fun hmem => p3 ?_⟩
      rcases List.mem_cons.1 hmem with hm | hm
      · exact absurd hm.symm hji
      · exact hm

/-- C7, the claim as stated fails in its last part: a parent whose only
dependency matured at time 1 receives `update(5)`; the call is forwarded before
`update_impl` runs, yet the hook finds the dependency at time 1, not at the new
time 5 (the parent's state is the dependency time its hook observed). -/
theorem basic_agent_impl.hook_sees_lagging_dependency :
    let ds := [stored_agent (maturing_hooks 1) 0]
    let m := basic_agent_impl.run watching_hooks ds [op.reset, op.update 1, op.update 5]
      (basic_agent_impl.init watching_hooks ds 0 10 0
        ⟨basic_agent_impl.ctor 0, [basic_agent_impl.ctor 0], []⟩)
    m.self.m_time = 5 ∧ m.self.m_state = 1 ∧
      (m.world[0]?).map (fun d => (d.m_time, d.m_live)) = some (1, false) ∧
      m.calls = [call.linked_init 0 0 10 0, call.init_impl, call.linked_reset 0,
        call.reset_impl, call.linked_update 0 1, call.update_impl, call.linked_update 0 5,
        call.update_impl] := by
  decide


/-- C7, amended. For an agent with a list of dependencies: `init` (when the
agent is not yet initialised), `reset` (when it is not already reset) and
`update(t)` with `t > time` forward the same call to every dependency, in
`connect` order, and only then run `init_impl` / `reset_impl` / `update_impl`
(the last only if the agent is live), which receives the dependencies as those
calls left them.  Where the dependencies are base agents, the hook of `update(t)`
finds every connected one that was live with `time <= t` at the new time `t`,
and every one that was no longer live exactly as it was before the call. -/
theorem basic_agent_impl.dependencies_first_then_hook {S W D : Type}
    (h : agent_hooks S W) (ds : List (linked_type W)) (s e : Int) (r : Nat) (t : Int)
    (m : machine S W) (hk : agent_hooks D Unit) (js : List Nat)
    (w : List (basic_agent_impl D)) :
    (m.self.m_init = false →
      basic_agent_impl.init h ds s e r m =
        (let a := { m.self with mp_rnd := r, m_start := s, m_time := s, m_end := e }
         let x := h.init_impl a (ds.foldl (fun v d => d.init s e r v) m.world)
         { self := { a with m_state := x.1, m_state0 := x.1, m_init := true, m_reset := false },
           world := x.2,
           calls := m.calls ++ (List.range ds.length).map (fun j => call.linked_init j s e r)
             ++ [call.init_impl] })) ∧
    (m.self.m_reset = false →
      basic_agent_impl.reset h ds m =
        (let a := { m.self with
           m_time := m.self.m_start, m_state := m.self.m_state0, m_dtime := 0,
           m_live := true, m_init := false }
         let x := h.reset_impl a (ds.foldl (fun v d => d.reset v) m.world)
         { self := { a with m_state := x.1, m_live := x.2.1, m_reset := true },
           world := x.2.2,
           calls := m.calls ++ (List.range ds.length).map (fun j => call.linked_reset j)
             ++ [call.reset_impl] })) ∧
    (m.self.m_time < t → m.self.m_live = true →
      basic_agent_impl.update h ds t m =
        (let a := { m.self with m_reset := false, m_dtime := t - m.self.m_time, m_time := t }
         let x := h.update_impl a (ds.foldl (fun v d => d.update t v) m.world)
         { self := { a with m_state := x.1, m_live := x.2.1 },
           world := x.2.2,
           calls := m.calls ++ (List.range ds.length).map (fun j => call.linked_update j t)
             ++ [call.update_impl] })) ∧
    (m.self.m_time < t → m.self.m_live = false →
      basic_agent_impl.update h ds t m =
        { self := m.self,
          world := ds.foldl (fun v d => d.update t v) m.world,
          calls := m.calls ++ (List.range ds.length).map (fun j => call.linked_update j t) }) ∧
    (∀ i ∈ js, ∀ a, w[i]? = some a →
      ∃ a2, ((js.map (stored_agent hk)).foldl (fun v d => d.update t v) w)[i]? = some a2 ∧
        (a.m_live = true → a.m_time ≤ t → a2.m_time = t) ∧
        (a.m_live = false → a2 = a)) := by
  refine ⟨?_, ?_, ?_, ?_, ?_⟩
  · intro hi
    simp [basic_agent_impl.init, hi, linked_list_policy.init_eq]
  · intro hr
    simp [basic_agent_impl.reset, hr, linked_list_policy.reset_eq]
  · intro ht hl
    have : ¬ t ≤ m.self.m_time := not_le.2 ht
    simp [basic_agent_impl.update, this, hl, linked_list_policy.update_eq]
  · intro ht hl
    have : ¬ t ≤ m.self.m_time := not_le.2 ht
    simp [basic_agent_impl.update, this, hl, linked_list_policy.update_eq]
  · intro i hi a ha
    obtain ⟨a2, e2, p1, _, p3⟩ := stored_agent_fold_update hk t i js w a ha
    exact ⟨a2, e2, p3 hi, p1⟩

/-- Witness of C7 (amended): a parent with one `time` dependency in slot 0,
initialised on `[0, 10]`, reset and updated to 1, then updated to 5. -/
theorem basic_agent_impl.dependencies_first_then_hook_witness :
    let ds := [stored_agent (time_hooks Unit) 0]
    let m := basic_agent_impl.run watching_hooks ds [op.reset, op.update 1]
      (basic_agent_impl.init watching_hooks ds 0 10 0
        ⟨basic_agent_impl.ctor 0, [basic_agent_impl.ctor 0], []⟩)
    m.self.m_init = false ∧ m.self.m_reset = false ∧ m.self.m_time < 5 ∧
      m.self.m_live = true ∧
      (basic_agent_impl.update watching_hooks ds 5 m).calls =
        m.calls ++ [call.linked_update 0 5, call.update_impl] ∧
      (basic_agent_impl.update watching_hooks ds 5 m).self.m_state = 5 ∧
      (∃ a2, (([0].map (stored_agent (time_hooks Unit))).foldl
          (fun v d => d.update 5 v) m.world)[0]? = some a2 ∧ a2.m_time = 5) := by
  intro ds m
  have T := basic_agent_impl.dependencies_first_then_hook watching_hooks ds 0 10 0 5 m
    (time_hooks Unit) [0] m.world
  have hup := T.2.2.1 (by decide) (by decide)
  obtain ⟨a2, e2, p, _⟩ := T.2.2.2.2 0 (by decide) ((m.world[0]?).getD (basic_agent_impl.ctor 0))
    (by decide)
  refine ⟨by decide, by decide, by decide, by decide, ?_, ?_, a2, e2, p (by decide) (by decide)⟩
  · rw [hup]; rfl
  · rw [hup]; rfl


/-! ## The cached agent -/

theorem basic_cached_agent.seek_spec {S : Type} (l : List (cached_type S)) (t : Int) :
    (∀ x ∈ l.take (basic_cached_agent.seek l t), x.time < t) ∧
      (∀ x, l[basic_cached_agent.seek l t]? = some x → t ≤ x.time) := by
  induction l with
  | nil => simp [basic_cached_agent.seek]
  | cons r rs ih =>
    by_cases hr : r.time < t
    · simp only [basic_cached_agent.seek, hr, if_true, List.take_succ_cons, List.mem_cons,
        List.getElem?_cons_succ]
      refine ⟨fun x hx => ?_, ih.2⟩
      rcases hx with hx | hx
      · rw [hx]; exact hr
      · exact ih.1 x hx
    · simp only [basic_cached_agent.seek, hr, if_false, List.take_zero, List.getElem?_cons_zero]
      refine ⟨fun x hx => absurd hx (List.not_mem_nil x), fun x hx => ?_⟩
      have : r = x := Option.some.inj hx
      rw [← this]; exact not_lt.1 hr

theorem basic_cached_agent.seek_le {S : Type} (l : List (cached_type S)) (t : Int) :
    basic_cached_agent.seek l t ≤ l.length := by
  induction l with
  | nil => simp [basic_cached_agent.seek]
  | cons r rs ih =>
    by_cases hr : r.time < t
    · simp only [basic_cached_agent.seek, hr, if_true, List.length_cons]; omega
    · simp [basic_cached_agent.seek, hr]

theorem pairwise_insert_at {S : Type} (l : List (cached_type S)) (j : Nat) (x : cached_type S)
    (hs : List.Pairwise earlier l) (hA : ∀ y ∈ l.take j, earlier y x)
    (hB : ∀ y ∈ l.drop j, earlier x y) :
    List.Pairwise earlier (l.take j ++ x :: l.drop j) := by
  have hsplit : List.Pairwise earlier (l.take j ++ l.drop j) := by
    rw [List.take_append_drop]; exact hs
  obtain ⟨p1, p2, p3⟩ := List.pairwise_append.1 hsplit
  refine List.pairwise_append.2 ⟨p1, List.pairwise_cons.2 ⟨hB, p2⟩, fun a ha b hb => ?_⟩
  rcases List.mem_cons.1 hb with hb | hb
  · rw [hb]; exact hA a ha
  · exact p3 a ha b hb

theorem basic_cached_agent.before_cursor {S : Type} (l : List (cached_type S)) (k : Nat)
    (x : cached_type S) (hs : List.Pairwise earlier l) (hx : l[k]? = some x) :
    (∀ y ∈ l.take k, earlier y x) ∧ (∀ y ∈ l.drop (k + 1), earlier x y) := by
  obtain ⟨hlt, he⟩ := List.getElem?_eq_some.1 hx
  have hd : l.drop k = x :: l.drop (k + 1) := by
    rw [List.drop_eq_getElem_cons hlt, he]
  have hsplit : List.Pairwise earlier (l.take k ++ x :: l.drop (k + 1)) := by
    rw [← hd, List.take_append_drop]; exact hs
  obtain ⟨_, p2, p3⟩ := List.pairwise_append.1 hsplit
  exact ⟨fun y hy => p3 y hy x (List.mem_cons_self x _), (List.pairwise_cons.1 p2).1⟩


theorem basic_cached_agent.init_reset_ok {S W : Type} (h : agent_hooks S W)
    (ds : List (linked_type W)) (s e : Int) (r : Nat) (c0 : basic_cached_agent S W)
    (hpre : c0.base.self.m_init = false) :
    (basic_cached_agent.reset h ds (basic_cached_agent.init h ds s e r c0)).cache_ok ∧
      (basic_cached_agent.reset h ds
        (basic_cached_agent.init h ds s e r c0)).base.self.m_start = s := by
  have h1 : (basic_agent_impl.init h ds s e r c0.base).self.m_reset = false := by
    simp [basic_agent_impl.init, hpre]
  have h2 : (basic_agent_impl.init h ds s e r c0.base).self.m_start = s := by
    simp [basic_agent_impl.init, hpre]
  have h3 := basic_agent_impl.reset_time h ds _ h1
  have h4 : (basic_agent_impl.reset h ds
      (basic_agent_impl.init h ds s e r c0.base)).self.m_reset = true := by
    simp [basic_agent_impl.reset, h1]
  simp only [basic_cached_agent.reset, basic_cached_agent.init, h1, Bool.false_eq_true, if_false,
    basic_cached_agent.cache_ok]
  refine ⟨⟨List.pairwise_singleton _ _, ⟨0, _, rfl, rfl, rfl⟩, fun _ => rfl, ⟨_, rfl, ?_⟩⟩, ?_⟩
  · exact h3.1.trans h3.2.symm
  · rw [h3.2, h2]

theorem basic_cached_agent.reset_of_records {S W : Type} (h : agent_hooks S W)
    (ds : List (linked_type W)) (c : basic_cached_agent S W) (z : cached_type S)
    (zs : List (cached_type S)) (hr : c.base.self.m_reset = false) (hcache : c.m_cache = z :: zs) :
    basic_cached_agent.reset h ds c =
      { c with
        m_itr := some 0,
        base := { c.base with self := { c.base.self with m_time := z.time } } } := by
  simp only [basic_cached_agent.reset, hr, Bool.false_eq_true, if_false]
  split
  · rename_i r rs heq
    rw [hcache] at heq
    injection heq with e1 e2
    rw [e1]
  · rename_i heq
    rw [hcache] at heq
    exact List.noConfusion heq

theorem basic_cached_agent.reset_ok {S W : Type} (h : agent_hooks S W)
    (ds : List (linked_type W)) (c : basic_cached_agent S W) (hc : c.cache_ok) :
    (basic_cached_agent.reset h ds c).cache_ok ∧
      (basic_cached_agent.reset h ds c).m_cache = c.m_cache ∧
      (basic_cached_agent.reset h ds c).base.calls = c.base.calls ∧
      (basic_cached_agent.reset h ds c).base.world = c.base.world ∧
      (basic_cached_agent.reset h ds c).base.self.m_live = c.base.self.m_live ∧
      (basic_cached_agent.reset h ds c).base.self.m_start = c.base.self.m_start ∧
      (basic_cached_agent.reset h ds c).base.self.m_time = c.base.self.m_start ∧
      (basic_cached_agent.reset h ds c).m_itr = some 0 := by
  obtain ⟨hs, ⟨k, x, hk, hx, hxt⟩, hr1, ⟨y, hy, hyt⟩⟩ := hc
  cases hr : c.base.self.m_reset
  · cases hcache : c.m_cache with
    | nil => rw [hcache] at hy; simp at hy
    | cons z zs =>
      have hz : z = y := by rw [hcache] at hy; simpa using hy
      have hzy : c.m_cache[0]? = some z := by rw [hz]; exact hy
      rw [basic_cached_agent.reset_of_records h ds c z zs hr hcache]
      refine ⟨⟨hs, ⟨0, z, rfl, hzy, rfl⟩, ?_, ⟨y, hy, hyt⟩⟩, hcache, rfl, rfl, rfl, rfl, ?_, rfl⟩
      · intro hcontra
        have : c.base.self.m_reset = true := hcontra
        rw [hr] at this; exact Bool.noConfusion this
      · show z.time = c.base.self.m_start
        rw [hz]; exact hyt
  · have hlen := hr1 hr
    have hk0 : k = 0 := by
      have := (List.getElem?_eq_some.1 hx).1
      omega
    subst hk0
    have hxy : x = y := Option.some.inj (hx.symm.trans hy)
    have he : basic_cached_agent.reset h ds c = c := by
      simp [basic_cached_agent.reset, hr]
    rw [he]
    refine ⟨⟨hs, ⟨0, x, hk, hx, hxt⟩, hr1, ⟨y, hy, hyt⟩⟩, rfl, rfl, rfl, rfl, rfl, ?_, hk⟩
    rw [← hxt, hxy, hyt]


theorem basic_cached_agent.seek_finds {S : Type} (l : List (cached_type S)) (t : Int)
    (y : cached_type S) (hs : List.Pairwise earlier l) (hy : y ∈ l) (hyt : y.time = t) :
    l[basic_cached_agent.seek l t]? = some y := by
  induction l with
  | nil => exact absurd hy (List.not_mem_nil y)
  | cons r rs ih =>
    obtain ⟨p1, p2⟩ := List.pairwise_cons.1 hs
    by_cases hr : r.time < t
    · simp only [basic_cached_agent.seek, hr, if_true, List.getElem?_cons_succ]
      rcases List.mem_cons.1 hy with hy1 | hy1
      · rw [hy1] at hyt; rw [hyt] at hr; exact absurd hr (lt_irrefl t)
      · exact ih p2 hy1
    · simp only [basic_cached_agent.seek, hr, if_false, List.getElem?_cons_zero]
      rcases List.mem_cons.1 hy with hy1 | hy1
      · rw [hy1]
      · have : r.time < y.time := p1 y hy1
        rw [hyt] at this; exact absurd this hr

theorem basic_cached_agent.update_unfold {S W : Type} (h : agent_hooks S W)
    (ds : List (linked_type W)) (t : Int) (c : basic_cached_agent S W) (k : Nat)
    (x : cached_type S) (hk : c.m_itr = some k) (hx : c.m_cache[k]? = some x)
    (hlive : c.base.self.m_live = true) (hlt : c.base.self.m_time < t) :
    basic_cached_agent.update h ds t c =
      match c.m_cache[k + basic_cached_agent.seek (c.m_cache.drop k) t]? with
      | some r =>
        if r.time = t then
          some { c with
            m_itr := some (k + basic_cached_agent.seek (c.m_cache.drop k) t),
            base := { c.base with self := { c.base.self with m_time := r.time } } }
        else some (basic_cached_agent.compute h ds t
          (k + basic_cached_agent.seek (c.m_cache.drop k) t) c)
      | none => some (basic_cached_agent.compute h ds t
          (k + basic_cached_agent.seek (c.m_cache.drop k) t) c) := by
  have h1 : ¬ t ≤ c.base.self.m_time := not_le.2 hlt
  have h2 : ¬ c.m_cache.length < k := not_lt.2 (le_of_lt (List.getElem?_eq_some.1 hx).1)
  simp only [basic_cached_agent.update, hlive, h1, hk, h2, Bool.not_true, Bool.false_or,
    decide_False, Bool.false_eq_true, if_false]

theorem basic_cached_agent.mem_drop_of_later {S : Type} (l : List (cached_type S)) (k : Nat)
    (x y : cached_type S) (hs : List.Pairwise earlier l) (hx : l[k]? = some x) (hy : y ∈ l)
    (hxy : x.time < y.time) : y ∈ l.drop k := by
  have hmem : y ∈ l.take k ++ l.drop k := by rw [List.take_append_drop]; exact hy
  rcases List.mem_append.1 hmem with hm | hm
  · have : y.time < x.time := (basic_cached_agent.before_cursor l k x hs hx).1 y hm
    exact absurd (lt_trans this hxy) (lt_irrefl _)
  · exact hm

theorem basic_cached_agent.update_hit {S W : Type} (h : agent_hooks S W)
    (ds : List (linked_type W)) (t : Int) (c : basic_cached_agent S W) (hc : c.cache_ok)
    (hlive : c.base.self.m_live = true) (hlt : c.base.self.m_time < t)
    (y : cached_type S) (hy : y ∈ c.m_cache) (hyt : y.time = t) :
    ∃ j, c.m_cache[j]? = some y ∧
      basic_cached_agent.update h ds t c =
        some { c with
          m_itr := some j,
          base := { c.base with self := { c.base.self with m_time := t } } } := by
  obtain ⟨hs, ⟨k, x, hk, hx, hxt⟩, _, _⟩ := hc
  have hxy : x.time < y.time := by rw [hxt, hyt]; exact hlt
  have hyd := basic_cached_agent.mem_drop_of_later c.m_cache k x y hs hx hy hxy
  have hsd : List.Pairwise earlier (c.m_cache.drop k) := hs.sublist (List.drop_sublist k _)
  have hf := basic_cached_agent.seek_finds (c.m_cache.drop k) t y hsd hyd hyt
  rw [List.getElem?_drop] at hf
  refine ⟨_, hf, ?_⟩
  rw [basic_cached_agent.update_unfold h ds t c k x hk hx hlive hlt, hf]
  simp only [hyt, if_true]


theorem basic_cached_agent.update_miss {S W : Type} (h : agent_hooks S W)
    (ds : List (linked_type W)) (t : Int) (c : basic_cached_agent S W) (hc : c.cache_ok)
    (hlive : c.base.self.m_live = true) (hlt : c.base.self.m_time < t)
    (hno : ∀ y ∈ c.m_cache, y.time ≠ t) :
    ∃ j, basic_cached_agent.update h ds t c = some (basic_cached_agent.compute h ds t j c) ∧
      0 < j ∧ j ≤ c.m_cache.length ∧
      (∀ y ∈ c.m_cache.take j, y.time < t) ∧ (∀ y ∈ c.m_cache.drop j, t < y.time) := by
  obtain ⟨hs, ⟨k, x, hk, hx, hxt⟩, _, _⟩ := hc
  obtain ⟨hklt, hke⟩ := List.getElem?_eq_some.1 hx
  have hd : c.m_cache.drop k = x :: c.m_cache.drop (k + 1) := by
    rw [List.drop_eq_getElem_cons hklt, hke]
  have hxlt : x.time < t := by rw [hxt]; exact hlt
  have hspec := basic_cached_agent.seek_spec (c.m_cache.drop k) t
  have hle := basic_cached_agent.seek_le (c.m_cache.drop k) t
  have hpos : 0 < basic_cached_agent.seek (c.m_cache.drop k) t := by
    rw [hd]; simp [basic_cached_agent.seek, hxlt]
  have hlen : (c.m_cache.drop k).length = c.m_cache.length - k := List.length_drop k _
  refine ⟨k + basic_cached_agent.seek (c.m_cache.drop k) t, ?_, by omega, by omega, ?_, ?_⟩
  · rw [basic_cached_agent.update_unfold h ds t c k x hk hx hlive hlt]
    cases hj : c.m_cache[k + basic_cached_agent.seek (c.m_cache.drop k) t]? with
    | none => rfl
    | some r =>
      have hr : r.time ≠ t := hno r (List.getElem?_mem hj)
      simp only [hr, if_false]
  · intro y hy
    rw [List.take_add] at hy
    rcases List.mem_append.1 hy with hy1 | hy1
    · have : y.time < x.time := (basic_cached_agent.before_cursor _ k x hs hx).1 y hy1
      exact lt_trans this hxlt
    · exact hspec.1 y hy1
  · intro y hy
    have hsd : List.Pairwise earlier
        (c.m_cache.drop (k + basic_cached_agent.seek (c.m_cache.drop k) t)) :=
      hs.sublist (List.drop_sublist _ _)
    cases hj : c.m_cache[k + basic_cached_agent.seek (c.m_cache.drop k) t]? with
    | none =>
      have : c.m_cache.length ≤ k + basic_cached_agent.seek (c.m_cache.drop k) t :=
        List.getElem?_eq_none_iff.1 hj
      rw [List.drop_eq_nil_of_le this] at hy
      exact absurd hy (List.not_mem_nil y)
    | some r =>
      obtain ⟨hjlt, hje⟩ := List.getElem?_eq_some.1 hj
      have hr1 : t ≤ r.time := hspec.2 r (by rw [List.getElem?_drop]; exact hj)
      have hr2 : r.time ≠ t := hno r (List.getElem?_mem hj)
      have hr3 : t < r.time := lt_of_le_of_ne hr1 (Ne.symm hr2)
      rw [List.drop_eq_getElem_cons hjlt, hje] at hy hsd
      rcases List.mem_cons.1 hy with hy1 | hy1
      · rw [hy1]; exact hr3
      · exact lt_trans hr3 ((List.pairwise_cons.1 hsd).1 y hy1)

theorem basic_agent_impl.update_live_fields {S W : Type} (h : agent_hooks S W)
    (ds : List (linked_type W)) (t : Int) (m : machine S W)
    (hlive : m.self.m_live = true) (hlt : m.self.m_time < t) :
    (basic_agent_impl.update h ds t m).self.m_time = t ∧
      (basic_agent_impl.update h ds t m).self.m_reset = false ∧
      (basic_agent_impl.update h ds t m).self.m_start = m.self.m_start := by
  have h1 : ¬ t ≤ m.self.m_time := not_le.2 hlt
  simp [basic_agent_impl.update, h1, hlive]

theorem basic_cached_agent.compute_ok {S W : Type} (h : agent_hooks S W)
    (ds : List (linked_type W)) (t : Int) (j : Nat) (c : basic_cached_agent S W)
    (hc : c.cache_ok) (hlive : c.base.self.m_live = true) (hlt : c.base.self.m_time < t)
    (hj0 : 0 < j) (hjl : j ≤ c.m_cache.length)
    (hA : ∀ y ∈ c.m_cache.take j, y.time < t) (hB : ∀ y ∈ c.m_cache.drop j, t < y.time) :
    (basic_cached_agent.compute h ds t j c).cache_ok ∧
      (basic_cached_agent.compute h ds t j c).base.self.m_start = c.base.self.m_start := by
  obtain ⟨hs, _, _, ⟨y0, hy0, hy0t⟩⟩ := hc
  obtain ⟨f1, f2, f3⟩ := basic_agent_impl.update_live_fields h ds t c.base hlive hlt
  have hlt2 : (c.m_cache.take j).length = j := List.length_take_of_le hjl
  refine ⟨⟨?_, ⟨j, ⟨t, (basic_agent_impl.update h ds t c.base).self.m_state,
    (basic_agent_impl.update h ds t c.base).self.m_live⟩, rfl, ?_, ?_⟩, ?_, ⟨y0, ?_, ?_⟩⟩, f3⟩
  · exact pairwise_insert_at c.m_cache j _ hs hA hB
  · show (c.m_cache.take j ++ _ :: c.m_cache.drop j)[j]? = some _
    rw [List.getElem?_append_right (le_of_eq hlt2), hlt2, Nat.sub_self]
    exact List.getElem?_cons_zero
  · exact f1.symm
  · intro hcontra
    have : (basic_agent_impl.update h ds t c.base).self.m_reset = true := hcontra
    rw [f2] at this; exact Bool.noConfusion this
  · show (c.m_cache.take j ++ _ :: c.m_cache.drop j)[0]? = some y0
    rw [List.getElem?_append_left (by rw [hlt2]; exact hj0), List.getElem?_take_of_lt hj0]
    exact hy0
  · exact hy0t.trans f3.symm


theorem basic_cached_agent.update_skip {S W : Type} (h : agent_hooks S W)
    (ds : List (linked_type W)) (t : Int) (c : basic_cached_agent S W)
    (hg : c.base.self.m_live = false ∨ t ≤ c.base.self.m_time) :
    basic_cached_agent.update h ds t c = some c := by
  rcases hg with hg | hg
  · simp [basic_cached_agent.update, hg]
  · simp [basic_cached_agent.update, hg]

theorem basic_cached_agent.update_ok {S W : Type} (h : agent_hooks S W)
    (ds : List (linked_type W)) (t : Int) (c : basic_cached_agent S W) (hc : c.cache_ok) :
    ∃ c2, basic_cached_agent.update h ds t c = some c2 ∧ c2.cache_ok ∧
      c2.base.self.m_start = c.base.self.m_start := by
  by_cases hg : c.base.self.m_live = false ∨ t ≤ c.base.self.m_time
  · exact ⟨c, basic_cached_agent.update_skip h ds t c hg, hc, rfl⟩
  · push_neg at hg
    have hlive : c.base.self.m_live = true := by simpa using hg.1
    have hlt : c.base.self.m_time < t := hg.2
    by_cases hex : ∃ y ∈ c.m_cache, y.time = t
    · obtain ⟨y, hy, hyt⟩ := hex
      obtain ⟨j, hj, hu⟩ := basic_cached_agent.update_hit h ds t c hc hlive hlt y hy hyt
      obtain ⟨hs, _, hr1, hz⟩ := hc
      exact ⟨_, hu, ⟨hs, ⟨j, y, rfl, hj, hyt⟩, hr1, hz⟩, rfl⟩
    · push_neg at hex
      obtain ⟨j, hu, hj0, hjl, hA, hB⟩ :=
        basic_cached_agent.update_miss h ds t c hc hlive hlt hex
      obtain ⟨k1, k2⟩ := basic_cached_agent.compute_ok h ds t j c hc hlive hlt hj0 hjl hA hB
      exact ⟨_, hu, k1, k2⟩

theorem basic_cached_agent.run_ok {S W : Type} (h : agent_hooks S W)
    (ds : List (linked_type W)) (os : List op) (c : basic_cached_agent S W) (hc : c.cache_ok) :
    ∃ c2, basic_cached_agent.run h ds os c = some c2 ∧ c2.cache_ok ∧
      c2.base.self.m_start = c.base.self.m_start := by
  induction os generalizing c with
  | nil => exact ⟨c, rfl, hc, rfl⟩
  | cons o os ih =>
    cases o with
    | reset =>
      obtain ⟨r1, _, _, _, _, r6, _, _⟩ := basic_cached_agent.reset_ok h ds c hc
      obtain ⟨c2, e2, k2, s2⟩ := ih _ r1
      exact ⟨c2, by simp only [basic_cached_agent.run, basic_cached_agent.step]; exact e2, k2,
        s2.trans r6⟩
    | update t =>
      obtain ⟨c1, e1, k1, s1⟩ := basic_cached_agent.update_ok h ds t c hc
      obtain ⟨c2, e2, k2, s2⟩ := ih _ k1
      exact ⟨c2, by simp only [basic_cached_agent.run, basic_cached_agent.step, e1]; exact e2, k2,
        s2.trans s1⟩

/-- C9. After `init` (taking effect) and a first `reset`, every sequence of
`reset()` and `update(t)` calls on a cached agent, on or off schedule, is
defined and leaves the cache records strictly increasing in time, hence with no
two records for one time, and the iterator on a record whose time is the agent's
current time. -/
theorem basic_cached_agent.records_ordered_cursor_at_time {S W : Type}
    (h : agent_hooks S W) (ds : List (linked_type W)) (s e : Int) (r : Nat)
    (c0 : basic_cached_agent S W) (hpre : c0.base.self.m_init = false) (os : List op) :
    ∃ c, basic_cached_agent.run h ds os
        (basic_cached_agent.reset h ds (basic_cached_agent.init h ds s e r c0)) = some c ∧
      List.Pairwise (fun a b => a < b) (c.m_cache.map (fun x => x.time)) ∧
      (c.m_cache.map (fun x => x.time)).Nodup ∧
      ∃ k x, c.m_itr = some k ∧ c.m_cache[k]? = some x ∧ x.time = c.base.self.m_time := by
  obtain ⟨k0, _⟩ := basic_cached_agent.init_reset_ok h ds s e r c0 hpre
  obtain ⟨c, e1, ⟨hs, hcur, _, _⟩, _⟩ := basic_cached_agent.run_ok h ds os _ k0
  have hp : List.Pairwise (fun a b => a < b) (c.m_cache.map (fun x => x.time)) :=
    List.pairwise_map.2 hs
  exact ⟨c, e1, hp, hp.imp (fun hab => ne_of_lt hab), hcur⟩

/-- Witness of C9: the test agent `cached`, constructed, initialised on
`[0, 10]`, reset, then driven through the calls of `test_cached_agent` up to
the off-schedule `update(1)`. -/
theorem basic_cached_agent.records_ordered_cursor_at_time_witness :
    (basic_cached_agent.ctor (0 : Int) (0 : Nat)).base.self.m_init = false ∧
    ∃ c, basic_cached_agent.run cached_test_hooks [] [op.update 2, op.reset, op.update 1]
        (basic_cached_agent.reset cached_test_hooks []
          (basic_cached_agent.init cached_test_hooks [] 0 10 0
            (basic_cached_agent.ctor 0 0))) = some c ∧
      List.Pairwise (fun a b => a < b) (c.m_cache.map (fun x => x.time)) ∧
      (c.m_cache.map (fun x => x.time)).Nodup ∧
      ∃ k x, c.m_itr = some k ∧ c.m_cache[k]? = some x ∧ x.time = c.base.self.m_time :=
  ⟨rfl, basic_cached_agent.records_ordered_cursor_at_time cached_test_hooks [] 0 10 0
    (basic_cached_agent.ctor 0 0) rfl [op.update 2, op.reset, op.update 1]⟩


theorem basic_cached_agent.recorded_of_record {S : Type} (l : List (cached_type S))
    (hs : List.Pairwise earlier l) (y : cached_type S) (hy : y ∈ l) :
    basic_cached_agent.recorded l y.time = some y.state := by
  induction l with
  | nil => exact absurd hy (List.not_mem_nil y)
  | cons r rs ih =>
    obtain ⟨p1, p2⟩ := List.pairwise_cons.1 hs
    rcases List.mem_cons.1 hy with hy1 | hy1
    · simp [basic_cached_agent.recorded, hy1]
    · have : r.time ≠ y.time := ne_of_lt (p1 y hy1)
      simp only [basic_cached_agent.recorded, this, if_false]
      exact ih p2 hy1

theorem basic_cached_agent.replay_updates {S W : Type} (h : agent_hooks S W)
    (ds : List (linked_type W)) (ts : List Int) (c : basic_cached_agent S W) (hc : c.cache_ok)
    (hlive : c.base.self.m_live = true)
    (hts : List.Pairwise (fun a b => a < b) (c.base.self.m_time :: ts))
    (hvis : ∀ t ∈ ts, ∃ y ∈ c.m_cache, y.time = t) :
    ∃ c2 ss, basic_cached_agent.run h ds (ts.map op.update) c = some c2 ∧
      basic_cached_agent.observe h ds (ts.map op.update) c = some ss ∧
      ss.map some = ts.map (basic_cached_agent.recorded c.m_cache) ∧
      c2.m_cache = c.m_cache ∧ c2.base.calls = c.base.calls ∧ c2.base.world = c.base.world := by
  induction ts generalizing c with
  | nil => exact ⟨c, [], rfl, rfl, rfl, rfl, rfl, rfl⟩
  | cons t ts ih =>
    obtain ⟨q1, q2⟩ := List.pairwise_cons.1 hts
    have hlt : c.base.self.m_time < t := q1 t (List.mem_cons_self t ts)
    obtain ⟨y, hy, hyt⟩ := hvis t (List.mem_cons_self t ts)
    obtain ⟨j, hj, hu⟩ := basic_cached_agent.update_hit h ds t c hc hlive hlt y hy hyt
    obtain ⟨hs, _, hr1, hz⟩ := hc
    obtain ⟨c2, ss, e1, e2, e3, e4, e5, e6⟩ :=
      ih { c with
            m_itr := some j,
            base := { c.base with self := { c.base.self with m_time := t } } }
        ⟨hs, ⟨j, y, rfl, hj, hyt⟩, hr1, hz⟩ hlive q2
        (fun u hu => hvis u (List.mem_cons_of_mem t hu))
    have hst : basic_cached_agent.state
        { c with
            m_itr := some j,
            base := { c.base with self := { c.base.self with m_time := t } } } =
        some y.state := by
      simp [basic_cached_agent.state, hj]
    refine ⟨c2, y.state :: ss, ?_, ?_, ?_, e4, e5, e6⟩
    · simp only [List.map_cons, basic_cached_agent.run, basic_cached_agent.step, hu]
      exact e1
    · simp only [List.map_cons, basic_cached_agent.observe, basic_cached_agent.step, hu, hst, e2]
    · simp only [List.map_cons, e3]
      rw [← hyt, basic_cached_agent.recorded_of_record c.m_cache hs y hy]

theorem basic_cached_agent.compute_effect {S W : Type} (h : agent_hooks S W)
    (ds : List (linked_type W)) (t : Int) (j : Nat) (c : basic_cached_agent S W)
    (hlive : c.base.self.m_live = true) (hlt : c.base.self.m_time < t)
    (hjl : j ≤ c.m_cache.length) :
    (basic_cached_agent.compute h ds t j c).base.calls.count call.update_impl =
        c.base.calls.count call.update_impl + 1 ∧
      (basic_cached_agent.compute h ds t j c).m_cache.length = c.m_cache.length + 1 ∧
      (∀ x ∈ c.m_cache, x ∈ (basic_cached_agent.compute h ds t j c).m_cache) ∧
      t ∈ (basic_cached_agent.compute h ds t j c).m_cache.map (fun x => x.time) := by
  refine ⟨?_, ?_, ?_, ?_⟩
  · show (basic_agent_impl.update h ds t c.base).calls.count call.update_impl = _
    rw [basic_agent_impl.update_calls h ds t c.base]
    simp [hlt, hlive]
  · show (c.m_cache.take j ++ _ :: c.m_cache.drop j).length = _
    simp only [List.length_append, List.length_cons, List.length_take, List.length_drop]
    omega
  · intro x hx
    show x ∈ c.m_cache.take j ++ _ :: c.m_cache.drop j
    have : x ∈ c.m_cache.take j ++ c.m_cache.drop j := by
      rw [List.take_append_drop]; exact hx
    rcases List.mem_append.1 this with hm | hm
    · exact List.mem_append_left _ hm
    · exact List.mem_append_right _ (List.mem_cons_of_mem _ hm)
  · show t ∈ (c.m_cache.take j ++ _ :: c.m_cache.drop j).map (fun x => x.time)
    simp


/-- C10. Let a cached agent have been initialised, reset and driven through any
earlier calls, and be live.  Then (1) on a new path `reset(), update(t1), ...,
update(tn)` over increasing times that all have a record, neither `reset_impl`
nor `update_impl` nor any dependency is called (the record of calls, the
dependencies and the cache are unchanged) and `state()` returns after each call
the state the cache holds for that time; (2) an update to any time that has a
record leaves the cache and the record of calls unchanged; (3) an update to a
later time without a record runs `update_impl` exactly once and adds exactly
one record, for that time, keeping all the others. -/
theorem basic_cached_agent.replay_does_not_recompute {S W : Type}
    (h : agent_hooks S W) (ds : List (linked_type W)) (s e : Int) (r : Nat)
    (c0 : basic_cached_agent S W) (hpre : c0.base.self.m_init = false) (os : List op)
    (c : basic_cached_agent S W)
    (hrun : basic_cached_agent.run h ds os
      (basic_cached_agent.reset h ds (basic_cached_agent.init h ds s e r c0)) = some c)
    (hlive : c.is_live = true) :
    (∀ ts : List Int, List.Pairwise (fun a b => a < b) (s :: ts) →
      (∀ t ∈ ts, t ∈ c.m_cache.map (fun x => x.time)) →
      ∃ c2 ss, basic_cached_agent.run h ds (op.reset :: ts.map op.update) c = some c2 ∧
        basic_cached_agent.observe h ds (op.reset :: ts.map op.update) c = some ss ∧
        ss.map some = (s :: ts).map (basic_cached_agent.recorded c.m_cache) ∧
        c2.m_cache = c.m_cache ∧ c2.base.calls = c.base.calls ∧
        c2.base.world = c.base.world) ∧
    (∀ t, t ∈ c.m_cache.map (fun x => x.time) →
      ∃ c2, basic_cached_agent.update h ds t c = some c2 ∧
        c2.m_cache = c.m_cache ∧ c2.base.calls = c.base.calls) ∧
    (∀ t, c.base.self.m_time < t → t ∉ c.m_cache.map (fun x => x.time) →
      ∃ c2, basic_cached_agent.update h ds t c = some c2 ∧
        c2.base.calls.count call.update_impl = c.base.calls.count call.update_impl + 1 ∧
        c2.m_cache.length = c.m_cache.length + 1 ∧
        (∀ x ∈ c.m_cache, x ∈ c2.m_cache) ∧
        t ∈ c2.m_cache.map (fun x => x.time)) := by
  obtain ⟨k0, s0⟩ := basic_cached_agent.init_reset_ok h ds s e r c0 hpre
  obtain ⟨c1, e1, hc, s1⟩ := basic_cached_agent.run_ok h ds os _ k0
  have hcc : c1 = c := Option.some.inj (e1.symm.trans hrun)
  subst hcc
  have hstart : c1.base.self.m_start = s := s1.trans s0
  have hl : c1.base.self.m_live = true := hlive
  refine ⟨?_, ?_, ?_⟩
  · intro ts hts hvis
    obtain ⟨r1, r2, r3, r4, r5, _, r7, r8⟩ := basic_cached_agent.reset_ok h ds c1 hc
    obtain ⟨hs, _, _, ⟨y0, hy0, hy0t⟩⟩ := hc
    have hts2 : List.Pairwise (fun a b => a < b)
        ((basic_cached_agent.reset h ds c1).base.self.m_time :: ts) := by
      rw [r7, hstart]; exact hts
    have hvis2 : ∀ t ∈ ts, ∃ y ∈ (basic_cached_agent.reset h ds c1).m_cache, y.time = t := by
      intro t ht
      obtain ⟨y, hy, hyt⟩ := List.mem_map.1 (hvis t ht)
      exact ⟨y, by rw [r2]; exact hy, hyt⟩
    obtain ⟨c2, ss, e2, e3, e4, e5, e6, e7⟩ :=
      basic_cached_agent.replay_updates h ds ts _ r1 (r5.trans hl) hts2 hvis2
    have hst : (basic_cached_agent.reset h ds c1).state = some y0.state := by
      simp [basic_cached_agent.state, r8, r2, hy0]
    refine ⟨c2, y0.state :: ss, ?_, ?_, ?_, e5.trans r2, e6.trans r3, e7.trans r4⟩
    · simp only [basic_cached_agent.run, basic_cached_agent.step]
      exact e2
    · simp only [basic_cached_agent.observe, basic_cached_agent.step, hst, e3]
    · simp only [List.map_cons, e4, r2]
      rw [← hstart, ← hy0t,
        basic_cached_agent.recorded_of_record c1.m_cache hs y0 (List.getElem?_mem hy0)]
  · intro t ht
    obtain ⟨y, hy, hyt⟩ := List.mem_map.1 ht
    by_cases hle : t ≤ c1.base.self.m_time
    · exact ⟨c1, basic_cached_agent.update_skip h ds t c1 (Or.inr hle), rfl, rfl⟩
    · obtain ⟨j, _, hu⟩ :=
        basic_cached_agent.update_hit h ds t c1 hc hl (not_le.1 hle) y hy hyt
      exact ⟨_, hu, rfl, rfl⟩
  · intro t hlt hno
    have hno2 : ∀ y ∈ c1.m_cache, y.time ≠ t :=
      fun y hy hyt => hno (List.mem_map.2 ⟨y, hy, hyt⟩)
    obtain ⟨j, hu, _, hjl, _, _⟩ := basic_cached_agent.update_miss h ds t c1 hc hl hlt hno2
    exact ⟨_, hu, basic_cached_agent.compute_effect h ds t j c1 hl hlt hjl⟩

/-- Witness of C10: the test agent `cached` after the first two paths of
`test_cached_agent` (records for 0, 1, 2 and 4), replayed over 1, 2, 4. -/
theorem basic_cached_agent.replay_does_not_recompute_witness :
    let c := (basic_cached_agent.run cached_test_hooks []
        [op.update 2, op.reset, op.update 1, op.update 2, op.update 4]
        (basic_cached_agent.reset cached_test_hooks []
          (basic_cached_agent.init cached_test_hooks [] 0 10 0
            (basic_cached_agent.ctor 0 0)))).getD (basic_cached_agent.ctor 0 0)
    (basic_cached_agent.ctor (0 : Int) (0 : Nat)).base.self.m_init = false ∧
    c.is_live = true ∧
    List.Pairwise (fun a b => a < b) ((0 : Int) :: [1, 2, 4]) ∧
    (∀ t ∈ [(1 : Int), 2, 4], t ∈ c.m_cache.map (fun x => x.time)) ∧
    ∃ c2 ss,
      basic_cached_agent.run cached_test_hooks [] (op.reset :: [1, 2, 4].map op.update) c
        = some c2 ∧
      basic_cached_agent.observe cached_test_hooks [] (op.reset :: [1, 2, 4].map op.update) c
        = some ss ∧
      ss.map some = ((0 : Int) :: [1, 2, 4]).map (basic_cached_agent.recorded c.m_cache) ∧
      c2.m_cache = c.m_cache ∧ c2.base.calls = c.base.calls ∧ c2.base.world = c.base.world := by
  intro c
  exact ⟨rfl, by decide, by decide, by decide,
    (basic_cached_agent.replay_does_not_recompute cached_test_hooks [] 0 10 0
      (basic_cached_agent.ctor 0 0) rfl
      [op.update 2, op.reset, op.update 1, op.update 2, op.update 4] c rfl (by decide)).1
      [1, 2, 4] (by decide) (by decide)⟩

/-! ## Replay of a cached agent that stopped being live -/

/-- C11, evaluated on the code: a cached agent whose hooks depend on its time
only (state = time, `update_impl` false from time 2 on) is driven twice through
`reset(), update(1), update(2), update(3)`.  The first path exposes the states
0, 1, 2, 2 with `is_live()` true, true, false, false; the second path exposes
0, 0, 0, 0 and false throughout: the replaying `reset` restores the time but not
the live flag, so no later `update` moves the iterator. -/
theorem basic_cached_agent.replay_after_not_live_differs :
    let c0 : basic_cached_agent Int Unit :=
      basic_cached_agent.init (maturing_hooks 2) [] 0 10 0 (basic_cached_agent.ctor 0 ())
    let path := [op.reset, op.update 1, op.update 2, op.update 3]
    basic_cached_agent.expose (maturing_hooks 2) [] path c0 =
        some [(0, true), (1, true), (2, false), (2, false)] ∧
      (basic_cached_agent.run (maturing_hooks 2) [] path c0).bind
          (basic_cached_agent.expose (maturing_hooks 2) [] path) =
        some [(0, false), (0, false), (0, false), (0, false)] := by
  decide

/-! ## The fix schedule of the simulator -/

theorem le_getLast_of_pairwise (l : List Int) (b : Int)
    (hs : List.Pairwise (fun x y => x < y) l) (hb : l.getLast? = some b) :
    ∀ x ∈ l, x ≤ b := by
  induction l with
  | nil => intro x hx; exact absurd hx (List.not_mem_nil x)
  | cons a l ih =>
    obtain ⟨p1, p2⟩ := List.pairwise_cons.1 hs
    cases l with
    | nil =>
      intro x hx
      have hx1 : x = a := by simpa using hx
      have hb1 : a = b := by simpa using hb
      rw [hx1, hb1]
    | cons c l =>
      have hb2 : (c :: l).getLast? = some b := by
        rw [List.getLast?_cons_cons] at hb; exact hb
      intro x hx
      rcases List.mem_cons.1 hx with hx1 | hx1
      · have hbm : b ∈ c :: l := List.mem_of_getLast?_eq_some hb2
        rw [hx1]; exact le_of_lt (p1 b hbm)
      · exact ih p2 hb2 x hx1

theorem simulator.add_fix_keeps_order {O : Type} (fix : Int) (observer : O) (s r : simulator O)
    (hs : List.Pairwise (fun x y => x < y) s.m_fixes)
    (hl : s.m_fixes.length = s.m_observers.length)
    (hr : simulator.add_fix fix observer s = some r) :
    List.Pairwise (fun x y => x < y) r.m_fixes ∧ r.m_fixes.length = r.m_observers.length := by
  unfold simulator.add_fix at hr
  cases hb : s.m_fixes.getLast? with
  | none =>
    rw [hb] at hr
    have hnil : s.m_fixes = [] := List.getLast?_eq_none_iff.1 hb
    have hr2 := (Option.some.inj hr).symm
    subst hr2
    simp [hnil, ← hl]
  | some back =>
    rw [hb] at hr
    by_cases hle : fix ≤ back
    · simp [hle] at hr
    · simp only [hle, if_false] at hr
      have hr2 := (Option.some.inj hr).symm
      subst hr2
      refine ⟨?_, by simp [hl]⟩
      refine List.pairwise_append.2 ⟨hs, List.pairwise_singleton _ _, fun x hx y hy => ?_⟩
      have hy1 : y = fix := by simpa using hy
      rw [hy1]
      exact lt_of_le_of_lt (le_getLast_of_pairwise _ back hs hb x hx) (not_le.1 hle)

theorem simulator.after_keeps_order {O : Type} (c : schedule_call O) (s : simulator O)
    (hs : List.Pairwise (fun x y => x < y) s.m_fixes)
    (hl : s.m_fixes.length = s.m_observers.length) :
    List.Pairwise (fun x y => x < y) (simulator.after c s).m_fixes ∧
      (simulator.after c s).m_fixes.length = (simulator.after c s).m_observers.length := by
  cases c with
  | add_fix fix observer =>
    simp only [simulator.after]
    cases hr : simulator.add_fix fix observer s with
    | none => exact ⟨hs, hl⟩
    | some r => exact simulator.add_fix_keeps_order fix observer s r hs hl hr
  | clear_fixes =>
    exact ⟨List.Pairwise.nil, rfl⟩

theorem simulator.after_all_keeps_order {O : Type} (cs : List (schedule_call O))
    (s : simulator O) (hs : List.Pairwise (fun x y => x < y) s.m_fixes)
    (hl : s.m_fixes.length = s.m_observers.length) :
    List.Pairwise (fun x y => x < y) (simulator.after_all cs s).m_fixes ∧
      (simulator.after_all cs s).m_fixes.length =
        (simulator.after_all cs s).m_observers.length := by
  induction cs generalizing s with
  | nil => exact ⟨hs, hl⟩
  | cons c cs ih =>
    obtain ⟨h1, h2⟩ := simulator.after_keeps_order c s hs hl
    exact ih _ h1 h2

/-- C12. `add_fix(t, observer)` throws exactly when the fix list has a last
element and `t` is not after it, and the simulator is then unchanged; otherwise
it appends `t` to the fixes and the observer to the observers and changes
nothing else.  Hence after any sequence of `add_fix` and `clear_fixes` calls on
a constructed simulator the fix list is strictly increasing and as long as the
observer list. -/
theorem simulator.add_fix_schedule_increasing {O : Type} (s : simulator O) (fix : Int)
    (observer : O) (samples : Nat) (template : O) (cs : List (schedule_call O)) :
    (simulator.add_fix fix observer s = none ↔
      ∃ back, s.m_fixes.getLast? = some back ∧ fix ≤ back) ∧
    (simulator.add_fix fix observer s = none →
      simulator.after (schedule_call.add_fix fix observer) s = s) ∧
    (simulator.add_fix fix observer s ≠ none →
      simulator.add_fix fix observer s =
        some { s with m_fixes := s.m_fixes ++ [fix],
                      m_observers := s.m_observers ++ [observer] }) ∧
    List.Pairwise (fun x y => x < y)
      (simulator.after_all cs (simulator.ctor samples template)).m_fixes ∧
    (simulator.after_all cs (simulator.ctor samples template)).m_fixes.length =
      (simulator.after_all cs (simulator.ctor samples template)).m_observers.length := by
  refine ⟨?_, ?_, ?_, simulator.after_all_keeps_order cs _ List.Pairwise.nil rfl⟩
  · unfold simulator.add_fix
    cases hb : s.m_fixes.getLast? with
    | none => simp
    | some back =>
      by_cases hle : fix ≤ back
      · simp [hle]
      · simp [hle]
  · intro hn
    simp [simulator.after, hn]
  · unfold simulator.add_fix
    cases hb : s.m_fixes.getLast? with
    | none => simp
    | some back =>
      by_cases hle : fix ≤ back
      · simp [hle]
      · simp [hle]

/-- Witness of C12: on a simulator with fixes 0 and 180, `add_fix(180)` throws
and `add_fix(365)` is accepted. -/
theorem simulator.add_fix_schedule_increasing_witness :
    let s : simulator Unit := simulator.after_all
      [schedule_call.add_fix 0 (), schedule_call.add_fix 180 ()] (simulator.ctor 10 ())
    simulator.add_fix 180 () s = none ∧
      simulator.after (schedule_call.add_fix 180 ()) s = s ∧
      simulator.add_fix 365 () s ≠ none ∧
      simulator.add_fix 365 () s =
        some { s with m_fixes := s.m_fixes ++ [365], m_observers := s.m_observers ++ [()] } := by
  intro s
  have T1 := simulator.add_fix_schedule_increasing s 180 () 10 () []
  have T2 := simulator.add_fix_schedule_increasing s 365 () 10 () []
  have h1 : simulator.add_fix 180 () s = none := T1.1.2 ⟨180, by decide, by decide⟩
  have h2 : simulator.add_fix 365 () s ≠ none := by decide
  exact ⟨h1, T1.2.1 h1, h2, T2.2.2.1 h2⟩

/-! ## Stepping to a fix -/

theorem simulator.simulate_to_loop_eq {A : Type} (update : Int → A → A) (step stop : Int)
    (hstep : 1 ≤ step) (fuel : Nat) (t : Int) (a : A)
    (hfuel : ((stop - t) / step + 1).toNat < fuel) :
    simulator.simulate_to_loop update step stop fuel t a =
      some (((List.range ((stop - t) / step + 1).toNat).map
        (fun k : Nat => t + (k : Int) * step)).foldl (fun b u => update u b) a) := by
  have hpos : 0 < step := by omega
  have hne : step ≠ 0 := by omega
  induction fuel generalizing t a with
  | zero => exact absurd hfuel (Nat.not_lt_zero _)
  | succ fuel ih =>
    have hshift : (stop - (t + step)) / step + 1 = (stop - t) / step := by
      have : stop - (t + step) = (stop - t) + (-1) * step := by ring
      rw [this, Int.add_mul_ediv_right _ _ hne]; ring
    by_cases ht : t ≤ stop
    · have hq : 0 ≤ (stop - t) / step := Int.ediv_nonneg (by omega) (by omega)
      have hc : ((stop - t) / step + 1).toNat = ((stop - t) / step).toNat + 1 := by omega
      have hf2 : ((stop - (t + step)) / step + 1).toNat < fuel := by
        rw [hshift]; omega
      simp only [simulator.simulate_to_loop, ht, if_true]
      rw [ih (t + step) (update t a) hf2, hshift, hc, List.range_succ_eq_map]
      simp only [List.map_cons, List.map_map, List.foldl_cons, Nat.cast_zero, zero_mul, add_zero]
      congr 2
      apply List.map_congr_left
      intro k _
      simp only [Function.comp_apply, Nat.cast_succ]
      ring
    · have hq : (stop - t) / step < 0 := Int.ediv_neg' (by omega) hpos
      have hc : ((stop - t) / step + 1).toNat = 0 := by omega
      simp [simulator.simulate_to_loop, ht, hc]

theorem simulator.simulate_to_eq {A : Type} (update : Int → A → A) (step : Int)
    (hstep : 1 ≤ step) (fuel : Nat) (start stop : Int) (a : A)
    (hfuel : ((stop - start) / step).toNat < fuel) :
    simulator.simulate_to update step fuel start stop a =
      some (update stop (((List.range ((stop - start) / step).toNat).map
        (fun k : Nat => start + ((k : Int) + 1) * step)).foldl (fun b u => update u b) a)) := by
  have hne : step ≠ 0 := by omega
  have hshift : (stop - (start + step)) / step + 1 = (stop - start) / step := by
    have : stop - (start + step) = (stop - start) + (-1) * step := by ring
    rw [this, Int.add_mul_ediv_right _ _ hne]; ring
  have hf2 : ((stop - (start + step)) / step + 1).toNat < fuel := by rw [hshift]; exact hfuel
  rw [simulator.simulate_to, simulator.simulate_to_loop_eq update step stop hstep fuel _ a hf2,
    hshift]
  simp only [Option.map_some']
  congr 3
  apply List.map_congr_left
  intro k _
  ring

theorem basic_agent_impl.updates_eq_foldl {S W : Type} (h : agent_hooks S W)
    (ds : List (linked_type W)) (ts : List Int) (m : machine S W) :
    ts.foldl (fun b u => basic_agent_impl.update h ds u b) m =
      basic_agent_impl.updates h ds ts m := by
  induction ts generalizing m with
  | nil => rfl
  | cons t ts ih => simp only [List.foldl_cons, basic_agent_impl.updates, ih]

theorem basic_agent_impl.updates_append {S W : Type} (h : agent_hooks S W)
    (ds : List (linked_type W)) (ts us : List Int) (m : machine S W) :
    basic_agent_impl.updates h ds (ts ++ us) m =
      basic_agent_impl.updates h ds us (basic_agent_impl.updates h ds ts m) := by
  induction ts generalizing m with
  | nil => rfl
  | cons t ts ih => exact ih (basic_agent_impl.update h ds t m)

theorem foldl_max_le (ts : List Int) (a b : Int) (hab : a ≤ b) (hts : ∀ t ∈ ts, t ≤ b) :
    ts.foldl max a ≤ b := by
  induction ts generalizing a with
  | nil => exact hab
  | cons t ts ih =>
    exact ih (max a t) (max_le hab (hts t (List.mem_cons_self t ts)))
      (fun u hu => hts u (List.mem_cons_of_mem t hu))

theorem foldl_max_append_top (ts : List Int) (a b : Int) (hab : a ≤ b)
    (hts : ∀ t ∈ ts, t ≤ b) : (ts ++ [b]).foldl max a = b := by
  rw [List.foldl_append]
  simp only [List.foldl_cons, List.foldl_nil]
  exact max_eq_right (foldl_max_le ts a b hab hts)

theorem simulator.grid_le (step start stop : Int) (hstep : 1 ≤ step) :
    ∀ k : Nat, (start + ((k : Int) + 1) * step ≤ stop ↔ k < ((stop - start) / step).toNat) := by
  intro k
  have hpos : 0 < step := by omega
  have h1 : start + ((k : Int) + 1) * step ≤ stop ↔ ((k : Int) + 1) * step ≤ stop - start := by
    constructor <;> intro h <;> omega
  rw [h1, ← Int.le_ediv_iff_mul_le hpos]
  omega

/-- C13, the claim as stated fails in its last part: a live base agent at time
0 whose `update_impl` returns false at time 3 is stepped from 0 to 10 with step
3; the calls `update(3)`, `update(6)`, `update(9)`, `update(10)` are issued, yet
the agent ends at time 3, not 10. -/
theorem simulator.simulate_to_agent_counterexample :
    let m : machine Int Unit :=
      basic_agent_impl.reset (maturing_hooks 3) []
        (basic_agent_impl.init (maturing_hooks 3) [] 0 10 0 ⟨basic_agent_impl.ctor 0, (), []⟩)
    m.self.m_live = true ∧ m.self.m_time = 0 ∧
      simulator.simulate_to recording_update 3 10 0 10 [] = some [3, 6, 9, 10] ∧
      (simulator.simulate_to (basic_agent_impl.update (maturing_hooks 3) []) 3 10 0 10 m).map
        (fun r => r.self.m_time) = some 3 := by
  decide

/-- C13, amended. For every step >= 1 and start <= end (unbounded integer
time), `simulate_to(agent, start, end)` returns and issues the calls
`update(start + step)`, `update(start + 2*step)`, ... for exactly those
multiples that are <= end, in increasing order, followed by `update(end)`; no
call carries a time greater than end; a base agent whose time was start ends
with a time <= end, and with time = end exactly if it is still live after the
calls. -/
theorem simulator.simulate_to_steps_then_end (step start stop : Int) (fuel : Nat)
    (hstep : 1 ≤ step) (hle : start ≤ stop) (hfuel : ((stop - start) / step).toNat < fuel) :
    let n := ((stop - start) / step).toNat
    let grid := (List.range n).map (fun k : Nat => start + ((k : Int) + 1) * step)
    simulator.simulate_to recording_update step fuel start stop [] = some (grid ++ [stop]) ∧
    (∀ k : Nat, start + ((k : Int) + 1) * step ≤ stop ↔ k < n) ∧
    List.Pairwise (fun x y => x < y) grid ∧
    (∀ t ∈ grid ++ [stop], t ≤ stop) ∧
    (∀ (A : Type) (update : Int → A → A) (a : A),
      simulator.simulate_to update step fuel start stop a =
        some (update stop (grid.foldl (fun b u => update u b) a))) ∧
    (∀ (S W : Type) (h : agent_hooks S W) (ds : List (linked_type W)) (m : machine S W),
      m.self.m_time = start →
      ∃ m2, simulator.simulate_to (basic_agent_impl.update h ds) step fuel start stop m =
          some m2 ∧
        m2.self.m_time ≤ stop ∧ (m2.self.m_live = true → m2.self.m_time = stop)) := by
  intro n grid
  have hgrid : ∀ t ∈ grid, t ≤ stop := by
    intro t ht
    obtain ⟨k, hk, hkt⟩ := List.mem_map.1 ht
    rw [← hkt]
    exact (simulator.grid_le step start stop hstep k).2 (List.mem_range.1 hk)
  have hall : ∀ t ∈ grid ++ [stop], t ≤ stop := by
    intro t ht
    rcases List.mem_append.1 ht with h1 | h1
    · exact hgrid t h1
    · have : t = stop := by simpa using h1
      rw [this]
  refine ⟨?_, simulator.grid_le step start stop hstep, ?_, hall, ?_, ?_⟩
  · rw [simulator.simulate_to_eq recording_update step hstep fuel start stop [] hfuel]
    congr 1
    show recording_update stop (grid.foldl (fun b u => recording_update u b) []) = grid ++ [stop]
    have hrec : ∀ (l : List Int) (acc : List Int),
        l.foldl (fun b u => recording_update u b) acc = acc ++ l := by
      intro l
      induction l with
      | nil => intro acc; simp
      | cons x l ih =>
        intro acc
        rw [List.foldl_cons, ih]
        simp [recording_update]
    rw [hrec]; rfl
  · refine List.Pairwise.map _ ?_ (List.pairwise_lt_range n)
    intro a b hab
    have h1 : (a : Int) < (b : Int) := by exact_mod_cast hab
    have h2 : 0 < step := by omega
    nlinarith
  · intro A update a
    exact simulator.simulate_to_eq update step hstep fuel start stop a hfuel
  · intro S W h ds m hm
    refine ⟨_, simulator.simulate_to_eq (basic_agent_impl.update h ds) step hstep fuel start stop
      m hfuel, ?_⟩
    have he : basic_agent_impl.update h ds stop
        (grid.foldl (fun b u => basic_agent_impl.update h ds u b) m) =
        basic_agent_impl.updates h ds (grid ++ [stop]) m := by
      rw [basic_agent_impl.updates_eq_foldl, basic_agent_impl.updates_append]; rfl
    have hmax : (grid ++ [stop]).foldl max m.self.m_time = stop :=
      foldl_max_append_top grid _ stop (by rw [hm]; exact hle) hgrid
    show (basic_agent_impl.update h ds stop
        (grid.foldl (fun b u => basic_agent_impl.update h ds u b) m)).self.m_time ≤ stop ∧ _
    rw [he]
    refine ⟨?_, fun hl => ?_⟩
    · have := (basic_agent_impl.updates_time_bounds h ds (grid ++ [stop]) m).2
      rw [hmax] at this; exact this
    · rw [basic_agent_impl.updates_time_live h ds (grid ++ [stop]) m hl, hmax]

/-- Witness of C13 (amended): the `time` agent is stepped from 0 to 10 with
step 3. -/
theorem simulator.simulate_to_steps_then_end_witness :
    (1 : Int) ≤ 3 ∧ (0 : Int) ≤ 10 ∧ (((10 : Int) - 0) / 3).toNat < 10 ∧
      simulator.simulate_to recording_update 3 10 0 10 [] =
        some ((List.range (((10 : Int) - 0) / 3).toNat).map
          (fun k : Nat => (0 : Int) + ((k : Int) + 1) * 3) ++ [10]) :=
  ⟨by decide, by decide, by decide,
   (simulator.simulate_to_steps_then_end 3 0 10 10 (by decide) (by decide) (by decide)).1⟩

/-! ## The random driver -/

theorem generator.after_weight {R F : Type} [Monoid F] (vs : variate_source R F)
    (cs : List (generator_call F)) (g : generator R F) :
    (generator.after vs cs g).m_weight = g.m_weight * (generator_call.factors cs).prod := by
  induction cs generalizing g with
  | nil => simp [generator.after, generator_call.factors]
  | cons c cs ih =>
    cases c with
    | rnd => simp [generator.after, generator_call.factors, ih, generator.rnd]
    | update_weight w =>
      simp [generator.after, generator_call.factors, ih, generator.update_weight, mul_assoc]

/-- C15. `generator::reset()` sets the weight to 1 and leaves the random stream
alone; `update_weight(w)` multiplies the weight by `w` and leaves the stream
alone; `rnd()` leaves the weight alone.  After `reset()` and any sequence of
`rnd()` and `update_weight(wi)` calls the weight is the product of the `wi`, so
it is exactly 1 when the sequence holds no `update_weight`. -/
theorem generator.weight_is_product_of_updates {R F : Type} [Monoid F]
    (vs : variate_source R F) (g : generator R F) (w : F) (cs : List (generator_call F)) :
    (generator.reset g).weight = 1 ∧ (generator.reset g).m_rnd = g.m_rnd ∧
    (generator.update_weight w g).weight = g.weight * w ∧
    (generator.update_weight w g).m_rnd = g.m_rnd ∧
    (generator.rnd vs g).2.weight = g.weight ∧
    (generator.after vs cs (generator.reset g)).weight = (generator_call.factors cs).prod ∧
    (generator_call.factors cs = [] →
      (generator.after vs cs (generator.reset g)).weight = 1) := by
  have h := generator.after_weight vs cs (generator.reset g)
  have h1 : (generator.reset g).m_weight = 1 := rfl
  rw [h1, one_mul] at h
  refine ⟨rfl, rfl, rfl, rfl, rfl, h, fun hn => ?_⟩
  show (generator.after vs cs (generator.reset g)).m_weight = 1
  rw [h, hn]; rfl

/-- Witness of C15: after `reset()`, three draws leave the weight at 1. -/
theorem generator.weight_is_product_of_updates_witness :
    let vs : variate_source Nat ℚ := ⟨fun seed _ => seed.toNat, fun r => (1 / 2, r + 1)⟩
    let cs : List (generator_call ℚ) :=
      [generator_call.rnd, generator_call.rnd, generator_call.rnd]
    generator_call.factors cs = [] ∧
      (generator.after vs cs (generator.reset ⟨0, 5⟩)).weight = 1 :=
  ⟨rfl, (generator.weight_is_product_of_updates
    (⟨fun seed _ => seed.toNat, fun r => (1 / 2, r + 1)⟩ : variate_source Nat ℚ) ⟨0, 5⟩ 1
    [generator_call.rnd, generator_call.rnd, generator_call.rnd]).2.2.2.2.2.2 rfl⟩

/-! ## Simulating the time agent -/

theorem cumulative_operator.cumulative_update_eq {W F : Type} (f : F → F → F)
    (src : basic_valued_agent W F) (t : Int) (m : machine F W)
    (hl : m.self.m_live = true) (ht : m.self.m_time < t) :
    (basic_agent_impl.update (cumulative_operator.hooks f src) [src.tolinked_type] t m).self.m_state
        = f (src.state (src.update t m.world)) m.self.m_state ∧
      (basic_agent_impl.update (cumulative_operator.hooks f src) [src.tolinked_type] t m).self.m_live
        = src.is_live (src.update t m.world) ∧
      (basic_agent_impl.update (cumulative_operator.hooks f src) [src.tolinked_type] t m).self.m_time
        = t ∧
      (basic_agent_impl.update (cumulative_operator.hooks f src) [src.tolinked_type] t m).world
        = src.update t m.world := by
  have h1 : ¬ t ≤ m.self.m_time := not_le.2 ht
  simp [basic_agent_impl.update, h1, hl, cumulative_operator.hooks, linked_list_policy.update]

theorem cumulative_operator.cumulative_states_eq {W F : Type} (f : F → F → F)
    (src : basic_valued_agent W F) (ts : List Int) (m : machine F W)
    (hl : m.self.m_live = true)
    (hts : List.Pairwise (fun a b => a < b) (m.self.m_time :: ts))
    (hlive : ∀ b ∈ src.lives_after ts m.world, b = true) :
    m.self.m_state ::
        basic_agent_impl.states_after (cumulative_operator.hooks f src) [src.tolinked_type] ts m =
      List.scanl (fun y x => f x y) m.self.m_state (src.states_after ts m.world) ∧
    (basic_agent_impl.updates (cumulative_operator.hooks f src) [src.tolinked_type] ts
        m).self.m_state =
      (src.states_after ts m.world).foldl (fun y x => f x y) m.self.m_state := by
  induction ts generalizing m with
  | nil => exact ⟨rfl, rfl⟩
  | cons t ts ih =>
    obtain ⟨q1, q2⟩ := List.pairwise_cons.1 hts
    have ht : m.self.m_time < t := q1 t (List.mem_cons_self t ts)
    obtain ⟨u1, u2, u3, u4⟩ := cumulative_operator.cumulative_update_eq f src t m hl ht
    have hl2 : (basic_agent_impl.update (cumulative_operator.hooks f src) [src.tolinked_type] t
        m).self.m_live = true := by
      rw [u2]
      exact hlive _ (List.mem_cons_self _ _)
    have hts2 : List.Pairwise (fun a b => a < b)
        ((basic_agent_impl.update (cumulative_operator.hooks f src) [src.tolinked_type] t
          m).self.m_time :: ts) := by
      rw [u3]; exact q2
    have hlive2 : ∀ b ∈ src.lives_after ts
        (basic_agent_impl.update (cumulative_operator.hooks f src) [src.tolinked_type] t
          m).world, b = true := by
      rw [u4]
      intro b hb
      exact hlive b (List.mem_cons_of_mem _ hb)
    obtain ⟨i1, i2⟩ := ih _ hl2 hts2 hlive2
    rw [u1, u4] at i1 i2
    constructor
    · simp only [basic_agent_impl.states_after, basic_valued_agent.states_after, List.scanl_cons]
      rw [u1]
      exact congrArg (List.cons m.self.m_state) i1
    · simp only [basic_agent_impl.updates, basic_valued_agent.states_after, List.foldl_cons]
      exact i2

theorem foldl_add_eq_sum {F : Type} [AddCommMonoid F] (xs : List F) (y : F) :
    xs.foldl (fun y x => x + y) y = y + xs.sum := by
  induction xs generalizing y with
  | nil => simp
  | cons x xs ih =>
    simp only [List.foldl_cons, List.sum_cons, ih]
    rw [add_comm x y, add_assoc]

/-- C16. A cumulative operator on which `reset()` takes effect and which then
receives updates at increasing times after its start, its child being live
after each of them: with `x0` the child's state at the reset and `x1, ..., xn`
its states after the updates, the operator's state is `y0 = x0` after the reset
and `yk = f(xk, y(k-1))` after the k-th update, hence `f(xn, ... f(x1, x0))` at
the end; with `f` = sum that is `x0 + x1 + ... + xn`, with `f` = maximum the
running maximum of `x0, ..., xn`. -/
theorem cumulative_operator.state_is_running_fold {W F : Type} [LinearOrderedField F]
    (f : F → F → F) (src : basic_valued_agent W F) (ts : List Int) (m : machine F W)
    (hr : m.self.m_reset = false)
    (hts : List.Pairwise (fun a b => a < b) (m.self.m_start :: ts))
    (hlive : ∀ b ∈ src.lives_after ts (src.reset m.world), b = true) :
    let h := cumulative_operator.hooks f src
    let m1 := basic_agent_impl.reset h [src.tolinked_type] m
    let x0 := src.state (src.reset m.world)
    let xs := src.states_after ts (src.reset m.world)
    m1.self.m_state = x0 ∧
      m1.self.m_state :: basic_agent_impl.states_after h [src.tolinked_type] ts m1 =
        List.scanl (fun y x => f x y) x0 xs ∧
      (basic_agent_impl.updates h [src.tolinked_type] ts m1).self.m_state =
        xs.foldl (fun y x => f x y) x0 ∧
      (f = operators.sum →
        (basic_agent_impl.updates h [src.tolinked_type] ts m1).self.m_state = x0 + xs.sum) ∧
      (f = operators.maximum →
        (basic_agent_impl.updates h [src.tolinked_type] ts m1).self.m_state =
          xs.foldl max x0) := by
  intro h m1 x0 xs
  have r1 : m1.self.m_state = x0 := by
    simp [m1, h, x0, basic_agent_impl.reset, hr, cumulative_operator.hooks,
      linked_list_policy.reset]
  have r2 : m1.self.m_live = true := by
    simp [m1, h, basic_agent_impl.reset, hr, cumulative_operator.hooks]
  have r3 : m1.self.m_time = m.self.m_start := by
    simp [m1, h, basic_agent_impl.reset, hr]
  have r4 : m1.world = src.reset m.world := by
    simp [m1, h, basic_agent_impl.reset, hr, cumulative_operator.hooks,
      linked_list_policy.reset]
  obtain ⟨s1, s2⟩ := cumulative_operator.cumulative_states_eq f src ts m1 r2 (by rw [r3]; exact hts)
    (by rw [r4]; exact hlive)
  rw [r4, r1] at s1 s2
  refine ⟨r1, by rw [r1]; exact s1, s2, fun hf => ?_, fun hf => ?_⟩
  · rw [s2, hf]
    exact foldl_add_eq_sum xs x0
  · rw [s2, hf]
    have : (fun (y x : F) => operators.maximum x y) = max := by
      funext y x
      exact max_comm x y
    rw [this]

/-- Witness of C16: the scenario of `test_cumulative_ops`, the sum of a
constant 3 over the fixes 180 and 365 from start 0. -/
theorem cumulative_operator.state_is_running_fold_witness :
    let src : basic_valued_agent (List (constant ℚ)) ℚ := constant.agent 0
    let m : machine ℚ (List (constant ℚ)) :=
      basic_agent_impl.init (cumulative_operator.hooks operators.sum src) [src.tolinked_type]
        0 365 0 ⟨basic_agent_impl.ctor 0, [⟨3, 0⟩], []⟩
    m.self.m_reset = false ∧
      List.Pairwise (fun a b => a < b) (m.self.m_start :: [180, 365]) ∧
      (∀ b ∈ src.lives_after [180, 365] (src.reset m.world), b = true) ∧
      (basic_agent_impl.updates (cumulative_operator.hooks operators.sum src)
        [src.tolinked_type] [180, 365]
        (basic_agent_impl.reset (cumulative_operator.hooks operators.sum src)
          [src.tolinked_type] m)).self.m_state = 9 := by
  intro src m
  have hr : m.self.m_reset = false := rfl
  have hts : List.Pairwise (fun a b => a < b) (m.self.m_start :: [180, 365]) := by decide
  have hlive : ∀ b ∈ src.lives_after [180, 365] (src.reset m.world), b = true := by
    intro b hb
    simp [basic_valued_agent.lives_after, src, constant.agent] at hb
    exact hb
  have T := (cumulative_operator.state_is_running_fold operators.sum src [180, 365] m hr hts
    hlive).2.2.2.1 rfl
  refine ⟨hr, hts, hlive, T.trans ?_⟩
  simp [basic_valued_agent.states_after, src, m, constant.agent, basic_agent_impl.init,
    basic_agent_impl.ctor, linked_list_policy.init, cumulative_operator.hooks]
  norm_num

theorem sequential_operator.sequential_update_eq {W X Y : Type} (f : X → X → Y)
    (src : basic_valued_agent W X) (t : Int) (m : machine Y (sequential_operator W X))
    (hl : m.self.m_live = true) (ht : m.self.m_time < t) :
    let m2 := basic_agent_impl.update (sequential_operator.hooks f src)
      [sequential_operator.source src] t m
    m2.self.m_state = f (src.state (src.update t m.world.linked)) m.world.m_last ∧
      m2.self.m_live = src.is_live (src.update t m.world.linked) ∧
      m2.self.m_time = t ∧
      m2.world.linked = src.update t m.world.linked ∧
      m2.world.m_last = src.state (src.update t m.world.linked) := by
  have h1 : ¬ t ≤ m.self.m_time := not_le.2 ht
  simp [basic_agent_impl.update, h1, hl, sequential_operator.hooks, linked_list_policy.update,
    sequential_operator.update_impl, sequential_operator.source]

theorem sequential_operator.sequential_states_eq {W X Y : Type} (f : X → X → Y)
    (src : basic_valued_agent W X) (ts : List Int) (m : machine Y (sequential_operator W X))
    (hl : m.self.m_live = true)
    (hts : List.Pairwise (fun a b => a < b) (m.self.m_time :: ts))
    (hlive : ∀ b ∈ src.lives_after ts m.world.linked, b = true) :
    basic_agent_impl.states_after (sequential_operator.hooks f src)
        [sequential_operator.source src] ts m =
      List.zipWith f (src.states_after ts m.world.linked)
        (m.world.m_last :: src.states_after ts m.world.linked) := by
  induction ts generalizing m with
  | nil => rfl
  | cons t ts ih =>
    obtain ⟨q1, q2⟩ := List.pairwise_cons.1 hts
    have ht : m.self.m_time < t := q1 t (List.mem_cons_self t ts)
    obtain ⟨u1, u2, u3, u4, u5⟩ := sequential_operator.sequential_update_eq f src t m hl ht
    have i1 := ih (basic_agent_impl.update (sequential_operator.hooks f src)
        [sequential_operator.source src] t m)
      (by rw [u2]; exact hlive _ (List.mem_cons_self _ _))
      (by rw [u3]; exact q2)
      (by rw [u4]; intro b hb; exact hlive b (List.mem_cons_of_mem _ hb))
    rw [u4, u5] at i1
    simp only [basic_agent_impl.states_after, basic_valued_agent.states_after,
      List.zipWith_cons_cons]
    rw [u1, i1]

/-- C17, the claim as stated fails when the child stops being live: a
sequential difference on a child whose state follows the time and which is no
longer live from time 1 on, reset at 0 and updated to 1 and 2.  The child's
states after the updates are 1 and 1, so the claimed states are 1 - 0 = 1 and
1 - 1 = 0; the operator, frozen with its child, shows 1 and 1. -/
theorem sequential_operator.frozen_with_child_counterexample :
    let src : basic_valued_agent (List (basic_agent_impl Int)) Int :=
      stored_valued_agent (maturing_hooks 1) 0
    let h := sequential_operator.hooks operators.difference src
    let m1 := basic_agent_impl.reset h [sequential_operator.source src]
      (basic_agent_impl.init h [sequential_operator.source src] 0 10 0
        ⟨basic_agent_impl.ctor 0, ⟨[basic_agent_impl.ctor 0], 0, 0, false⟩, []⟩)
    src.state m1.world.linked = 0 ∧ m1.self.m_state = 0 ∧
      src.states_after [1, 2] m1.world.linked = [1, 1] ∧
      List.zipWith operators.difference [1, 1] [(0 : Int), 1] = [1, 0] ∧
      basic_agent_impl.states_after h [sequential_operator.source src] [1, 2] m1 = [1, 1] := by
  decide

/-- C17, amended. A sequential operator on which `reset()` takes effect and
which then receives updates at increasing times after its start, its child
being live after each of them: with `x0` the child's state at the reset and
`x1, ..., xn` its states after the updates, the operator's state is
`f(x0, x-1)` after the reset and `f(xk, x(k-1))` after the k-th update, where
`x-1` is the initial value given to `setup` if there was one and `x0`
otherwise.  This holds whatever previous value the operator remembered before
the reset: every path starts again from `x-1`. -/
theorem sequential_operator.state_is_pairwise {W X Y : Type} (f : X → X → Y)
    (src : basic_valued_agent W X) (ts : List Int) (m : machine Y (sequential_operator W X))
    (hr : m.self.m_reset = false)
    (hts : List.Pairwise (fun a b => a < b) (m.self.m_start :: ts))
    (hlive : ∀ b ∈ src.lives_after ts (src.reset m.world.linked), b = true) :
    let h := sequential_operator.hooks f src
    let m1 := basic_agent_impl.reset h [sequential_operator.source src] m
    let x0 := src.state (src.reset m.world.linked)
    let xs := src.states_after ts (src.reset m.world.linked)
    let xm1 := if m.world.m_has_initial then m.world.m_initial else x0
    m1.self.m_state = f x0 xm1 ∧
      m1.self.m_state :: basic_agent_impl.states_after h [sequential_operator.source src] ts m1 =
        List.zipWith f (x0 :: xs) (xm1 :: x0 :: xs) := by
  intro h m1 x0 xs xm1
  have r1 : m1.self.m_state = f x0 xm1 := by
    simp [m1, h, x0, xm1, basic_agent_impl.reset, hr, sequential_operator.hooks,
      linked_list_policy.reset, sequential_operator.update_impl, sequential_operator.source]
  have r2 : m1.self.m_live = true := by
    simp [m1, h, basic_agent_impl.reset, hr, sequential_operator.hooks]
  have r3 : m1.self.m_time = m.self.m_start := by
    simp [m1, h, basic_agent_impl.reset, hr]
  have r4 : m1.world.linked = src.reset m.world.linked := by
    simp [m1, h, basic_agent_impl.reset, hr, sequential_operator.hooks,
      linked_list_policy.reset, sequential_operator.update_impl, sequential_operator.source]
  have r5 : m1.world.m_last = x0 := by
    simp [m1, h, x0, basic_agent_impl.reset, hr, sequential_operator.hooks,
      linked_list_policy.reset, sequential_operator.update_impl, sequential_operator.source]
  have s1 := sequential_operator.sequential_states_eq f src ts m1 r2 (by rw [r3]; exact hts)
    (by rw [r4]; exact hlive)
  rw [r4, r5] at s1
  refine ⟨r1, ?_⟩
  rw [List.zipWith_cons_cons, r1, s1]

/-- Witness of C17 (amended): the last scenario of `test_sequential_ops`, the
difference of a constant 3 with the initial value 0, over the fixes 180 and 365
from start 0: the states are 3, 0, 0. -/
theorem sequential_operator.state_is_pairwise_witness :
    let src : basic_valued_agent (List (constant ℚ)) ℚ := constant.agent 0
    let h := sequential_operator.hooks operators.difference src
    let m : machine ℚ (sequential_operator (List (constant ℚ)) ℚ) :=
      basic_agent_impl.init h [sequential_operator.source src] 0 365 0
        ⟨basic_agent_impl.ctor 0, ⟨[⟨3, 0⟩], 0, 0, true⟩, []⟩
    let m1 := basic_agent_impl.reset h [sequential_operator.source src] m
    m.self.m_reset = false ∧
      List.Pairwise (fun a b => a < b) (m.self.m_start :: [180, 365]) ∧
      (∀ b ∈ src.lives_after [180, 365] (src.reset m.world.linked), b = true) ∧
      m1.self.m_state :: basic_agent_impl.states_after h [sequential_operator.source src]
        [180, 365] m1 = [3, 0, 0] := by
  intro src h m m1
  have hr : m.self.m_reset = false := rfl
  have hts : List.Pairwise (fun a b => a < b) (m.self.m_start :: [180, 365]) := by decide
  have hlive : ∀ b ∈ src.lives_after [180, 365] (src.reset m.world.linked), b = true := by
    intro b hb
    simp [basic_valued_agent.lives_after, src, constant.agent] at hb
    exact hb
  have T := (sequential_operator.state_is_pairwise operators.difference src [180, 365] m hr hts
    hlive).2
  refine ⟨hr, hts, hlive, T.trans ?_⟩
  simp [basic_valued_agent.states_after, src, m, h, constant.agent, basic_agent_impl.init,
    basic_agent_impl.ctor, linked_list_policy.init, sequential_operator.hooks,
    sequential_operator.source, operators.difference]

theorem binary_operator.foldl_or_false {W F : Type} (w : W)
    (l : List (basic_valued_agent W F)) (b : Bool)
    (h : l.foldl (fun s d => s || d.is_live w) b = false) :
    b = false ∧ ∀ d ∈ l, d.is_live w = false := by
  induction l generalizing b with
  | nil => exact ⟨h, fun d hd => absurd hd (List.not_mem_nil d)⟩
  | cons c l ih =>
    obtain ⟨h1, h2⟩ := ih (b || c.is_live w) h
    have hb : b = false ∧ c.is_live w = false := by
      cases b <;> cases hc : c.is_live w <;> simp_all
    refine ⟨hb.1, fun d hd => ?_⟩
    rcases List.mem_cons.1 hd with hd1 | hd1
    · rw [hd1]; exact hb.2
    · exact h2 d hd1

theorem binary_operator.any_live_false {W F : Type} (w : W)
    (cs : List (basic_valued_agent W F)) (h : binary_operator.any_live w cs = false) :
    ∀ d ∈ cs, d.is_live w = false := by
  cases cs with
  | nil => intro d hd; exact absurd hd (List.not_mem_nil d)
  | cons c l =>
    obtain ⟨h1, h2⟩ := binary_operator.foldl_or_false w l (c.is_live w) h
    intro d hd
    rcases List.mem_cons.1 hd with hd1 | hd1
    · rw [hd1]; exact h1
    · exact h2 d hd1

theorem binary_operator.reduce_congr {W F : Type} (f : F → F → F) (w v : W)
    (cs : List (basic_valued_agent W F)) (h : ∀ d ∈ cs, d.state v = d.state w) :
    binary_operator.reduce f v cs = binary_operator.reduce f w cs := by
  cases cs with
  | nil => rfl
  | cons c l =>
    have hc : c.state v = c.state w := h c (List.mem_cons_self c l)
    have hl : ∀ d ∈ l, d.state v = d.state w := fun d hd => h d (List.mem_cons_of_mem c hd)
    simp only [binary_operator.reduce, hc]
    congr 1
    generalize c.state w = acc
    induction l generalizing acc with
    | nil => rfl
    | cons d l ih =>
      simp only [List.foldl_cons, hl d (List.mem_cons_self d l)]
      exact ih (fun e he => h e (by
        rcases List.mem_cons.1 he with h1 | h1
        · rw [h1]; exact List.mem_cons_self c _
        · exact List.mem_cons_of_mem c (List.mem_cons_of_mem d h1)))
        (fun e he => hl e (List.mem_cons_of_mem d he)) _

theorem binary_operator.reduce_some {W F : Type} (f : F → F → F) (w : W)
    (cs : List (basic_valued_agent W F)) (hne : cs ≠ []) (x : F) :
    some ((binary_operator.reduce f w cs).getD x) = binary_operator.reduce f w cs := by
  cases cs with
  | nil => exact absurd rfl hne
  | cons c l => rfl

theorem binary_operator.forward_eq {W F : Type} (cs : List (basic_valued_agent W F)) (t : Int)
    (w : W) :
    (cs.map (fun c => c.tolinked_type)).foldl (fun v d => d.update t v) w =
      binary_operator.forward cs t w := by
  simp [binary_operator.forward, List.foldl_map]

theorem binary_operator.binary_reset_eq {W F : Type} (f : F → F → F)
    (cs : List (basic_valued_agent W F)) (hne : cs ≠ []) (m : machine F W)
    (hr : m.self.m_reset = false) :
    let m2 := basic_agent_impl.reset (binary_operator.hooks f cs)
      (cs.map (fun c => c.tolinked_type)) m
    m2.world = cs.foldl (fun v d => d.reset v) m.world ∧
      binary_operator.reduce f m2.world cs = some m2.self.m_state ∧
      m2.self.m_live = true ∧ m2.self.m_time = m.self.m_start := by
  intro m2
  have hw : m2.world = cs.foldl (fun v d => d.reset v) m.world := by
    simp [m2, basic_agent_impl.reset, hr, binary_operator.hooks, linked_list_policy.reset_eq,
      List.foldl_map]
  have hs : m2.self.m_state = (binary_operator.reduce f m2.world cs).getD m.self.m_state0 := by
    simp [m2, basic_agent_impl.reset, hr, binary_operator.hooks, linked_list_policy.reset_eq]
  refine ⟨hw, ?_, ?_, ?_⟩
  · rw [hs, binary_operator.reduce_some f _ cs hne]
  · simp [m2, basic_agent_impl.reset, hr, binary_operator.hooks]
  · simp [m2, basic_agent_impl.reset, hr]

theorem binary_operator.binary_update_eq {W F : Type} (f : F → F → F)
    (cs : List (basic_valued_agent W F)) (hne : cs ≠ []) (t : Int) (m : machine F W)
    (hl : m.self.m_live = true) (ht : m.self.m_time < t) :
    let m2 := basic_agent_impl.update (binary_operator.hooks f cs)
      (cs.map (fun c => c.tolinked_type)) t m
    m2.world = binary_operator.forward cs t m.world ∧
      binary_operator.reduce f m2.world cs = some m2.self.m_state ∧
      m2.self.m_live = binary_operator.any_live m2.world cs := by
  intro m2
  have h1 : ¬ t ≤ m.self.m_time := not_le.2 ht
  have hw : m2.world = binary_operator.forward cs t m.world := by
    simp [m2, basic_agent_impl.update, h1, hl, binary_operator.hooks,
      linked_list_policy.update_eq, binary_operator.forward, List.foldl_map]
  have hs : m2.self.m_state = (binary_operator.reduce f m2.world cs).getD m.self.m_state := by
    simp [m2, basic_agent_impl.update, h1, hl, binary_operator.hooks,
      linked_list_policy.update_eq]
  refine ⟨hw, ?_, ?_⟩
  · rw [hs, binary_operator.reduce_some f _ cs hne]
  · simp [m2, basic_agent_impl.update, h1, hl, binary_operator.hooks,
      linked_list_policy.update_eq]

theorem binary_operator.reduced_step {W F : Type} (f : F → F → F)
    (cs : List (basic_valued_agent W F)) (hne : cs ≠ [])
    (hfrozen : ∀ t w, (∀ d ∈ cs, d.is_live w = false) →
      ∀ d ∈ cs, d.state (binary_operator.forward cs t w) = d.state w ∧
        d.is_live (binary_operator.forward cs t w) = false)
    (o : op) (m : machine F W) (hm : binary_operator.reduced f cs m) :
    binary_operator.reduced f cs
      (basic_agent_impl.step (binary_operator.hooks f cs) (cs.map (fun c => c.tolinked_type))
        o m) := by
  cases o with
  | reset =>
    simp only [basic_agent_impl.step]
    cases hr : m.self.m_reset
    · obtain ⟨_, r2, r3, _⟩ := binary_operator.binary_reset_eq f cs hne m hr
      exact ⟨r2, fun hc => by rw [r3] at hc; exact Bool.noConfusion hc⟩
    · have he : basic_agent_impl.reset (binary_operator.hooks f cs)
          (cs.map (fun c => c.tolinked_type)) m = m := by
        simp [basic_agent_impl.reset, hr]
      rw [he]; exact hm
  | update t =>
    simp only [basic_agent_impl.step]
    by_cases ht : t ≤ m.self.m_time
    · rw [basic_agent_impl.update_of_le _ _ t m ht]; exact hm
    · cases hl : m.self.m_live
      · have hw : (basic_agent_impl.update (binary_operator.hooks f cs)
            (cs.map (fun c => c.tolinked_type)) t m).world =
            binary_operator.forward cs t m.world := by
          simp [basic_agent_impl.update, ht, hl, linked_list_policy.update_eq,
            binary_operator.forward, List.foldl_map]
        have hs := basic_agent_impl.update_self_of_not_live (binary_operator.hooks f cs)
          (cs.map (fun c => c.tolinked_type)) t m hl
        have hfz := hfrozen t m.world (hm.2 hl)
        refine ⟨?_, fun _ => ?_⟩
        · rw [hw, hs, binary_operator.reduce_congr f m.world _ cs (fun d hd => (hfz d hd).1)]
          exact hm.1
        · rw [hw]
          exact fun d hd => (hfz d hd).2
      · obtain ⟨_, u2, u3⟩ := binary_operator.binary_update_eq f cs hne t m hl (not_le.1 ht)
        exact ⟨u2, fun hc => binary_operator.any_live_false _ cs (u3.symm.trans hc)⟩

theorem binary_operator.reduced_run {W F : Type} (f : F → F → F)
    (cs : List (basic_valued_agent W F)) (hne : cs ≠ [])
    (hfrozen : ∀ t w, (∀ d ∈ cs, d.is_live w = false) →
      ∀ d ∈ cs, d.state (binary_operator.forward cs t w) = d.state w ∧
        d.is_live (binary_operator.forward cs t w) = false)
    (os : List op) (m : machine F W) (hm : binary_operator.reduced f cs m) :
    binary_operator.reduced f cs
      (basic_agent_impl.run (binary_operator.hooks f cs) (cs.map (fun c => c.tolinked_type))
        os m) := by
  induction os generalizing m with
  | nil => exact hm
  | cons o os ih => exact ih _ (binary_operator.reduced_step f cs hne hfrozen o m hm)

/-- C18. For a binary operator with a non-empty list of children (each of which,
as its interface promises, no longer changes once none of them is live): a
`reset()` that takes effect and an `update(t)`, `t > time`, on the live operator
forward the call to the children in connect order and leave as the operator's
state the left-to-right reduction of their states, `s1` for one child,
`f(s1, s2)` for two, `f(f(s1, s2), s3)` for three; the operator stays live as
long as one child is; the state is that reduction after the reset and after each
call of any sequence of updates and resets that follows; and `init` on an
operator that is not initialised and has no child throws. -/
theorem binary_operator.state_is_reduction {W F : Type} (f : F → F → F)
    (cs : List (basic_valued_agent W F)) (m : machine F W) (t : Int) (os : List op)
    (start stop : Int) (rnd : Nat) (a b c : basic_valued_agent W F) (w : W)
    (hne : cs ≠ [])
    (hfrozen : ∀ t w, (∀ d ∈ cs, d.is_live w = false) →
      ∀ d ∈ cs, d.state (binary_operator.forward cs t w) = d.state w ∧
        d.is_live (binary_operator.forward cs t w) = false) :
    let h := binary_operator.hooks f cs
    let ds := cs.map (fun c => c.tolinked_type)
    (binary_operator.reduce f w [a] = some (a.state w) ∧
      binary_operator.reduce f w [a, b] = some (f (a.state w) (b.state w)) ∧
      binary_operator.reduce f w [a, b, c] =
        some (f (f (a.state w) (b.state w)) (c.state w))) ∧
    (m.self.m_reset = false →
      (basic_agent_impl.reset h ds m).world = cs.foldl (fun v d => d.reset v) m.world ∧
      binary_operator.reduce f (basic_agent_impl.reset h ds m).world cs =
        some (basic_agent_impl.reset h ds m).self.m_state) ∧
    (m.self.m_live = true → m.self.m_time < t →
      (basic_agent_impl.update h ds t m).world = binary_operator.forward cs t m.world ∧
      binary_operator.reduce f (basic_agent_impl.update h ds t m).world cs =
        some (basic_agent_impl.update h ds t m).self.m_state ∧
      (basic_agent_impl.update h ds t m).self.m_live =
        binary_operator.any_live (basic_agent_impl.update h ds t m).world cs) ∧
    (m.self.m_reset = false →
      binary_operator.reduce f
          (basic_agent_impl.run h ds os (basic_agent_impl.reset h ds m)).world cs =
        some (basic_agent_impl.run h ds os (basic_agent_impl.reset h ds m)).self.m_state) ∧
    (m.self.m_init = false →
      ∃ e, binary_operator.init f [] start stop rnd m = Except.error e) := by
  intro h ds
  refine ⟨⟨rfl, rfl, rfl⟩, fun hr => ?_, fun hl ht => ?_, fun hr => ?_, fun hi => ?_⟩
  · obtain ⟨r1, r2, _, _⟩ := binary_operator.binary_reset_eq f cs hne m hr
    exact ⟨r1, r2⟩
  · exact binary_operator.binary_update_eq f cs hne t m hl ht
  · obtain ⟨_, r2, r3, _⟩ := binary_operator.binary_reset_eq f cs hne m hr
    exact (binary_operator.reduced_run f cs hne hfrozen os _
      ⟨r2, fun hc => by rw [r3] at hc; exact Bool.noConfusion hc⟩).1
  · refine ⟨(⟨{ m.self with mp_rnd := rnd, m_start := start, m_time := start, m_end := stop },
      m.world, m.calls ++ [call.init_impl]⟩ : machine F W), ?_⟩
    unfold binary_operator.init
    rw [if_neg (by simp [hi]), if_pos (by simp)]
    rfl

/-- Witness of C18: the scenario of `test_binary_ops`, the sum of the constants
3 and 2, initialised, reset and updated to 365. -/
theorem binary_operator.state_is_reduction_witness :
    let cs : List (basic_valued_agent (List (constant ℚ)) ℚ) :=
      [constant.agent 0, constant.agent 1]
    let h := binary_operator.hooks operators.sum cs
    let ds := cs.map (fun c => c.tolinked_type)
    let m : machine ℚ (List (constant ℚ)) :=
      basic_agent_impl.init h ds 0 365 0 ⟨basic_agent_impl.ctor 0, [⟨3, 0⟩, ⟨2, 0⟩], []⟩
    cs ≠ [] ∧ m.self.m_reset = false ∧
      (basic_agent_impl.run h ds [op.update 365] (basic_agent_impl.reset h ds m)).self.m_state
        = 5 := by
  intro cs h ds m
  have hne : cs ≠ [] := List.cons_ne_nil _ _
  have hfrozen : ∀ t w, (∀ d ∈ cs, d.is_live w = false) →
      ∀ d ∈ cs, d.state (binary_operator.forward cs t w) = d.state w ∧
        d.is_live (binary_operator.forward cs t w) = false := by
    intro t w hall
    have := hall (constant.agent 0) (List.mem_cons_self _ _)
    simp [constant.agent] at this
  have T := (binary_operator.state_is_reduction operators.sum cs m 365 [op.update 365] 0 365 0
    (constant.agent 0) (constant.agent 0) (constant.agent 0) [] hne hfrozen).2.2.2.1 rfl
  refine ⟨hne, rfl, ?_⟩
  have T2 := Option.some.inj (T.symm.trans (show binary_operator.reduce operators.sum
      (basic_agent_impl.run h ds [op.update 365] (basic_agent_impl.reset h ds m)).world cs =
      some 5 from by
    simp [binary_operator.reduce, cs, h, ds, m, constant.agent, basic_agent_impl.run,
      basic_agent_impl.step, basic_agent_impl.update, basic_agent_impl.reset,
      basic_agent_impl.init, basic_agent_impl.ctor, binary_operator.hooks,
      linked_list_policy.init, linked_list_policy.reset, linked_list_policy.update,
      operators.sum, binary_operator.any_live]
    norm_num))
  exact T2

/-! ## The memory agent -/

theorem memory.count_while_spec (p : Int → Bool) (l : List Int)
    (hs : List.Pairwise (fun a b => a < b) l)
    (hp : ∀ a b, a < b → p b = true → p a = true) :
    memory.count_while p l ≤ l.length ∧
      (∀ x ∈ l.take (memory.count_while p l), p x = true) ∧
      (∀ x ∈ l.drop (memory.count_while p l), p x = false) := by
  induction l with
  | nil => simp [memory.count_while]
  | cons a l ih =>
    obtain ⟨p1, p2⟩ := List.pairwise_cons.1 hs
    obtain ⟨i1, i2, i3⟩ := ih p2
    cases ha : p a
    · simp only [memory.count_while, ha, Bool.false_eq_true, if_false, List.take_zero,
        List.drop_zero]
      refine ⟨Nat.zero_le _, fun x hx => absurd hx (List.not_mem_nil x), fun x hx => ?_⟩
      rcases List.mem_cons.1 hx with h1 | h1
      · rw [h1]; exact ha
      · cases hx2 : p x
        · rfl
        · have := hp a x (p1 x h1) hx2
          rw [ha] at this; exact Bool.noConfusion this
    · simp only [memory.count_while, ha, if_true, List.take_succ_cons, List.drop_succ_cons,
        List.length_cons]
      refine ⟨Nat.succ_le_succ i1, fun x hx => ?_, i3⟩
      rcases List.mem_cons.1 hx with h1 | h1
      · rw [h1]; exact ha
      · exact i2 x h1

theorem memory.update_impl_spec {C S : Type} (triggers : List Int) (always_update : Bool)
    (src : basic_valued_agent C S) (time : Int) (state : S) (v : memory C)
    (hs : List.Pairwise (fun a b => a < b) triggers)
    (hpast : ∀ x ∈ triggers.take v.m_trigger_itr, x ≤ time) :
    let r := memory.update_impl triggers always_update src time state v
    (∀ x ∈ triggers.take r.2.2.m_trigger_itr, x ≤ time) ∧
      (∀ x ∈ triggers.drop r.2.2.m_trigger_itr, time < x) ∧
      (r.2.1 = true ↔ r.2.2.m_trigger_itr < triggers.length) ∧
      r.2.2.m_trigger_start = v.m_trigger_start ∧
      ((∃ x ∈ triggers.drop v.m_trigger_itr, x ≤ time) →
        r.1 = src.state (src.update time v.src) ∧
        (r.2.2.src = src.update time v.src ∨
          r.2.2.src = src.update time (src.update time v.src))) ∧
      ((¬ ∃ x ∈ triggers.drop v.m_trigger_itr, x ≤ time) → r.1 = state ∧
        r.2.2.m_trigger_itr = v.m_trigger_itr ∧
        (r.2.2.src = v.src ∨ r.2.2.src = src.update time v.src)) := by
  intro r
  cases hget : triggers[v.m_trigger_itr]? with
  | none =>
    have hlen : triggers.length ≤ v.m_trigger_itr := List.getElem?_eq_none_iff.1 hget
    have hr : r = (state, false, v) := by
      simp only [r, memory.update_impl, hget]
    have hd : triggers.drop v.m_trigger_itr = [] := List.drop_eq_nil_of_le hlen
    rw [hr]
    refine ⟨hpast, ?_, ?_, rfl, ?_, fun _ => ⟨rfl, rfl, Or.inl rfl⟩⟩
    · intro x hx
      rw [hd] at hx
      exact absurd hx (List.not_mem_nil x)
    · constructor
      · intro hc; exact Bool.noConfusion hc
      · intro hc; exact absurd hc (not_lt.2 hlen)
    · rintro ⟨x, hx, _⟩
      rw [hd] at hx
      exact absurd hx (List.not_mem_nil x)
  | some trigger =>
    obtain ⟨hlt, hge⟩ := List.getElem?_eq_some.1 hget
    have hd : triggers.drop v.m_trigger_itr = trigger :: triggers.drop (v.m_trigger_itr + 1) := by
      rw [List.drop_eq_getElem_cons hlt, hge]
    have hsd : List.Pairwise (fun a b => a < b) (triggers.drop v.m_trigger_itr) :=
      hs.sublist (List.drop_sublist _ _)
    by_cases hcross : trigger ≤ time
    · obtain ⟨c1, c2, c3⟩ := memory.count_while_spec (fun x => decide (x ≤ time))
        (triggers.drop v.m_trigger_itr) hsd (by
          intro a b hab hb
          have : b ≤ time := by simpa using hb
          simpa using le_trans (le_of_lt hab) this)
      have hlen : (triggers.drop v.m_trigger_itr).length = triggers.length - v.m_trigger_itr :=
        List.length_drop _ _
      have htake : ∀ x ∈ triggers.take (v.m_trigger_itr +
          memory.count_while (fun x => decide (x ≤ time)) (triggers.drop v.m_trigger_itr)),
          x ≤ time := by
        intro x hx
        rw [List.take_add] at hx
        rcases List.mem_append.1 hx with h1 | h1
        · exact hpast x h1
        · simpa using c2 x h1
      have hdrop : ∀ x ∈ triggers.drop (v.m_trigger_itr +
          memory.count_while (fun x => decide (x ≤ time)) (triggers.drop v.m_trigger_itr)),
          time < x := by
        intro x hx
        rw [← List.drop_drop] at hx
        have := c3 x hx
        simpa using this
      have hex : ∃ x ∈ triggers.drop v.m_trigger_itr, x ≤ time :=
        ⟨trigger, by rw [hd]; exact List.mem_cons_self _ _, hcross⟩
      by_cases hend : v.m_trigger_itr +
          memory.count_while (fun x => decide (x ≤ time)) (triggers.drop v.m_trigger_itr) =
          triggers.length
      · have hr : r = (src.state (src.update time v.src), false,
            { v with src := src.update time v.src,
                     m_trigger_itr := v.m_trigger_itr + memory.count_while
                       (fun x => decide (x ≤ time)) (triggers.drop v.m_trigger_itr) }) := by
          simp only [r, memory.update_impl, hget, hcross, if_true, hend]
        rw [hr]
        refine ⟨htake, hdrop, ?_, rfl, fun _ => ⟨rfl, Or.inl rfl⟩, fun hn => absurd hex hn⟩
        constructor
        · intro hc; exact Bool.noConfusion hc
        · intro hc
          have : v.m_trigger_itr + memory.count_while (fun x => decide (x ≤ time))
              (triggers.drop v.m_trigger_itr) < triggers.length := hc
          omega
      · have hr : r = (src.state (src.update time v.src), true,
            { v with src := if always_update then src.update time (src.update time v.src)
                            else src.update time v.src,
                     m_trigger_itr := v.m_trigger_itr + memory.count_while
                       (fun x => decide (x ≤ time)) (triggers.drop v.m_trigger_itr) }) := by
          simp only [r, memory.update_impl, hget, hcross, if_true, hend, if_false]
        rw [hr]
        refine ⟨htake, hdrop, ?_, rfl, fun _ => ⟨rfl, ?_⟩, fun hn => absurd hex hn⟩
        · constructor
          · intro _
            show v.m_trigger_itr + memory.count_while (fun x => decide (x ≤ time))
              (triggers.drop v.m_trigger_itr) < triggers.length
            omega
          · intro _; rfl
        · cases always_update
          · exact Or.inl rfl
          · exact Or.inr rfl
    · have hr : r = (state, true,
          { v with src := if always_update then src.update time v.src else v.src }) := by
        simp only [r, memory.update_impl, hget, hcross, if_false]
      have hlater : ∀ x ∈ triggers.drop v.m_trigger_itr, time < x := by
        intro x hx
        rw [hd] at hx hsd
        rcases List.mem_cons.1 hx with h1 | h1
        · rw [h1]; exact not_le.1 hcross
        · exact lt_trans (not_le.1 hcross) ((List.pairwise_cons.1 hsd).1 x h1)
      rw [hr]
      refine ⟨hpast, hlater, ?_, rfl, ?_, fun _ => ⟨rfl, rfl, ?_⟩⟩
      · constructor
        · intro _; exact hlt
        · intro _; rfl
      · rintro ⟨x, hx, hxt⟩
        exact absurd (hlater x hx) (not_lt.2 hxt)
      · cases always_update
        · exact Or.inl rfl
        · exact Or.inr rfl

theorem memory.reset_tracked {C S : Type} (triggers : List Int) (always_update : Bool)
    (src : basic_valued_agent C S) (m : machine S (memory C))
    (hs : List.Pairwise (fun a b => a < b) triggers) (hr : m.self.m_reset = false)
    (h1 : ∀ x ∈ triggers.take m.world.m_trigger_start, x < m.self.m_start)
    (h2 : ∀ x ∈ triggers.drop m.world.m_trigger_start, m.self.m_start ≤ x) :
    let m1 := basic_agent_impl.reset (memory.hooks triggers always_update src) [] m
    memory.tracked triggers m1 ∧ m1.self.m_time = m.self.m_start ∧
      m1.self.m_start = m.self.m_start ∧ m1.self.m_state0 = m.self.m_state0 ∧
      (m.self.m_start ∈ triggers →
        m1.self.m_state = src.state (src.update m.self.m_start (src.reset m.world.src))) ∧
      (m.self.m_start ∉ triggers → m1.self.m_state = m.self.m_state0) := by
  intro m1
  obtain ⟨s1, s2, s3, s4, s5, s6⟩ := memory.update_impl_spec triggers always_update src
    m.self.m_start m.self.m_state0
    { m.world with src := src.reset m.world.src, m_trigger_itr := m.world.m_trigger_start } hs
    (fun x hx => le_of_lt (h1 x hx))
  have e1 : m1.self.m_state = (memory.update_impl triggers always_update src m.self.m_start
      m.self.m_state0
      { m.world with src := src.reset m.world.src, m_trigger_itr := m.world.m_trigger_start }).1 := by
    simp [m1, basic_agent_impl.reset, hr, memory.hooks, linked_list_policy.reset]
  have e2 : m1.self.m_live = (memory.update_impl triggers always_update src m.self.m_start
      m.self.m_state0
      { m.world with src := src.reset m.world.src, m_trigger_itr := m.world.m_trigger_start }).2.1 := by
    simp [m1, basic_agent_impl.reset, hr, memory.hooks, linked_list_policy.reset]
  have e3 : m1.world = (memory.update_impl triggers always_update src m.self.m_start
      m.self.m_state0
      { m.world with src := src.reset m.world.src, m_trigger_itr := m.world.m_trigger_start }).2.2 := by
    simp [m1, basic_agent_impl.reset, hr, memory.hooks, linked_list_policy.reset]
  have e4 : m1.self.m_time = m.self.m_start := by
    simp [m1, basic_agent_impl.reset, hr]
  have e5 : m1.self.m_start = m.self.m_start := by
    simp [m1, basic_agent_impl.reset, hr]
  have e6 : m1.self.m_state0 = m.self.m_state0 := by
    simp [m1, basic_agent_impl.reset, hr]
  have hcross : (∃ x ∈ triggers.drop m.world.m_trigger_start, x ≤ m.self.m_start) ↔
      m.self.m_start ∈ triggers := by
    constructor
    · rintro ⟨x, hx, hxs⟩
      have : x = m.self.m_start := le_antisymm hxs (h2 x hx)
      rw [← this]
      exact List.mem_of_mem_drop hx
    · intro hmem
      have hsplit : m.self.m_start ∈ triggers.take m.world.m_trigger_start ++
          triggers.drop m.world.m_trigger_start := by
        rw [List.take_append_drop]; exact hmem
      rcases List.mem_append.1 hsplit with h | h
      · exact absurd (h1 _ h) (lt_irrefl _)
      · exact ⟨_, h, le_refl _⟩
  refine ⟨⟨?_, ?_, ?_, ?_, ?_, ?_⟩, e4, e5, e6, fun hmem => ?_, fun hmem => ?_⟩
  · rw [e3, e4]; exact s1
  · rw [e3, e4]; exact s2
  · rw [e2, e3]; exact s3
  · rw [e3, s4, e5]; exact h1
  · rw [e3, s4, e5]; exact h2
  · rw [e4, e5]
  · rw [e1]; exact (s5 (hcross.2 hmem)).1
  · rw [e1]; exact (s6 (fun hc => hmem (hcross.1 hc))).1

theorem memory.update_tracked {C S : Type} (triggers : List Int) (always_update : Bool)
    (src : basic_valued_agent C S) (t : Int) (m : machine S (memory C))
    (hs : List.Pairwise (fun a b => a < b) triggers) (hm : memory.tracked triggers m)
    (ht : m.self.m_time < t) :
    let m2 := basic_agent_impl.update (memory.hooks triggers always_update src) [] t m
    memory.tracked triggers m2 ∧ m2.self.m_state0 = m.self.m_state0 ∧
      m2.self.m_start = m.self.m_start ∧
      ((∃ x ∈ triggers.drop m.world.m_trigger_itr, x ≤ t) →
        m2.self.m_time = t ∧
        m2.self.m_state = src.state (src.update t m.world.src) ∧
        (m2.world.src = src.update t m.world.src ∨
          m2.world.src = src.update t (src.update t m.world.src)) ∧
        (∀ x ∈ triggers.take m2.world.m_trigger_itr, x ≤ t) ∧
        (∀ x ∈ triggers.drop m2.world.m_trigger_itr, t < x)) ∧
      ((¬ ∃ x ∈ triggers.drop m.world.m_trigger_itr, x ≤ t) →
        m2.self.m_state = m.self.m_state ∧
        m2.world.m_trigger_itr = m.world.m_trigger_itr) := by
  intro m2
  obtain ⟨g1, g2, g3, g4, g5, g6⟩ := hm
  have hnt : ¬ t ≤ m.self.m_time := not_le.2 ht
  cases hl : m.self.m_live
  · have hend : ¬ m.world.m_trigger_itr < triggers.length := by
      intro hc
      have := g3.2 hc
      rw [hl] at this; exact Bool.noConfusion this
    have hd : triggers.drop m.world.m_trigger_itr = [] :=
      List.drop_eq_nil_of_le (not_lt.1 hend)
    have hself : m2.self = m.self :=
      basic_agent_impl.update_self_of_not_live _ _ t m hl
    have hw : m2.world = m.world := by
      simp [m2, basic_agent_impl.update, hnt, hl, linked_list_policy.update]
    refine ⟨?_, by rw [hself], by rw [hself], ?_, fun _ => ⟨by rw [hself], by rw [hw]⟩⟩
    · rw [memory.tracked, hself, hw]
      exact ⟨g1, g2, g3, g4, g5, g6⟩
    · rintro ⟨x, hx, _⟩
      rw [hd] at hx
      exact absurd hx (List.not_mem_nil x)
  · obtain ⟨s1, s2, s3, s4, s5, s6⟩ := memory.update_impl_spec triggers always_update src
      t m.self.m_state m.world hs (fun x hx => le_trans (g1 x hx) (le_of_lt ht))
    have e1 : m2.self.m_state = (memory.update_impl triggers always_update src t
        m.self.m_state m.world).1 := by
      simp [m2, basic_agent_impl.update, hnt, hl, memory.hooks, linked_list_policy.update]
    have e2 : m2.self.m_live = (memory.update_impl triggers always_update src t
        m.self.m_state m.world).2.1 := by
      simp [m2, basic_agent_impl.update, hnt, hl, memory.hooks, linked_list_policy.update]
    have e3 : m2.world = (memory.update_impl triggers always_update src t
        m.self.m_state m.world).2.2 := by
      simp [m2, basic_agent_impl.update, hnt, hl, memory.hooks, linked_list_policy.update]
    have e4 : m2.self.m_time = t := by
      simp [m2, basic_agent_impl.update, hnt, hl]
    have e5 : m2.self.m_start = m.self.m_start := by
      simp [m2, basic_agent_impl.update, hnt, hl]
    have e6 : m2.self.m_state0 = m.self.m_state0 := by
      simp [m2, basic_agent_impl.update, hnt, hl]
    refine ⟨⟨?_, ?_, ?_, ?_, ?_, ?_⟩, e6, e5, fun hc => ?_, fun hc => ?_⟩
    · rw [e3, e4]; exact s1
    · rw [e3, e4]; exact s2
    · rw [e2, e3]; exact s3
    · rw [e3, s4, e5]; exact g4
    · rw [e3, s4, e5]; exact g5
    · rw [e4, e5]; exact le_trans g6 (le_of_lt ht)
    · refine ⟨e4, ?_, ?_, ?_, ?_⟩
      · rw [e1]; exact (s5 hc).1
      · rw [e3]; exact (s5 hc).2
      · rw [e3]; exact s1
      · rw [e3]; exact s2
    · exact ⟨by rw [e1]; exact (s6 hc).1, by rw [e3]; exact (s6 hc).2.1⟩

theorem memory.step_tracked {C S : Type} (triggers : List Int) (always_update : Bool)
    (src : basic_valued_agent C S) (o : op) (m : machine S (memory C))
    (hs : List.Pairwise (fun a b => a < b) triggers) (hm : memory.tracked triggers m) :
    memory.tracked triggers
      (basic_agent_impl.step (memory.hooks triggers always_update src) [] o m) := by
  cases o with
  | reset =>
    simp only [basic_agent_impl.step]
    cases hr : m.self.m_reset
    · exact (memory.reset_tracked triggers always_update src m hs hr hm.2.2.2.1 hm.2.2.2.2.1).1
    · have he : basic_agent_impl.reset (memory.hooks triggers always_update src) [] m = m := by
        simp [basic_agent_impl.reset, hr]
      rw [he]; exact hm
  | update t =>
    simp only [basic_agent_impl.step]
    by_cases ht : t ≤ m.self.m_time
    · rw [basic_agent_impl.update_of_le _ _ t m ht]; exact hm
    · exact (memory.update_tracked triggers always_update src t m hs hm (not_le.1 ht)).1

theorem memory.run_tracked {C S : Type} (triggers : List Int) (always_update : Bool)
    (src : basic_valued_agent C S) (os : List op) (m : machine S (memory C))
    (hs : List.Pairwise (fun a b => a < b) triggers) (hm : memory.tracked triggers m) :
    memory.tracked triggers
      (basic_agent_impl.run (memory.hooks triggers always_update src) [] os m) := by
  induction os generalizing m with
  | nil => exact hm
  | cons o os ih => exact ih _ (memory.step_tracked triggers always_update src o m hs hm)

/-- C21, evaluated on the code: for the queue holding the value 1 four times
`queue_std` returns `sqrt(1 + 1 + 1 + 1) / 5 = 2/5`, while the standard
deviation of four equal values, as the text words it, is 0. -/
theorem operators.queue_std_of_equal_values :
    operators.queue_std Real.sqrt [((1 : Int), (1 : ℝ)), (2, 1), (3, 1), (4, 1)] =
        some (2 / 5) ∧
      operators.sample_standard_deviation Real.sqrt [(1 : ℝ), 1, 1, 1] = 0 := by
  have h4 : Real.sqrt 4 = 2 := by
    rw [show (4 : ℝ) = 2 ^ 2 by norm_num]
    exact Real.sqrt_sq (by norm_num)
  constructor
  · simp only [operators.queue_std, List.foldl_cons, List.foldl_nil]
    norm_num
    rw [h4]
  · simp only [operators.sample_standard_deviation, List.sum_cons, List.sum_nil, List.map_cons,
      List.map_nil, List.length_cons, List.length_nil]
    norm_num

theorem bounds.bounds_observe_all_max {F : Type} [LinearOrderedField F] (obs : List (F × F))
    (o : bounds F) (b : F) (hb : o.m_max = b) (hobs : ∀ vw ∈ obs, vw.1 ≤ b) :
    (bounds.observe_all obs o).m_max = b := by
  induction obs generalizing o with
  | nil => exact hb
  | cons vw obs ih =>
    simp only [bounds.observe_all, List.foldl_cons]
    refine ih _ ?_ (fun x hx => hobs x (List.mem_cons_of_mem vw hx))
    simp only [bounds.observe, hb]
    exact max_eq_left (hobs vw (List.mem_cons_self vw obs))

theorem statistics.statistics_observe_all_max {F : Type} [LinearOrderedField F] (obs : List (F × F))
    (o : statistics F) (b : F) (hb : o.m_max = b) (hobs : ∀ vw ∈ obs, vw.1 ≤ b) :
    (statistics.observe_all obs o).m_max = b := by
  induction obs generalizing o with
  | nil => exact hb
  | cons vw obs ih =>
    simp only [statistics.observe_all, List.foldl_cons]
    refine ih _ ?_ (fun x hx => hobs x (List.mem_cons_of_mem vw hx))
    simp only [statistics.observe, hb]
    exact max_eq_left (hobs vw (List.mem_cons_self vw obs))

/-- C23, evaluated on the code: `init()` puts `numeric_limits<double>::min()`,
the smallest positive double, into `m_max`; after observing agent states that
are all negative `bounds::max()` and `statistics::maximum()` still hold that
positive constant, which is above every state seen, not the largest of them. -/
theorem bounds.maximum_of_negative_states {F : Type} [LinearOrderedField F]
    (dbl_max dbl_min : F) (obs : List (F × F)) (o : bounds F) (s : statistics F)
    (hmin : 0 < dbl_min) (ho : o.mp_agent = true) (hs : s.mp_agent = true)
    (hneg : ∀ vw ∈ obs, vw.1 < 0) :
    ∃ o0 s0, bounds.init dbl_max dbl_min o = some o0 ∧
      statistics.init dbl_max dbl_min s = some s0 ∧
      (bounds.observe_all obs o0).m_max = dbl_min ∧
      (statistics.observe_all obs s0).m_max = dbl_min ∧
      ∀ vw ∈ obs, vw.1 < (bounds.observe_all obs o0).m_max ∧
        vw.1 < (statistics.observe_all obs s0).m_max := by
  have hle : ∀ vw ∈ obs, vw.1 ≤ dbl_min := fun vw h => le_of_lt (lt_trans (hneg vw h) hmin)
  have b1 := bounds.bounds_observe_all_max obs { o with m_min := dbl_max, m_max := dbl_min }
    dbl_min rfl hle
  have b2 := statistics.statistics_observe_all_max obs
    { s with m_expectation := 0, m_variance := 0, m_stderr := 0, m_cum_weight := 0,
             m_min := dbl_max, m_max := dbl_min } dbl_min rfl hle
  refine ⟨_, _, by simp [bounds.init, ho], by simp [statistics.init, hs], b1, b2, ?_⟩
  intro vw h
  rw [b1, b2]
  exact ⟨lt_trans (hneg vw h) hmin, lt_trans (hneg vw h) hmin⟩

/-- Witness of C23: with the limits of an IEEE double, after the states -3 and
-1 both maxima are 2^-1022. -/
theorem bounds.maximum_of_negative_states_witness :
    let o : bounds ℚ := ⟨true, 0, 0⟩
    let s : statistics ℚ := ⟨true, 0, 0, 0, 0, 0, 0⟩
    let obs : List (ℚ × ℚ) := [(-3, 1), (-1, 1)]
    (0 : ℚ) < 1 / 2 ^ 1022 ∧ o.mp_agent = true ∧ s.mp_agent = true ∧
      (∀ vw ∈ obs, vw.1 < 0) ∧
      ∃ o0 s0, bounds.init (2 ^ 1024 - 2 ^ 971) (1 / 2 ^ 1022) o = some o0 ∧
        statistics.init (2 ^ 1024 - 2 ^ 971) (1 / 2 ^ 1022) s = some s0 ∧
        (bounds.observe_all obs o0).m_max = 1 / 2 ^ 1022 ∧
        (statistics.observe_all obs s0).m_max = 1 / 2 ^ 1022 := by
  intro o s obs
  have hmin : (0 : ℚ) < 1 / 2 ^ 1022 := by positivity
  have hneg : ∀ vw ∈ obs, vw.1 < 0 := by
    intro vw h
    simp only [obs, List.mem_cons, List.mem_singleton, List.not_mem_nil, or_false] at h
    rcases h with h | h <;> rw [h] <;> norm_num
  obtain ⟨o0, s0, h1, h2, h3, h4, _⟩ :=
    bounds.maximum_of_negative_states (2 ^ 1024 - 2 ^ 971) (1 / 2 ^ 1022) obs o s hmin rfl rfl
      hneg
  exact ⟨hmin, rfl, rfl, hneg, o0, s0, h1, h2, h3, h4⟩

/-- C26, evaluated on the code: two agents are registered and observed twice
with weight 1, their states being (1, 1) and then (3, 5).  `observe` adds the
weight once per agent, so `end()` divides by 4, not by 2: the expectations come
out as 1 and 3/2 (the weighted means are 2 and 3), `covariance(1, 0)` as 5/2
(the weighted value is 2), and `covariance(0, 1)`, which no loop writes, as 0. -/
theorem cross_moments.weight_counted_per_agent :
    let r : Option (cross_moments ℚ) :=
      (cross_moments.init 2 ⟨[], [], 0, 0⟩).map (fun o =>
        cross_moments.finish 2 (cross_moments.observe [3, 5] 1 (cross_moments.observe [1, 1] 1 o)))
    r.map (fun o => o.m_weight) = some 4 ∧
      r.bind (cross_moments.expectation 0) = some 1 ∧
      r.bind (cross_moments.expectation 1) = some (3 / 2) ∧
      r.bind (cross_moments.covariance 1 0) = some (5 / 2) ∧
      r.bind (cross_moments.covariance 0 1) = some 0 := by
  simp [cross_moments.init, cross_moments.observe, cross_moments.observe_agent,
    vector_add_at, cross_moments.finish, cross_moments.expectation,
    cross_moments.covariance, List.range_succ, List.replicate]
  norm_num

theorem statistics.observe_all_sums {F : Type} [LinearOrderedField F] (obs : List (F × F))
    (o : statistics F) :
    (statistics.observe_all obs o).m_expectation =
        o.m_expectation + (obs.map (fun vw => vw.2 * vw.1)).sum ∧
      (statistics.observe_all obs o).m_variance =
        o.m_variance + (obs.map (fun vw => vw.2 * (vw.1 * vw.1))).sum ∧
      (statistics.observe_all obs o).m_cum_weight =
        o.m_cum_weight + (obs.map Prod.snd).sum ∧
      (statistics.observe_all obs o).m_stderr = o.m_stderr + (obs.length : F) := by
  induction obs generalizing o with
  | nil => simp [statistics.observe_all]
  | cons vw obs ih =>
    obtain ⟨a, b, c, d⟩ := ih (statistics.observe vw.1 vw.2 o)
    simp only [statistics.observe_all, List.foldl_cons] at a b c d ⊢
    rw [a, b, c, d]
    simp only [statistics.observe, List.map_cons, List.sum_cons, List.length_cons, Nat.cast_succ]
    refine ⟨by ring, by ring, by ring, by ring⟩

/-- C22, the claim as stated fails in its last part: after `init()`, the states
0 and 10^-8 observed with weight 1 each, and `end()`, the variance is
2.5 * 10^-17, whose square root is 5 * 10^-9; `standard_deviation()` finds the
variance within `TINY = 10^-16` of zero and returns 0. -/
theorem statistics.standard_deviation_of_small_variance :
    let r : Option (statistics ℝ) :=
      (statistics.init (2 ^ 1024 - 2 ^ 971) (1 / 2 ^ 1022) ⟨true, 0, 0, 0, 0, 0, 0⟩).map
        (fun o0 => statistics.finish Real.sqrt
          (statistics.observe_all [(0, 1), (1 / 10 ^ 8, 1)] o0))
    r.map (fun o => o.m_variance) = some (25 / 10 ^ 18) ∧
      r.map (statistics.standard_deviation Real.sqrt (1 / 10 ^ 16)) = some 0 ∧
      r.map (fun o => Real.sqrt o.m_variance) = some (5 / 10 ^ 9) ∧
      r.map (statistics.standard_deviation Real.sqrt (1 / 10 ^ 16)) ≠
        r.map (fun o => Real.sqrt o.m_variance) := by
  have hv : ((0 : ℝ) + 0 * 0 * 1 + 1 / 10 ^ 8 * (1 / 10 ^ 8) * 1) / (0 + 1 + 1) -
      (0 + 0 * 1 + 1 / 10 ^ 8 * 1) / (0 + 1 + 1) * ((0 + 0 * 1 + 1 / 10 ^ 8 * 1) / (0 + 1 + 1)) =
      25 / 10 ^ 18 := by norm_num
  have hs : Real.sqrt (25 / 10 ^ 18) = 5 / 10 ^ 9 := by
    rw [show (25 : ℝ) / 10 ^ 18 = (5 / 10 ^ 9) ^ 2 by norm_num]
    exact Real.sqrt_sq (by positivity)
  have hz : math.is_zero (1 / 10 ^ 16) ((25 : ℝ) / 10 ^ 18) = true := by
    simp only [math.is_zero, decide_eq_true_eq]
    constructor <;> norm_num
  simp only [statistics.init, Bool.not_true, Bool.false_eq_true, if_false, Option.map_some',
    statistics.observe_all, List.foldl_cons, List.foldl_nil, statistics.observe,
    statistics.finish, statistics.standard_deviation, hv, hs, hz, if_true]
  refine ⟨trivial, trivial, trivial, ?_⟩
  norm_num

/-- C22, amended. After an `init()` that succeeds, observations of states `vi`
with weights `wi` of total `W != 0` (hence at least one), and `end()`, over any ordered
field standing for the reals: expectation = (sum wi*vi)/W, variance =
(sum wi*vi^2)/W - expectation^2, standard_error = sqrt(variance / n) with `n`
the number of observe calls, and `standard_deviation()` is sqrt(variance) when
the variance is at least `TINY` away from zero and 0 when it is within `TINY` of
zero. -/
theorem statistics.moments_of_observations {F : Type} [LinearOrderedField F] (sqrt : F → F)
    (tiny dbl_max dbl_min : F) (obs : List (F × F)) (o : statistics F)
    (ho : o.mp_agent = true) (hW : (obs.map Prod.snd).sum ≠ 0) :
    ∃ o0, statistics.init dbl_max dbl_min o = some o0 ∧
      let r := statistics.finish sqrt (statistics.observe_all obs o0)
      let W := (obs.map Prod.snd).sum
      r.m_expectation = (obs.map (fun vw => vw.2 * vw.1)).sum / W ∧
      r.m_expectation * W = (obs.map (fun vw => vw.2 * vw.1)).sum ∧
      r.m_variance =
        (obs.map (fun vw => vw.2 * (vw.1 * vw.1))).sum / W - r.m_expectation * r.m_expectation ∧
      0 < (obs.length : F) ∧
      r.m_stderr = sqrt (r.m_variance / (obs.length : F)) ∧
      (tiny ≤ r.m_variance ∨ r.m_variance ≤ -tiny →
        statistics.standard_deviation sqrt tiny r = sqrt r.m_variance) ∧
      (r.m_variance < tiny ∧ -tiny < r.m_variance →
        statistics.standard_deviation sqrt tiny r = 0) := by
  refine ⟨{ o with m_expectation := 0, m_variance := 0, m_stderr := 0, m_cum_weight := 0,
                   m_min := dbl_max, m_max := dbl_min }, by simp [statistics.init, ho], ?_⟩
  intro r W
  obtain ⟨a, b, c, d⟩ := statistics.observe_all_sums obs
    { o with m_expectation := 0, m_variance := 0, m_stderr := 0, m_cum_weight := 0,
             m_min := dbl_max, m_max := dbl_min }
  simp only [zero_add] at a b c d
  have e1 : r.m_expectation = (obs.map (fun vw => vw.2 * vw.1)).sum / W := by
    simp only [r, statistics.finish, a, c, W]
  have e2 : r.m_variance =
      (obs.map (fun vw => vw.2 * (vw.1 * vw.1))).sum / W - r.m_expectation * r.m_expectation := by
    simp only [r, statistics.finish, a, b, c, W]
  have e3 : r.m_stderr = sqrt (r.m_variance / (obs.length : F)) := by
    simp only [r, statistics.finish, d]
  have hn : obs ≠ [] := by
    intro hc
    rw [hc] at hW
    exact hW rfl
  have hlen : 0 < (obs.length : F) := by
    have : 0 < obs.length := List.length_pos.2 hn
    exact_mod_cast this
  refine ⟨e1, ?_, e2, hlen, e3, fun h => ?_, fun h => ?_⟩
  · rw [e1]; exact div_mul_cancel₀ _ hW
  · have hz : math.is_zero tiny r.m_variance = false := by
      simp only [math.is_zero, decide_eq_false_iff_not, not_and, not_lt]
      intro hlt
      rcases h with h | h
      · exact absurd hlt (not_lt.2 h)
      · exact h
    simp only [statistics.standard_deviation, hz, Bool.false_eq_true, if_false]
  · have hz : math.is_zero tiny r.m_variance = true := by
      simp only [math.is_zero, decide_eq_true_eq]
      exact h
    simp only [statistics.standard_deviation, hz, if_true]

/-- Witness of C22 (amended): the states 0, 4, 0, 4 with weight 1 each give
expectation 2 and variance 4. -/
theorem statistics.moments_of_observations_witness :
    let o : statistics ℚ := ⟨true, 0, 0, 0, 0, 0, 0⟩
    let obs : List (ℚ × ℚ) := [(0, 1), (4, 1), (0, 1), (4, 1)]
    let sqrt : ℚ → ℚ := fun x => if x = 4 then 2 else if x = 1 then 1 else 0
    o.mp_agent = true ∧ (obs.map Prod.snd).sum ≠ 0 ∧
      ∃ o0, statistics.init (2 ^ 1024 - 2 ^ 971) (1 / 2 ^ 1022) o = some o0 ∧
        (statistics.finish sqrt (statistics.observe_all obs o0)).m_expectation = 2 ∧
        (statistics.finish sqrt (statistics.observe_all obs o0)).m_variance = 4 := by
  intro o obs sqrt
  have hW : (obs.map Prod.snd).sum ≠ 0 := by norm_num [obs]
  obtain ⟨o0, h0, h1, _, h3, _⟩ := statistics.moments_of_observations sqrt (1 / 10 ^ 16)
    (2 ^ 1024 - 2 ^ 971) (1 / 2 ^ 1022) obs o rfl hW
  refine ⟨rfl, hW, o0, h0, ?_, ?_⟩
  · rw [h1]; norm_num [obs]
  · rw [h3, h1]; norm_num [obs]

/-! ## The histogram -/

theorem vector_add_at_length {F : Type} [Add F] [Zero F] (i : Nat) (d : F) (x : List F) :
    (vector_add_at i d x).length = x.length := by
  simp [vector_add_at]

theorem vector_add_at_sum {F : Type} [LinearOrderedField F] (i : Nat) (d : F) (x : List F)
    (hi : i < x.length) : (vector_add_at i d x).sum = x.sum + d := by
  induction x generalizing i with
  | nil => exact absurd hi (Nat.not_lt_zero i)
  | cons a x ih =>
    cases i with
    | zero => simp [vector_add_at]; ring
    | succ j =>
      have hj : j < x.length := Nat.lt_of_succ_lt_succ hi
      have := ih j hj
      simp only [vector_add_at, List.set_cons_succ, List.getD_cons_succ, List.sum_cons] at this ⊢
      rw [this]; ring

theorem histogram.init_loop_terminates {F : Type} [LinearOrderedField F] (bound step : F)
    (n : Nat) (v : F) (bp : List F × List F)
    (hn : bound < v + (n : F) * step) :
    ∃ r, histogram.init_loop bound step (n + 1) v bp = some r := by
  induction n generalizing v bp with
  | zero =>
    have hv : ¬ v ≤ bound := by
      simp only [Nat.cast_zero, zero_mul, add_zero] at hn
      exact not_le.2 hn
    exact ⟨bp, by simp only [histogram.init_loop, if_neg hv]⟩
  | succ n ih =>
    by_cases hv : v ≤ bound
    · obtain ⟨r, hr⟩ := ih (v + step) (bp.1 ++ [v], bp.2 ++ [0]) (by
        have : v + step + (n : F) * step = v + ((n + 1 : Nat) : F) * step := by
          push_cast; ring
        rw [this]; exact hn)
      exact ⟨r, by rw [histogram.init_loop, if_pos hv]; exact hr⟩
    · exact ⟨bp, by rw [histogram.init_loop, if_neg hv]⟩

theorem histogram.init_loop_spec {F : Type} [LinearOrderedField F] (bound step : F)
    (fuel : Nat) (v : F) (bp r : List F × List F)
    (hr : histogram.init_loop bound step fuel v bp = some r) :
    ∃ m : Nat, r.1 = bp.1 ++ (List.range m).map (fun i : Nat => v + (i : F) * step) ∧
      r.2 = bp.2 ++ List.replicate m 0 ∧
      (∀ i : Nat, i < m → v + (i : F) * step ≤ bound) ∧ bound < v + (m : F) * step := by
  induction fuel generalizing v bp with
  | zero => simp [histogram.init_loop] at hr
  | succ fuel ih =>
    by_cases hv : v ≤ bound
    · rw [histogram.init_loop, if_pos hv] at hr
      obtain ⟨m, h1, h2, h3, h4⟩ := ih (v + step) (bp.1 ++ [v], bp.2 ++ [0]) hr
      refine ⟨m + 1, ?_, ?_, ?_, ?_⟩
      · rw [h1, List.range_succ_eq_map, List.map_cons, List.map_map, List.append_assoc]
        simp only [List.singleton_append, Nat.cast_zero, zero_mul, add_zero]
        congr 2
        apply List.map_congr_left
        intro i _
        simp only [Function.comp_apply, Nat.cast_succ]
        ring
      · rw [h2, List.replicate_succ, List.append_assoc]
        rfl
      · intro i hi
        cases i with
        | zero => simpa using hv
        | succ j =>
          have := h3 j (Nat.lt_of_succ_lt_succ hi)
          have e : v + ((j + 1 : Nat) : F) * step = v + step + (j : F) * step := by
            push_cast; ring
          rw [e]; exact this
      · have e : v + ((m + 1 : Nat) : F) * step = v + step + (m : F) * step := by
          push_cast; ring
        rw [e]; exact h4
    · rw [histogram.init_loop, if_neg hv] at hr
      have hb : r = bp := (Option.some.inj hr).symm
      refine ⟨0, ?_, ?_, ?_, ?_⟩
      · simp [hb]
      · simp [hb]
      · intro i hi; exact absurd hi (Nat.not_lt_zero i)
      · simpa using not_le.1 hv

theorem histogram.init_ok_spec {F : Type} [LinearOrderedField F] (tiny : F) (fuel : Nat)
    (h h0 : histogram F) (htiny : 0 ≤ tiny)
    (hi : histogram.init tiny fuel h = Except.ok h0) :
    ∃ m : Nat, 0 < m ∧
      h0.m_bins = (List.range m).map (fun i : Nat => h.m_min + (i : F) * h.m_step) ∧
      h0.m_probs = List.replicate m 0 ∧ h0.m_cum_weight = 0 ∧
      (∀ i : Nat, i < m → h.m_min + (i : F) * h.m_step ≤ h.m_max + tiny) ∧
      h.m_max + tiny < h.m_min + (m : F) * h.m_step ∧
      h0.m_min = h.m_min ∧ h0.m_max = h.m_max ∧ h0.m_step = h.m_step ∧
      h0.m_order = h.m_order ∧ h0.m_pdf = h.m_pdf ∧ h.m_min + tiny < h.m_max := by
  unfold histogram.init at hi
  by_cases hg : h.m_max ≤ h.m_min + tiny
  · rw [if_pos hg] at hi; cases hi
  · rw [if_neg hg] at hi
    cases hl : histogram.init_loop (h.m_max + tiny) h.m_step fuel h.m_min ([], []) with
    | none => rw [hl] at hi; cases hi
    | some bp =>
      rw [hl] at hi
      obtain ⟨m, h1, h2, h3, h4⟩ := histogram.init_loop_spec _ _ fuel _ _ _ hl
      have hh : h0 = { h with m_bins := bp.1, m_probs := bp.2, m_cum_weight := 0 } := by
        injection hi with hi2; exact hi2.symm
      have hm : 0 < m := by
        rcases Nat.eq_zero_or_pos m with h0m | h0m
        · rw [h0m] at h4
          simp only [Nat.cast_zero, zero_mul, add_zero] at h4
          have hg2 := not_le.1 hg
          linarith
        · exact h0m
      refine ⟨m, hm, ?_, ?_, ?_, h3, h4, ?_, ?_, ?_, ?_, ?_, not_le.1 hg⟩
      · rw [hh]; simpa using h1
      · rw [hh]; simpa using h2
      all_goals rw [hh]

theorem histogram.observe_ok {F : Type} [LinearOrderedField F] [FloorRing F] (v weight : F)
    (h : histogram F) (ho : h.m_order = 1 ∨ h.m_order = 2) (hsz : h.m_probs ≠ []) :
    ∃ h1, histogram.observe v weight h = Except.ok h1 ∧
      h1.m_probs.length = h.m_probs.length ∧ h1.m_probs.sum = h.m_probs.sum + weight ∧
      h1.m_cum_weight = h.m_cum_weight + weight ∧ h1.m_order = h.m_order ∧
      h1.m_pdf = h.m_pdf ∧ h1.m_step = h.m_step ∧ h1.m_bins = h.m_bins := by
  have hpos : 0 < h.m_probs.length := List.length_pos.2 hsz
  have hne : h.m_probs.length ≠ 0 := Nat.pos_iff_ne_zero.1 hpos
  have hidx : ∀ k : Nat,
      (if h.m_probs.length ≤ k then h.m_probs.length - 1 else k) < h.m_probs.length := by
    intro k
    split_ifs with hk
    · omega
    · omega
  rcases ho with ho | ho
  · refine ⟨{ h with
        m_cum_weight := h.m_cum_weight + weight,
        m_probs := vector_add_at
          (if h.m_probs.length ≤ (histogram.pos v h).1 then h.m_probs.length - 1
            else (histogram.pos v h).1) weight h.m_probs },
      by simp only [histogram.observe, ho, if_true, if_neg hne], ?_, ?_, rfl, rfl, rfl, rfl, rfl⟩
    · exact vector_add_at_length _ _ _
    · exact vector_add_at_sum _ _ _ (hidx _)
  · have h21 : ¬ ((2 : Nat) = 1) := by decide
    refine ⟨{ h with
        m_cum_weight := h.m_cum_weight + weight,
        m_probs := vector_add_at
          (if h.m_probs.length ≤ (histogram.pos v h).1 + 1 then h.m_probs.length - 1
            else (histogram.pos v h).1 + 1) (weight * (histogram.pos v h).2)
          (vector_add_at
            (if h.m_probs.length ≤ (histogram.pos v h).1 then h.m_probs.length - 1
              else (histogram.pos v h).1) (weight * (1 - (histogram.pos v h).2)) h.m_probs) },
      by simp only [histogram.observe, ho, h21, if_false, if_true, if_neg hne],
      ?_, ?_, rfl, rfl, rfl, rfl, rfl⟩
    · simp only [vector_add_at_length]
    · rw [vector_add_at_sum _ _ _ (by rw [vector_add_at_length]; exact hidx _),
        vector_add_at_sum _ _ _ (hidx _)]
      ring

theorem histogram.observe_all_ok {F : Type} [LinearOrderedField F] [FloorRing F]
    (obs : List (F × F)) (h : histogram F) (ho : h.m_order = 1 ∨ h.m_order = 2)
    (hsz : h.m_probs ≠ []) :
    ∃ h1, histogram.observe_all obs h = Except.ok h1 ∧
      h1.m_probs.length = h.m_probs.length ∧
      h1.m_probs.sum = h.m_probs.sum + (obs.map Prod.snd).sum ∧
      h1.m_cum_weight = h.m_cum_weight + (obs.map Prod.snd).sum ∧
      h1.m_pdf = h.m_pdf ∧ h1.m_step = h.m_step ∧ h1.m_bins = h.m_bins := by
  induction obs generalizing h with
  | nil => exact ⟨h, rfl, rfl, by simp, by simp, rfl, rfl, rfl⟩
  | cons vw obs ih =>
    obtain ⟨h1, e1, e2, e3, e4, e5, e6, e7, e8⟩ := histogram.observe_ok vw.1 vw.2 h ho hsz
    have hsz1 : h1.m_probs ≠ [] := by
      intro hc
      rw [hc, List.length_nil] at e2
      exact hsz (List.length_eq_zero.1 e2.symm)
    obtain ⟨h2, f1, f2, f3, f4, f5, f6, f7⟩ := ih h1 (by rw [e5]; exact ho) hsz1
    refine ⟨h2, by simp only [histogram.observe_all, e1]; exact f1, f2.trans e2, ?_, ?_,
      f5.trans e6, f6.trans e7, f7.trans e8⟩
    · rw [f3, e3, List.map_cons, List.sum_cons]; ring
    · rw [f4, e4, List.map_cons, List.sum_cons]; ring

theorem histogram.init_interval_too_small {F : Type} [LinearOrderedField F] (tiny : F)
    (fuel : Nat) (h : histogram F) (hle : h.m_max ≤ h.m_min + tiny) :
    histogram.init tiny fuel h = Except.error histogram_error.interval_too_small := by
  simp only [histogram.init, if_pos hle]

theorem histogram.run_interval_too_small {F : Type} [LinearOrderedField F] [FloorRing F]
    (tiny : F) (fuel : Nat) (obs : List (F × F)) (h : histogram F)
    (hle : h.m_max ≤ h.m_min + tiny) :
    histogram.run tiny fuel obs h = Except.error histogram_error.interval_too_small := by
  unfold histogram.run
  rw [histogram.init_interval_too_small tiny fuel h hle]

theorem histogram.short_interval_le : (1 : ℚ) / 10 ^ 17 ≤ 0 + 1 / 10 ^ 16 := by norm_num

theorem histogram.short_interval_pos : (0 : ℚ) < 1 / 10 ^ 17 := by positivity

/-- C24, the claim as stated fails for an interval shorter than the tolerance:
with min = 0, max = 10^-17 and step = 1 (so max > min and step > 0) `init()`
throws "Histogram interval is too small", `TINY` being 10^-16, and no frequency
is produced.  The guard comes before the loop, so the bound on the loop plays
no part. -/
theorem histogram.short_interval_counterexample :
    let h : histogram ℚ := ⟨false, 1, 1 / 10 ^ 17, 0, 1, 0, [], []⟩
    h.m_min < h.m_max ∧ 0 < h.m_step ∧
      histogram.init (1 / 10 ^ 16) 5 h = Except.error histogram_error.interval_too_small ∧
      histogram.run (1 / 10 ^ 16) 5 [(0, 1)] h =
        Except.error histogram_error.interval_too_small :=
  ⟨histogram.short_interval_pos, one_pos,
    histogram.init_interval_too_small _ _ _ histogram.short_interval_le,
    histogram.run_interval_too_small _ _ _ _ histogram.short_interval_le⟩

/-- C24, amended. For a histogram with max > min + TINY (TINY >= 0 being the
tolerance of the source, 10^-16) and step > 0, of order 1 or 2, the calls
`init()`, `observe` for any observations whose weights have a non-zero total
(values inside or outside [min, max]) and `end()` all return; the frequencies
then sum to exactly 1 when PDF mode is off, and the frequencies times the bin
width sum to 1 when PDF mode is on.  The loop of `init` ends within `n + 1`
turns as soon as `min + n * step` is above `max + TINY`. -/
theorem histogram.frequencies_sum_to_one {F : Type} [LinearOrderedField F] [FloorRing F]
    (tiny : F) (n : Nat) (obs : List (F × F)) (h : histogram F)
    (htiny : 0 ≤ tiny) (hmax : h.m_min + tiny < h.m_max) (hstep : 0 < h.m_step)
    (hn : h.m_max + tiny < h.m_min + (n : F) * h.m_step)
    (ho : h.m_order = 1 ∨ h.m_order = 2) (hW : (obs.map Prod.snd).sum ≠ 0) :
    ∃ r, histogram.run tiny (n + 1) obs h = Except.ok r ∧
      r.m_probs.length = r.m_bins.length ∧ r.m_probs ≠ [] ∧
      (h.m_pdf = false → r.m_probs.sum = 1) ∧
      (h.m_pdf = true → (r.m_probs.map (fun p => p * h.m_step)).sum = 1) := by
  obtain ⟨bp, hbp⟩ := histogram.init_loop_terminates (h.m_max + tiny) h.m_step n h.m_min
    ([], []) hn
  have hi : histogram.init tiny (n + 1) h =
      Except.ok { h with m_bins := bp.1, m_probs := bp.2, m_cum_weight := 0 } := by
    unfold histogram.init
    rw [if_neg (not_le.2 hmax), hbp]
  obtain ⟨m, hm, i1, i2, i3, _, _, _, _, i8, i9, i10, _⟩ :=
    histogram.init_ok_spec tiny (n + 1) h _ htiny hi
  have hsz : ({ h with m_bins := bp.1, m_probs := bp.2, m_cum_weight := 0 } :
      histogram F).m_probs ≠ [] := by
    rw [i2]
    intro hc
    have := congrArg List.length hc
    simp only [List.length_replicate, List.length_nil] at this
    omega
  obtain ⟨h1, o1, o2, o3, o4, o5, o6, o7⟩ := histogram.observe_all_ok obs _ (by rw [i9]; exact ho)
    hsz
  have hsum0 : ({ h with m_bins := bp.1, m_probs := bp.2, m_cum_weight := 0 } :
      histogram F).m_probs.sum = 0 := by
    rw [i2]; simp
  rw [hsum0, zero_add] at o3
  rw [i3, zero_add] at o4
  have hlen : h1.m_probs.length = h1.m_bins.length := by
    rw [o2, o7, i1, i2]; simp
  have hdiv : ∀ (l : List F) (w : F), (l.map (fun p => p / w)).sum = l.sum / w := by
    intro l w
    induction l with
    | nil => simp
    | cons a l ih => simp only [List.map_cons, List.sum_cons, ih]; ring
  have hmul : ∀ (l : List F) (w : F), (l.map (fun p => p * w)).sum = l.sum * w := by
    intro l w
    induction l with
    | nil => simp
    | cons a l ih => simp only [List.map_cons, List.sum_cons, ih]; ring
  refine ⟨histogram.finish h1, by simp only [histogram.run, hi, o1], ?_, ?_, ?_, ?_⟩
  · simp only [histogram.finish, List.length_map]; exact hlen
  · intro hc
    have := congrArg List.length hc
    simp only [histogram.finish, List.length_map, List.length_nil] at this
    rw [o2] at this
    exact hsz (List.length_eq_zero.1 this)
  · intro hp
    have hp1 : h1.m_pdf = false := by rw [o5, i10]; exact hp
    simp only [histogram.finish, hp1, Bool.false_eq_true, if_false]
    rw [hdiv, o3, o4]
    exact div_self hW
  · intro hp
    have hp1 : h1.m_pdf = true := by rw [o5, i10]; exact hp
    simp only [histogram.finish, hp1, if_true]
    rw [hmul, hdiv, o3, o4, o6, i8]
    field_simp

/-- Witness of C24 (amended): order 2 on [0, 2] with step 1 and the states
9/4, -3 and 1/2 observed with weights 1, 2 and 1. -/
theorem histogram.frequencies_sum_to_one_witness :
    let h : histogram ℚ := ⟨false, 2, 2, 0, 1, 0, [], []⟩
    let obs : List (ℚ × ℚ) := [(9 / 4, 1), (-3, 2), (1 / 2, 1)]
    (0 : ℚ) ≤ 1 / 10 ^ 16 ∧ h.m_min + 1 / 10 ^ 16 < h.m_max ∧ 0 < h.m_step ∧
      h.m_max + 1 / 10 ^ 16 < h.m_min + ((3 : Nat) : ℚ) * h.m_step ∧
      (h.m_order = 1 ∨ h.m_order = 2) ∧ (obs.map Prod.snd).sum ≠ 0 ∧
      ∃ r, histogram.run (1 / 10 ^ 16) (3 + 1) obs h = Except.ok r ∧ r.m_probs.sum = 1 := by
  intro h obs
  have htiny : (0 : ℚ) ≤ 1 / 10 ^ 16 := by positivity
  have hmax : h.m_min + 1 / 10 ^ 16 < h.m_max := by simp only [h]; norm_num
  have hstep : 0 < h.m_step := by simp only [h]; norm_num
  have hn : h.m_max + 1 / 10 ^ 16 < h.m_min + ((3 : Nat) : ℚ) * h.m_step := by
    simp only [h]; norm_num
  have ho : h.m_order = 1 ∨ h.m_order = 2 := Or.inr rfl
  have hW : (obs.map Prod.snd).sum ≠ 0 := by norm_num [obs]
  obtain ⟨r, h1, _, _, h4, _⟩ :=
    histogram.frequencies_sum_to_one (1 / 10 ^ 16) 3 obs h htiny hmax hstep hn ho hW
  exact ⟨htiny, hmax, hstep, hn, ho, hW, r, h1, h4 rfl⟩

theorem histogram.observe_frame {F : Type} [LinearOrderedField F] [FloorRing F] (v weight : F)
    (h h1 : histogram F) (ho : histogram.observe v weight h = Except.ok h1) :
    h1.m_probs.length = h.m_probs.length ∧ h1.m_order = h.m_order ∧ h1.m_min = h.m_min ∧
      h1.m_step = h.m_step ∧ h1.m_bins = h.m_bins := by
  unfold histogram.observe at ho
  by_cases h1o : h.m_order = 1
  · by_cases hsz : h.m_probs.length = 0
    · simp only [h1o, if_true, hsz] at ho; cases ho
    · simp only [h1o, if_true, if_neg hsz] at ho
      injection ho with ho2
      rw [← ho2]
      exact ⟨vector_add_at_length _ _ _, h1o.symm, rfl, rfl, rfl⟩
  · by_cases h2o : h.m_order = 2
    · by_cases hsz : h.m_probs.length = 0
      · simp only [if_neg h1o, h2o, if_true, hsz] at ho; cases ho
      · simp only [if_neg h1o, if_pos h2o, if_neg hsz] at ho
        injection ho with ho2
        rw [← ho2]
        exact ⟨by simp only [vector_add_at_length], rfl, rfl, rfl, rfl⟩
    · simp only [if_neg h1o, if_neg h2o] at ho; cases ho

theorem histogram.observe_all_frame {F : Type} [LinearOrderedField F] [FloorRing F]
    (obs : List (F × F)) (h h1 : histogram F)
    (ho : histogram.observe_all obs h = Except.ok h1) :
    h1.m_probs.length = h.m_probs.length ∧ h1.m_order = h.m_order ∧ h1.m_min = h.m_min ∧
      h1.m_step = h.m_step ∧ h1.m_bins = h.m_bins := by
  induction obs generalizing h with
  | nil =>
    simp only [histogram.observe_all] at ho
    injection ho with ho2
    rw [← ho2]
    exact ⟨rfl, rfl, rfl, rfl, rfl⟩
  | cons vw obs ih =>
    simp only [histogram.observe_all] at ho
    cases hs : histogram.observe vw.1 vw.2 h with
    | error e => rw [hs] at ho; cases ho
    | ok h2 =>
      rw [hs] at ho
      obtain ⟨a1, a2, a3, a4, a5⟩ := histogram.observe_frame vw.1 vw.2 h h2 hs
      obtain ⟨b1, b2, b3, b4, b5⟩ := ih h2 ho
      exact ⟨b1.trans a1, b2.trans a2, b3.trans a3, b4.trans a4, b5.trans a5⟩

/-- C25, the claim as stated fails in both parts.  Order 1 on [0, 2] with step
1: the state 3/4 is nearest to the grid value 1, yet the whole weight goes to
bin 0, the bin below.  Order 2 on [0, 5/2] with step 1 (bins 0, 1, 2): the
state 9/4 lies in [min, max], `k = 2` and `r = 1/4`, there is no bin 3, and the
whole weight goes to bin 2. -/
theorem histogram.nearest_bin_counterexample :
    let r1 : Except histogram_error (histogram ℚ) :=
      histogram.run (1 / 10 ^ 16) 5 [(3 / 4, 1)] ⟨false, 1, 2, 0, 1, 0, [], []⟩
    let r2 : Except histogram_error (histogram ℚ) :=
      histogram.run (1 / 10 ^ 16) 5 [(9 / 4, 1)] ⟨false, 2, 5 / 2, 0, 1, 0, [], []⟩
    |(3 / 4 : ℚ) - 1| < |(3 / 4 : ℚ) - 0| ∧
      r1.map (fun h => (h.m_bins, h.m_probs)) = Except.ok ([0, 1, 2], [1, 0, 0]) ∧
      r2.map (fun h => (h.m_bins, h.m_probs)) = Except.ok ([0, 1, 2], [0, 0, 1]) := by
  have f1 : Nat.floor (3 / 4 : ℚ) = 0 := by
    rw [Nat.floor_eq_zero]; norm_num
  have f2 : Nat.floor (9 / 4 : ℚ) = 2 := by
    rw [Nat.floor_eq_iff (by norm_num)]
    constructor <;> norm_num
  refine ⟨?_, ?_, ?_⟩
  · rw [abs_lt]
    constructor <;> norm_num [abs_of_pos]
  · norm_num [histogram.run, histogram.init, histogram.init_loop, histogram.observe_all,
      histogram.observe, histogram.pos, histogram.finish, vector_add_at, f1, Except.map]
  · norm_num [histogram.run, histogram.init, histogram.init_loop, histogram.observe_all,
      histogram.observe, histogram.pos, histogram.finish, vector_add_at, f2, Except.map]

/-- C25, amended. On a histogram that has been initialised (step > 0) and has
taken any observations, for every state `v` in [min, max], with
`k = floor((v - min)/step)` and `r` the fractional part of `(v - min)/step`:
bin `k` exists and its grid value `min + k*step` is the largest one not above
`v`; an order-1 histogram adds the whole weight to bin `k`; an order-2 histogram
adds the weight times `1 - r` to bin `k` and the weight times `r` to bin `k + 1`
when that bin exists, and to bin `k`, the last bin, when it does not. -/
theorem histogram.weight_goes_to_floor_bin {F : Type} [LinearOrderedField F] [FloorRing F]
    (tiny : F) (fuel : Nat) (obs : List (F × F)) (v weight : F) (h0 h1 h : histogram F)
    (htiny : 0 ≤ tiny) (hstep : 0 < h0.m_step)
    (hinit : histogram.init tiny fuel h0 = Except.ok h1)
    (hobs : histogram.observe_all obs h1 = Except.ok h)
    (hlo : h0.m_min ≤ v) (hhi : v ≤ h0.m_max) :
    let x := (v - h0.m_min) / h0.m_step
    let k := Nat.floor x
    let r := x - (k : F)
    k < h.m_probs.length ∧ h.m_bins[k]? = some (h0.m_min + (k : F) * h0.m_step) ∧
      h0.m_min + (k : F) * h0.m_step ≤ v ∧ v < h0.m_min + ((k : F) + 1) * h0.m_step ∧
      0 ≤ r ∧ r < 1 ∧
      (h.m_order = 1 →
        histogram.observe v weight h = Except.ok { h with
          m_cum_weight := h.m_cum_weight + weight,
          m_probs := vector_add_at k weight h.m_probs }) ∧
      (h.m_order = 2 → k + 1 < h.m_probs.length →
        histogram.observe v weight h = Except.ok { h with
          m_cum_weight := h.m_cum_weight + weight,
          m_probs := vector_add_at (k + 1) (weight * r)
            (vector_add_at k (weight * (1 - r)) h.m_probs) }) ∧
      (h.m_order = 2 → h.m_probs.length ≤ k + 1 →
        histogram.observe v weight h = Except.ok { h with
          m_cum_weight := h.m_cum_weight + weight,
          m_probs := vector_add_at k (weight * r)
            (vector_add_at k (weight * (1 - r)) h.m_probs) }) := by
  intro x k r
  obtain ⟨m, _, i1, i2, _, _, i5, i6, _, i8, _, _, _⟩ :=
    histogram.init_ok_spec tiny fuel h0 h1 htiny hinit
  obtain ⟨a1, _, a3, a4, a5⟩ := histogram.observe_all_frame obs h1 h hobs
  have hx : 0 ≤ x := div_nonneg (sub_nonneg.2 hlo) (le_of_lt hstep)
  have hk1 : (k : F) ≤ x := Nat.floor_le hx
  have hk2 : x < (k : F) + 1 := Nat.lt_floor_add_one x
  have hxv : x * h0.m_step = v - h0.m_min := div_mul_cancel₀ _ (ne_of_gt hstep)
  have b1 : h0.m_min + (k : F) * h0.m_step ≤ v := by
    have := mul_le_mul_of_nonneg_right hk1 (le_of_lt hstep)
    linarith
  have b2 : v < h0.m_min + ((k : F) + 1) * h0.m_step := by
    have := mul_lt_mul_of_pos_right hk2 hstep
    linarith
  have hlen : h.m_probs.length = m := by
    rw [a1, i2, List.length_replicate]
  have hkm : k < m := by
    by_contra hc
    have hmk : (m : F) ≤ (k : F) := by exact_mod_cast not_lt.1 hc
    have := mul_le_mul_of_nonneg_right hmk (le_of_lt hstep)
    linarith
  have hbin : h.m_bins[k]? = some (h0.m_min + (k : F) * h0.m_step) := by
    rw [a5, i1, List.getElem?_map, List.getElem?_range hkm]
    rfl
  have hp : histogram.pos v h = (k, r) := by
    have hx2 : 0 ≤ (v - h.m_min) / h.m_step := by rw [a3, a4, i6, i8]; exact hx
    simp only [histogram.pos, if_pos hx2]
    rw [a3, a4, i6, i8]
  have hne : h.m_probs.length ≠ 0 := by rw [hlen]; omega
  have hnk : ¬ h.m_probs.length ≤ k := by rw [hlen]; omega
  have hr1 : x - (k : F) < 1 := by linarith
  refine ⟨by rw [hlen]; exact hkm, hbin, b1, b2, sub_nonneg.2 hk1, hr1, ?_, ?_, ?_⟩
  · intro ho
    simp only [histogram.observe, hp, ho, if_true, if_neg hne, if_neg hnk]
  · intro ho hk
    have h21 : ¬ ((2 : Nat) = 1) := by decide
    have hnk1 : ¬ h.m_probs.length ≤ k + 1 := not_le.2 hk
    simp only [histogram.observe, hp, ho, h21, if_false, if_true, if_neg hne, if_neg hnk,
      if_neg hnk1]
  · intro ho hk
    have h21 : ¬ ((2 : Nat) = 1) := by decide
    have hs : h.m_probs.length - 1 = k := by rw [hlen] at hk ⊢; omega
    simp only [histogram.observe, hp, ho, h21, if_false, if_true, if_neg hne, if_neg hnk,
      if_pos hk, hs]

theorem histogram.test_init_bins :
    histogram.init (1 / 10 ^ 16) 5 (⟨false, 1, 2, 0, 1, 0, [], []⟩ : histogram ℚ) =
      Except.ok ⟨false, 1, 2, 0, 1, 0, [0, 1, 2], [0, 0, 0]⟩ := by
  norm_num [histogram.init, histogram.init_loop]

theorem histogram.test_floor : Nat.floor (((3 / 4 : ℚ) - 0) / 1) = 0 := by
  rw [Nat.floor_eq_zero]; norm_num

theorem histogram.test_added :
    (Except.ok { (⟨false, 1, 2, 0, 1, 0, [0, 1, 2], [0, 0, 0]⟩ : histogram ℚ) with
      m_cum_weight := 0 + 1, m_probs := vector_add_at 0 1 [0, 0, 0] } :
      Except histogram_error (histogram ℚ)) =
    Except.ok ⟨false, 1, 2, 0, 1, 1, [0, 1, 2], [1, 0, 0]⟩ := by
  norm_num [vector_add_at]

/-- Witness of C25 (amended): order 1 on [0, 2] with step 1, fresh from
`init()`: the state 3/4 with weight 1 is added to bin 0. -/
theorem histogram.weight_goes_to_floor_bin_witness :
    histogram.init (1 / 10 ^ 16) 5 (⟨false, 1, 2, 0, 1, 0, [], []⟩ : histogram ℚ) =
        Except.ok ⟨false, 1, 2, 0, 1, 0, [0, 1, 2], [0, 0, 0]⟩ ∧
      (0 : ℚ) ≤ 1 / 10 ^ 16 ∧ (0 : ℚ) ≤ 3 / 4 ∧ (3 / 4 : ℚ) ≤ 2 ∧
      Nat.floor (((3 / 4 : ℚ) - 0) / 1) = 0 ∧
      histogram.observe (3 / 4) 1 (⟨false, 1, 2, 0, 1, 0, [0, 1, 2], [0, 0, 0]⟩ : histogram ℚ) =
        Except.ok ⟨false, 1, 2, 0, 1, 1, [0, 1, 2], [1, 0, 0]⟩ := by
  have htiny : (0 : ℚ) ≤ 1 / 10 ^ 16 := by positivity
  have hlo : (0 : ℚ) ≤ 3 / 4 := by norm_num
  have hhi : (3 / 4 : ℚ) ≤ 2 := by norm_num
  have T := (histogram.weight_goes_to_floor_bin (1 / 10 ^ 16) 5 [] (3 / 4) 1
    ⟨false, 1, 2, 0, 1, 0, [], []⟩ ⟨false, 1, 2, 0, 1, 0, [0, 1, 2], [0, 0, 0]⟩
    ⟨false, 1, 2, 0, 1, 0, [0, 1, 2], [0, 0, 0]⟩ htiny one_pos histogram.test_init_bins rfl
    hlo hhi).2.2.2.2.2.2.1 rfl
  refine ⟨histogram.test_init_bins, htiny, hlo, hhi, histogram.test_floor, ?_⟩
  rw [T, histogram.test_floor]
  exact histogram.test_added

/-! ## The fixed leg -/

theorem portfolio.aggregate_fold {W F : Type} [LinearOrderedField F]
    (m_names : List (basic_valued_agent W (instrument_state F) × basic_valued_agent W F))
    (w : W) (s0 : instrument_state F) :
    let s := m_names.foldl (fun st nw => st.add ((nw.1.state w).scale (nw.2.state w))) s0
    s.value = s0.value + (m_names.map (fun nw => nw.2.state w * (nw.1.state w).value)).sum ∧
      s.flow = s0.flow + (m_names.map (fun nw => nw.2.state w * (nw.1.state w).flow)).sum ∧
      (s0.matured = false → s.matured = false) := by
  induction m_names generalizing s0 with
  | nil => simp
  | cons nw l ih =>
    obtain ⟨i1, i2, i3⟩ := ih (s0.add ((nw.1.state w).scale (nw.2.state w)))
    simp only [List.foldl_cons, List.map_cons, List.sum_cons]
    refine ⟨?_, ?_, ?_⟩
    · rw [i1]; simp only [instrument_state.add, instrument_state.scale]; ring
    · rw [i2]; simp only [instrument_state.add, instrument_state.scale]; ring
    · intro h0
      apply i3
      simp only [instrument_state.add, h0, Bool.false_and]

theorem portfolio.portfolio_update_impl_spec {W F : Type} [LinearOrderedField F]
    (m_names : List (basic_valued_agent W (instrument_state F) × basic_valued_agent W F))
    (v : portfolio W F) :
    let r := portfolio.update_impl true m_names v
    let net := (m_names.map (fun nw => nw.2.state v.linked * (nw.1.state v.linked).flow)).sum
    r.1.flow = 0 ∧
      r.1.value =
        (m_names.map (fun nw => nw.2.state v.linked * (nw.1.state v.linked).value)).sum +
          r.2.2.cash.self.m_state.value ∧
      r.1.matured = false ∧ r.2.1 = true ∧ r.2.2.linked = v.linked ∧
      r.2.2.cash = cash.transaction net v.cash ∧
      r.2.2.cash.self.m_state.value = v.cash.self.m_state.value + net := by
  intro r net
  obtain ⟨a1, a2, a3⟩ := portfolio.aggregate_fold m_names v.linked instrument_state.clear
  have b1 : (portfolio.aggregate m_names v.linked).value =
      (m_names.map (fun nw => nw.2.state v.linked * (nw.1.state v.linked).value)).sum := by
    rw [portfolio.aggregate, a1]; simp [instrument_state.clear]
  have b2 : (portfolio.aggregate m_names v.linked).flow = net := by
    rw [portfolio.aggregate, a2]; simp [instrument_state.clear, net]
  have b3 : (portfolio.aggregate m_names v.linked).matured = false := a3 rfl
  have hr : r = ({ portfolio.aggregate m_names v.linked with
      flow := 0,
      value := (portfolio.aggregate m_names v.linked).value +
        (cash.transaction (portfolio.aggregate m_names v.linked).flow v.cash).self.m_state.value },
      !(portfolio.aggregate m_names v.linked).matured,
      { v with cash := cash.transaction (portfolio.aggregate m_names v.linked).flow v.cash }) := by
    simp only [r, portfolio.update_impl, if_true]
  rw [hr]
  refine ⟨rfl, ?_, b3, ?_, rfl, ?_, ?_⟩
  · show _ + _ = _ + _
    rw [b1]
  · show (!(portfolio.aggregate m_names v.linked).matured) = true
    rw [b3]; rfl
  · show cash.transaction _ v.cash = _
    rw [b2]
  · show (cash.transaction _ v.cash).self.m_state.value = _
    rw [b2]; rfl

/-- C27. A portfolio with a cash account attached, any instruments and weights
and any connected dependencies.  A `reset()` that takes effect and an
`update(t)`, `t > time`, on the reset portfolio forward the call to the
dependencies, deposit the net instrument flow `sum wi * instrument_i.flow` into
the account, and leave the portfolio with flow 0, not matured, live, and with
value `sum wi * instrument_i.value + cash.value`, the account's value being the
one after that deposit.  After the reset and after each call of any sequence of
updates and resets that follows, the flow is 0 and the value is that sum. -/
theorem portfolio.value_is_weighted_sum {W F : Type} [LinearOrderedField F]
    (m_names : List (basic_valued_agent W (instrument_state F) × basic_valued_agent W F))
    (ds : List (linked_type (portfolio W F))) (t : Int) (os : List op)
    (m : machine (instrument_state F) (portfolio W F)) :
    let h := portfolio.hooks true m_names
    let net := fun (w : W) => (m_names.map (fun nw => nw.2.state w * (nw.1.state w).flow)).sum
    (m.self.m_reset = false →
      let w1 := ds.foldl (fun v d => d.reset v) m.world
      let m1 := basic_agent_impl.reset h ds m
      portfolio.balanced m_names m1 ∧ m1.self.m_live = true ∧ m1.self.m_state.matured = false ∧
        m1.world.linked = w1.linked ∧
        m1.world.cash = cash.transaction (net w1.linked) w1.cash ∧
        portfolio.balanced m_names (basic_agent_impl.run h ds os m1)) ∧
    (m.self.m_live = true → m.self.m_time < t →
      let w1 := ds.foldl (fun v d => d.update t v) m.world
      let m2 := basic_agent_impl.update h ds t m
      portfolio.balanced m_names m2 ∧ m2.self.m_live = true ∧ m2.self.m_state.matured = false ∧
        m2.world.linked = w1.linked ∧
        m2.world.cash = cash.transaction (net w1.linked) w1.cash) := by
  intro h net
  have hupd : ∀ (u : Int) (x : machine (instrument_state F) (portfolio W F)),
      x.self.m_live = true → x.self.m_time < u →
      portfolio.balanced m_names (basic_agent_impl.update h ds u x) ∧
        (basic_agent_impl.update h ds u x).self.m_live = true ∧
        (basic_agent_impl.update h ds u x).self.m_state.matured = false ∧
        (basic_agent_impl.update h ds u x).world.linked =
          (ds.foldl (fun v d => d.update u v) x.world).linked ∧
        (basic_agent_impl.update h ds u x).world.cash =
          cash.transaction (net (ds.foldl (fun v d => d.update u v) x.world).linked)
            (ds.foldl (fun v d => d.update u v) x.world).cash := by
    intro u x hl hu
    have hnu : ¬ u ≤ x.self.m_time := not_le.2 hu
    obtain ⟨s1, s2, s3, s4, s5, s6, _⟩ :=
      portfolio.portfolio_update_impl_spec m_names (ds.foldl (fun v d => d.update u v) x.world)
    have e1 : (basic_agent_impl.update h ds u x).self.m_state =
        (portfolio.update_impl true m_names (ds.foldl (fun v d => d.update u v) x.world)).1 := by
      simp [basic_agent_impl.update, hnu, hl, h, portfolio.hooks, linked_list_policy.update_eq]
    have e2 : (basic_agent_impl.update h ds u x).world =
        (portfolio.update_impl true m_names (ds.foldl (fun v d => d.update u v) x.world)).2.2 := by
      simp [basic_agent_impl.update, hnu, hl, h, portfolio.hooks, linked_list_policy.update_eq]
    have e3 : (basic_agent_impl.update h ds u x).self.m_live =
        (portfolio.update_impl true m_names (ds.foldl (fun v d => d.update u v) x.world)).2.1 := by
      simp [basic_agent_impl.update, hnu, hl, h, portfolio.hooks, linked_list_policy.update_eq]
    refine ⟨⟨?_, ?_⟩, ?_, ?_, ?_, ?_⟩
    · rw [e1]; exact s1
    · rw [e1, e2, s5]; exact s2
    · rw [e3]; exact s4
    · rw [e1]; exact s3
    · rw [e2]; exact s5
    · rw [e2]; exact s6
  have hrun : ∀ (l : List op) (x : machine (instrument_state F) (portfolio W F)),
      portfolio.balanced m_names x → x.self.m_live = true →
      (∀ y : machine (instrument_state F) (portfolio W F), y.self.m_reset = false →
        portfolio.balanced m_names (basic_agent_impl.reset h ds y) ∧
        (basic_agent_impl.reset h ds y).self.m_live = true) →
      portfolio.balanced m_names (basic_agent_impl.run h ds l x) := by
    intro l
    induction l with
    | nil => intro x hb _ _; exact hb
    | cons o l ih =>
      intro x hb hl hres
      cases o with
      | reset =>
        simp only [basic_agent_impl.run, basic_agent_impl.step]
        cases hr : x.self.m_reset
        · exact ih _ (hres x hr).1 (hres x hr).2 hres
        · have he : basic_agent_impl.reset h ds x = x := by simp [basic_agent_impl.reset, hr]
          rw [he]; exact ih x hb hl hres
      | update u =>
        simp only [basic_agent_impl.run, basic_agent_impl.step]
        by_cases hu : u ≤ x.self.m_time
        · rw [basic_agent_impl.update_of_le _ _ u x hu]
          exact ih x hb hl hres
        · obtain ⟨b1, b2, _⟩ := hupd u x hl (not_le.1 hu)
          exact ih _ b1 b2 hres
  have hreset : ∀ y : machine (instrument_state F) (portfolio W F), y.self.m_reset = false →
      portfolio.balanced m_names (basic_agent_impl.reset h ds y) ∧
        (basic_agent_impl.reset h ds y).self.m_live = true ∧
        (basic_agent_impl.reset h ds y).self.m_state.matured = false ∧
        (basic_agent_impl.reset h ds y).world.linked =
          (ds.foldl (fun v d => d.reset v) y.world).linked ∧
        (basic_agent_impl.reset h ds y).world.cash =
          cash.transaction (net (ds.foldl (fun v d => d.reset v) y.world).linked)
            (ds.foldl (fun v d => d.reset v) y.world).cash := by
    intro y hr
    obtain ⟨s1, s2, s3, _, s5, s6, _⟩ :=
      portfolio.portfolio_update_impl_spec m_names (ds.foldl (fun v d => d.reset v) y.world)
    have e1 : (basic_agent_impl.reset h ds y).self.m_state =
        (portfolio.update_impl true m_names (ds.foldl (fun v d => d.reset v) y.world)).1 := by
      simp [basic_agent_impl.reset, hr, h, portfolio.hooks, linked_list_policy.reset_eq]
    have e2 : (basic_agent_impl.reset h ds y).world =
        (portfolio.update_impl true m_names (ds.foldl (fun v d => d.reset v) y.world)).2.2 := by
      simp [basic_agent_impl.reset, hr, h, portfolio.hooks, linked_list_policy.reset_eq]
    have e3 : (basic_agent_impl.reset h ds y).self.m_live = true := by
      simp [basic_agent_impl.reset, hr, h, portfolio.hooks]
    refine ⟨⟨?_, ?_⟩, e3, ?_, ?_, ?_⟩
    · rw [e1]; exact s1
    · rw [e1, e2, s5]; exact s2
    · rw [e1]; exact s3
    · rw [e2]; exact s5
    · rw [e2]; exact s6
  refine ⟨fun hr => ?_, fun hl ht => hupd t m hl ht⟩
  obtain ⟨r1, r2, r3, r4, r5⟩ := hreset m hr
  exact ⟨r1, r2, r3, r4, r5,
    hrun os _ r1 r2 (fun y hy => ⟨(hreset y hy).1, (hreset y hy).2.1⟩)⟩

/-- Witness of C27: two instruments, of value 100 and flow 5 with weight 2 and
of value 50 and flow -1 with weight 3, and an account holding 10: the reset
deposits 7, and the portfolio shows no flow and the value 200 + 150 + 17. -/
theorem portfolio.value_is_weighted_sum_witness :
    let a : basic_valued_agent Unit (instrument_state ℚ) :=
      { init := fun _ _ _ c => c, reset := fun c => c, update := fun _ c => c,
        state := fun _ => ⟨100, 5, false⟩, is_live := fun _ => true }
    let b : basic_valued_agent Unit (instrument_state ℚ) :=
      { init := fun _ _ _ c => c, reset := fun c => c, update := fun _ c => c,
        state := fun _ => ⟨50, -1, true⟩, is_live := fun _ => true }
    let w : ℚ → basic_valued_agent Unit ℚ := fun x =>
      { init := fun _ _ _ c => c, reset := fun c => c, update := fun _ c => c,
        state := fun _ => x, is_live := fun _ => true }
    let m : machine (instrument_state ℚ) (portfolio Unit ℚ) :=
      ⟨basic_agent_impl.ctor ⟨0, 0, false⟩,
        ⟨(), ⟨basic_agent_impl.ctor ⟨10, 0, false⟩, 10, 0, 0, 0, 0⟩⟩, []⟩
    let m1 := basic_agent_impl.reset (portfolio.hooks true [(a, w 2), (b, w 3)]) [] m
    m.self.m_reset = false ∧ m1.self.m_state = ⟨367, 0, false⟩ ∧
      m1.world.cash.self.m_state.value = 17 ∧ m1.world.cash.m_local_flow = -7 := by
  intro a b w m m1
  have hr : m.self.m_reset = false := rfl
  obtain ⟨⟨t1, t2⟩, _, t3, _, t5, _⟩ :=
    (portfolio.value_is_weighted_sum [(a, w 2), (b, w 3)] [] 0 [] m).1 hr
  have hc : m1.world.cash = cash.transaction 7 m.world.cash := by
    rw [t5]
    simp only [List.foldl_nil, List.map_cons, List.map_nil, List.sum_cons, List.sum_nil, a, b, w]
    norm_num
  have hv : m1.world.cash.self.m_state.value = 17 := by
    rw [hc]; simp only [cash.transaction, m, basic_agent_impl.ctor]; norm_num
  have hf : m1.world.cash.m_local_flow = -7 := by
    rw [hc]; simp only [cash.transaction, m]; norm_num
  refine ⟨hr, ?_, hv, hf⟩
  have hval : m1.self.m_state.value = 367 := by
    rw [t2, hv]
    simp only [List.map_cons, List.map_nil, List.sum_cons, List.sum_nil, a, b, w]
    norm_num
  cases hst : m1.self.m_state with
  | mk v f mt =>
    rw [hst] at t1 t3 hval
    simp only at t1 t3 hval
    rw [t1, t3, hval]

/-! ## The flows leg -/

/-- C31, evaluated on the code: `flows::add` has no check, it appends the row
whatever its dates are.  Every call makes the list one row longer; the call with
fix 2, start 1, end 0, pay 1 (end before start and pay before fix) leaves that
row in the list, while `coupon_impl::setup` throws for the same four dates and
for dates that only have the end before the start. -/
theorem flows.add_accepts_any_row :
    (∀ (fix start stop pay : Int) (multiplier margin principal yf : ℚ)
        (leg : List (flows.flow_type ℚ)),
        (flows.add fix start stop pay multiplier margin principal yf leg).length =
          leg.length + 1) ∧
      (flows.add 2 1 0 1 1 0 0 1 ([] : List (flows.flow_type ℚ))).map
        (fun e => (e.fix, e.start, e.stop, e.pay)) = [(2, 1, 0, 1)] ∧
      (∀ c : coupon_impl ℚ, coupon_impl.setup 2 1 0 1 1 c =
        Except.error coupon_error.payment_before_fixing) ∧
      (∀ c : coupon_impl ℚ, coupon_impl.setup 0 1 0 1 1 c =
        Except.error coupon_error.end_before_start) := by
  refine ⟨?_, ?_, ?_, ?_⟩
  · intro fix start stop pay multiplier margin principal yf leg
    simp [flows.add]
  · simp [flows.add]
  · intro c; simp [coupon_impl.setup]
  · intro c; simp [coupon_impl.setup]

/-! ## The yield curves -/

theorem swap_yield_curve.discount_loop_le {C F : Type} (time : Int)
    (m_rates : List (swap_yield_curve.rate_type C F)) :
    swap_yield_curve.discount_loop time m_rates ≤ m_rates.length := by
  induction m_rates with
  | nil => simp [swap_yield_curve.discount_loop]
  | cons r rs ih =>
    simp only [swap_yield_curve.discount_loop, List.length_cons]
    split_ifs <;> omega

/-- C33, evaluated on the code: the loop of `discount` skips the rates whose
tenor is ABOVE the query time.  With the tenors 91 and 182 (rates 1 and 2, ratio
365): at `t = 100` the first tenor is not above `t`, the iterator stays at the
beginning and the method returns 1, where the rate of tenor 91 gives
`exp(-100/365)`; at `t = 50`, below every tenor, the iterator runs to the end
and the method returns `exp(-2 * 50/365)` from the last rate, where the text
gives 1. -/
theorem swap_yield_curve.discount_uses_tenors_above :
    let r1 : basic_valued_agent Unit ℝ :=
      { init := fun _ _ _ c => c, reset := fun c => c, update := fun _ c => c,
        state := fun _ => 1, is_live := fun _ => true }
    let r2 : basic_valued_agent Unit ℝ :=
      { init := fun _ _ _ c => c, reset := fun c => c, update := fun _ c => c,
        state := fun _ => 2, is_live := fun _ => true }
    let m_rates : List (swap_yield_curve.rate_type Unit ℝ) := [⟨r1, 91⟩, ⟨r2, 182⟩]
    swap_yield_curve.discount Real.exp 365 m_rates () 100 = some 1 ∧
      swap_yield_curve.discount_by_largest_tenor_below Real.exp 365 m_rates () 100 =
        Real.exp (-1 * (100 / 365)) ∧
      Real.exp (-1 * (100 / 365)) ≠ 1 ∧
      swap_yield_curve.discount Real.exp 365 m_rates () 50 =
        some (Real.exp (-2 * (50 / 365))) ∧
      swap_yield_curve.discount_by_largest_tenor_below Real.exp 365 m_rates () 50 = 1 ∧
      Real.exp (-2 * (50 / 365)) ≠ 1 := by
  intro r1 r2 m_rates
  refine ⟨?_, ?_, ?_, ?_, ?_, ?_⟩
  · simp [swap_yield_curve.discount, swap_yield_curve.discount_loop, m_rates]
  · simp [swap_yield_curve.discount_by_largest_tenor_below, m_rates, r1, List.filter_cons]
  · rw [Ne, Real.exp_eq_one_iff]; norm_num
  · simp [swap_yield_curve.discount, swap_yield_curve.discount_loop, m_rates, r2,
      year_fraction.yf]
  · simp [swap_yield_curve.discount_by_largest_tenor_below, m_rates, List.filter_cons]
  · rw [Ne, Real.exp_eq_one_iff]; norm_num

theorem swap_yield_curve.discount_loop_all_above {C F : Type} (time : Int)
    (m_rates : List (swap_yield_curve.rate_type C F))
    (hall : ∀ q ∈ m_rates, time < q.tenor) :
    swap_yield_curve.discount_loop time m_rates = m_rates.length := by
  induction m_rates with
  | nil => rfl
  | cons r rs ih =>
    have hr : r.tenor > time := hall r (List.mem_cons_self r rs)
    simp only [swap_yield_curve.discount_loop, if_pos hr, List.length_cons]
    rw [ih (fun q hq => hall q (List.mem_cons_of_mem r hq))]

/-- C34, proved on the code.  With `exp 0 = 1`, at the time `m_time` of the curve
itself `discount(m_time)` is exactly 1 for the constant-rate curve, for the
static curve when `df(m_time) != 0`, for the LIBOR curve with at least one rate,
and for the combined curve whenever it is 1 for both of its curves.  The
swap-rate curve does not measure from its own time: while the time is below
every listed tenor, `discount(m_time)` is `exp(-r * m_time / ratio)` with `r` the
state of the last rate listed. -/
theorem yield_curve.discount_at_own_time (C F : Type) [LinearOrderedField F] [FloorRing F]
    (exp : F → F) (hexp : exp 0 = 1) (m_time : Int) :
    (∀ m_rate : F, constant_rate_yield_curve.discount exp m_rate m_time m_time = 1) ∧
      (∀ df : F → F, df (m_time : F) ≠ 0 →
        static_yield_curve.discount df m_time m_time = 1) ∧
      (∀ (ratio : F) (rate : basic_valued_agent C F) (rest : List (basic_valued_agent C F))
          (m_df : List F) (m_tenor : Int) (c : C),
        libor_yield_curve.discount exp ratio (rate :: rest) m_df m_tenor m_time c m_time =
          some 1) ∧
      (∀ d1 d2 : Int → F, d1 m_time = 1 → d2 m_time = 1 →
        combined_yield_curve.discount d1 d2 m_time = 1) ∧
      (∀ (ratio : F) (m_rates : List (swap_yield_curve.rate_type C F))
          (r : swap_yield_curve.rate_type C F) (c : C),
        (∀ q ∈ m_rates, m_time < q.tenor) → m_rates.getLast? = some r →
        swap_yield_curve.discount exp ratio m_rates c m_time =
          some (exp (-(r.rate.state c) * ((m_time : F) / ratio)))) := by
  refine ⟨?_, ?_, ?_, ?_, ?_⟩
  · intro m_rate
    simp [constant_rate_yield_curve.discount, hexp]
  · intro df hdf
    simp [static_yield_curve.discount, hdf]
  · intro ratio rate rest m_df m_tenor c
    simp [libor_yield_curve.discount, year_fraction.yf, hexp]
  · intro d1 d2 h1 h2
    simp [combined_yield_curve.discount, h1, h2]
  · intro ratio m_rates r c hall hlast
    have hloop := swap_yield_curve.discount_loop_all_above m_time m_rates hall
    have hne : m_rates.length ≠ 0 := by
      intro hz
      rw [List.length_eq_zero.1 hz] at hlast
      cases hlast
    have hget : m_rates[m_rates.length - 1]? = some r := by
      rw [← List.getLast?_eq_getElem?]; exact hlast
    simp only [swap_yield_curve.discount, hloop, if_neg hne, hget, year_fraction.yf]

/-- Witness of C34: over the reals with `exp`, at the curve time 10: a
constant-rate curve of rate 1/20, a static curve with `df(t) = 1/(1 + t)`, a
LIBOR curve with one rate and the combined curve of two curves that give 1 all
give 1; a swap-rate curve with one rate of state 1 and tenor 91 gives
`exp(-10/365)`, which is not 1. -/
theorem yield_curve.discount_at_own_time_witness :
    let rate : basic_valued_agent Unit ℝ :=
      { init := fun _ _ _ c => c, reset := fun c => c, update := fun _ c => c,
        state := fun _ => 1, is_live := fun _ => true }
    Real.exp 0 = 1 ∧
      constant_rate_yield_curve.discount Real.exp (1 / 20) 10 10 = 1 ∧
      static_yield_curve.discount (fun t : ℝ => 1 / (1 + t)) 10 10 = 1 ∧
      libor_yield_curve.discount Real.exp 365 [rate] [1] 91 10 () 10 = some 1 ∧
      combined_yield_curve.discount (fun _ => (1 : ℝ)) (fun _ => 1) 10 = 1 ∧
      swap_yield_curve.discount Real.exp 365 [⟨rate, 91⟩] () 10 =
        some (Real.exp (-1 * (10 / 365))) ∧
      Real.exp (-1 * (10 / 365)) ≠ 1 := by
  intro rate
  obtain ⟨h1, h2, h3, h4, h5⟩ := yield_curve.discount_at_own_time Unit ℝ Real.exp
    Real.exp_zero 10
  refine ⟨Real.exp_zero, h1 _, h2 _ ?_, h3 _ _ _ _ _ _, h4 _ _ rfl rfl, ?_, ?_⟩
  · norm_num
  · rw [h5 365 [⟨rate, 91⟩] ⟨rate, 91⟩ () (by simp) rfl]
    simp [rate]
  · rw [Ne, Real.exp_eq_one_iff]; norm_num

theorem basic_agent_impl.updates_self_of_not_live {S W : Type} (h : agent_hooks S W)
    (ds : List (linked_type W)) (ts : List Int) (m : machine S W)
    (hl : m.self.m_live = false) :
    (basic_agent_impl.updates h ds ts m).self = m.self := by
  induction ts generalizing m with
  | nil => rfl
  | cons t ts ih =>
    simp only [basic_agent_impl.updates]
    rw [ih _ (basic_agent_impl.update_live_false h ds t m hl)]
    exact basic_agent_impl.update_self_of_not_live h ds t m hl

/-- C35, proved on the code: `constant_rate_yield_curve::update_impl` returns
false, so the first update after a reset leaves the curve not live and every
later update returns before it moves the time.  After a reset and the updates
`t1, t2, ..., tn` with `t1` after the start, the time of the curve is `t1`, the
first update time, and `discount(T)` is `exp(-r * (T - t1) / 365)`. -/
theorem constant_rate_yield_curve.time_stops_at_first_update {F : Type}
    [LinearOrderedField F] (exp : F → F) (m_rate : F) (t1 : Int) (ts : List Int)
    (m : machine F Unit) (hr : m.self.m_reset = false) (h1 : m.self.m_start < t1) :
    let m1 := basic_agent_impl.updates constant_rate_yield_curve.hooks [] (t1 :: ts)
      (basic_agent_impl.reset constant_rate_yield_curve.hooks [] m)
    m1.self.m_time = t1 ∧ m1.self.m_live = false ∧
      ∀ T : Int, constant_rate_yield_curve.discount exp m_rate m1.self.m_time T =
        exp (-m_rate * ((T - t1 : Int) : F) / 365) := by
  intro m1
  have hnt : ¬ t1 ≤ m.self.m_start := by omega
  have hu : (basic_agent_impl.update constant_rate_yield_curve.hooks [] t1
      (basic_agent_impl.reset constant_rate_yield_curve.hooks [] m)).self.m_live = false := by
    simp [basic_agent_impl.update, basic_agent_impl.reset, hr, hnt,
      constant_rate_yield_curve.hooks, linked_list_policy.reset, linked_list_policy.update]
  have ht : (basic_agent_impl.update constant_rate_yield_curve.hooks [] t1
      (basic_agent_impl.reset constant_rate_yield_curve.hooks [] m)).self.m_time = t1 := by
    simp [basic_agent_impl.update, basic_agent_impl.reset, hr, hnt,
      constant_rate_yield_curve.hooks, linked_list_policy.reset, linked_list_policy.update]
  have hself : m1.self = (basic_agent_impl.update constant_rate_yield_curve.hooks [] t1
      (basic_agent_impl.reset constant_rate_yield_curve.hooks [] m)).self :=
    basic_agent_impl.updates_self_of_not_live _ _ ts _ hu
  have htime : m1.self.m_time = t1 := by rw [hself]; exact ht
  refine ⟨htime, by rw [hself]; exact hu, ?_⟩
  intro T
  rw [htime]
  rfl

/-- Witness of C35: the curve of rate 1 constructed, initialised over [0, 100],
reset and updated to the times 1 and 2 has time 1, and its `discount(10)` is
`exp(-9/365)`, which is not `exp(-8/365)`. -/
theorem constant_rate_yield_curve.time_stops_at_first_update_witness :
    let m : machine ℝ Unit :=
      basic_agent_impl.init constant_rate_yield_curve.hooks [] 0 100 0
        ⟨basic_agent_impl.ctor 1, (), []⟩
    let m1 := basic_agent_impl.updates constant_rate_yield_curve.hooks [] [1, 2]
      (basic_agent_impl.reset constant_rate_yield_curve.hooks [] m)
    m.self.m_reset = false ∧ m.self.m_start < 1 ∧ m1.self.m_time = 1 ∧
      constant_rate_yield_curve.discount Real.exp 1 m1.self.m_time 10 =
        Real.exp (-1 * ((10 - 1 : Int) : ℝ) / 365) ∧
      Real.exp (-1 * ((10 - 1 : Int) : ℝ) / 365) ≠ Real.exp (-1 * ((10 - 2 : Int) : ℝ) / 365) := by
  intro m m1
  have hr : m.self.m_reset = false := by
    simp [m, basic_agent_impl.init, basic_agent_impl.ctor]
  have h1 : m.self.m_start < 1 := by
    simp [m, basic_agent_impl.init, basic_agent_impl.ctor]
  obtain ⟨a1, _, a3⟩ := constant_rate_yield_curve.time_stops_at_first_update Real.exp 1 1 [2]
    m hr h1
  refine ⟨hr, h1, a1, a3 10, ?_⟩
  intro hc
  have := Real.exp_injective hc
  norm_num at this

/-! ## The LIBOR curve -/

/-- C36, proved on the code: `discount` clamps the index `i1` into `m_rates`
but reads `m_df[i - 1]` with the index `i = floor((T - time)/tenor)` as it is.
With a positive tenor and as many stored discount factors as rates (what
`add_rate` keeps), every maturity `T` with `T - time >= (n + 1) * tenor`, `n`
being the number of rates, makes `i - 1 >= n`: the read of `m_df` is outside the
vector. -/
theorem libor_yield_curve.discount_beyond_grid {C F : Type} [LinearOrderedField F]
    [FloorRing F] (exp : F → F) (ratio : F) (m_rates : List (basic_valued_agent C F))
    (m_df : List F) (m_tenor m_time : Int) (c : C) (time : Int)
    (hlen : m_df.length = m_rates.length) (htenor : 0 < m_tenor)
    (hfar : ((m_rates.length : Int) + 1) * m_tenor ≤ time - m_time) :
    m_rates.length + 1 ≤ Nat.floor (((time - m_time : Int) : F) / (m_tenor : F)) ∧
      libor_yield_curve.discount exp ratio m_rates m_df m_tenor m_time c time = none := by
  have htF : (0 : F) < (m_tenor : F) := by exact_mod_cast htenor
  have hfarF : (((m_rates.length + 1 : Nat) : F)) * (m_tenor : F) ≤
      ((time - m_time : Int) : F) := by
    have : (((m_rates.length : Int) + 1) * m_tenor : Int) ≤ time - m_time := hfar
    have h2 : ((((m_rates.length : Int) + 1) * m_tenor : Int) : F) ≤
        ((time - m_time : Int) : F) := by exact_mod_cast this
    simpa using h2
  have hi : m_rates.length + 1 ≤
      Nat.floor (((time - m_time : Int) : F) / (m_tenor : F)) := by
    apply Nat.le_floor
    rw [le_div_iff₀ htF]
    exact hfarF
  refine ⟨hi, ?_⟩
  have hge : Nat.floor (((time - m_time : Int) : F) / (m_tenor : F)) ≥ m_rates.length := by
    omega
  have hne : Nat.floor (((time - m_time : Int) : F) / (m_tenor : F)) ≠ 0 := by omega
  have hout : m_df[Nat.floor (((time - m_time : Int) : F) / (m_tenor : F)) - 1]? = none := by
    rw [List.getElem?_eq_none_iff]
    omega
  simp only [libor_yield_curve.discount, hge, if_true, if_neg hne, hout]
  cases m_rates[m_rates.length - 1]? <;> rfl

/-- Witness of C36: one rate agent with tenor 91, as `add_rate` leaves the two
vectors, the curve at time 0: the maturity 200 gives `i = 2` and a read of
`m_df[1]` in a vector of one element. -/
theorem libor_yield_curve.discount_beyond_grid_witness :
    let rate : basic_valued_agent Unit ℚ :=
      { init := fun _ _ _ c => c, reset := fun c => c, update := fun _ c => c,
        state := fun _ => 1 / 100, is_live := fun _ => true }
    let v := libor_yield_curve.add_rate rate ([], [])
    v.2.length = v.1.length ∧ (0 : Int) < 91 ∧ ((v.1.length : Int) + 1) * 91 ≤ 200 - 0 ∧
      ∀ exp : ℚ → ℚ, libor_yield_curve.discount exp 365 v.1 v.2 91 0 () 200 = none := by
  intro rate v
  have hlen : v.2.length = v.1.length := by simp [v, libor_yield_curve.add_rate]
  have hfar : ((v.1.length : Int) + 1) * 91 ≤ 200 - 0 := by
    simp [v, libor_yield_curve.add_rate]
  refine ⟨hlen, by decide, hfar, ?_⟩
  intro exp
  exact (libor_yield_curve.discount_beyond_grid exp 365 v.1 v.2 91 0 () 200 hlen (by decide)
    hfar).2

/-! ## Stepping: termination -/

theorem foldl_recording_update (l seen : List Int) :
    l.foldl (fun b u => recording_update u b) seen = seen ++ l := by
  induction l generalizing seen with
  | nil => simp
  | cons a l ih =>
    simp only [List.foldl_cons]
    rw [ih, recording_update, List.append_assoc]
    rfl

theorem simulator.simulate_to_loop_never_ends {A : Type} (update : Int → A → A)
    (step stop : Int) (hstep : step ≤ 0) (fuel : Nat) (t : Int) (a : A) (ht : t ≤ stop) :
    simulator.simulate_to_loop update step stop fuel t a = none := by
  induction fuel generalizing t a with
  | zero => rfl
  | succ fuel ih =>
    simp only [simulator.simulate_to_loop, if_pos ht]
    exact ih (t + step) (update t a) (by omega)

/-- C39. With unbounded integer time: for every step >= 1 and every start and
end, `simulate_to(agent, start, end)` returns (any bound on the number of turns
above the quotient is enough) after exactly `n = max(0, floor((end - start)/step))`
turns of its loop, which call `update(start + k*step)` for `k = 1..n`, followed by
the final `update(end)`; for a step <= 0 with `start + step <= end` the loop has
not ended within any number of turns. -/
theorem simulator.simulate_to_terminates (step start stop : Int) :
    (1 ≤ step → ∀ fuel : Nat, ((stop - start) / step).toNat < fuel →
      let n := ((stop - start) / step).toNat
      let grid := (List.range n).map (fun k : Nat => start + ((k : Int) + 1) * step)
      simulator.simulate_to_loop recording_update step stop fuel (start + step) [] =
          some grid ∧
        simulator.simulate_to recording_update step fuel start stop [] = some (grid ++ [stop]) ∧
        grid.length = n ∧ (n : Int) = max 0 ((stop - start) / step) ∧
        (stop - start) / step * step ≤ stop - start ∧
        stop - start < ((stop - start) / step + 1) * step ∧
        ∀ (A : Type) (update : Int → A → A) (a : A),
          simulator.simulate_to update step fuel start stop a =
            some (update stop (grid.foldl (fun b u => update u b) a))) ∧
    (step ≤ 0 → start + step ≤ stop → ∀ (A : Type) (update : Int → A → A) (a : A) (fuel : Nat),
      simulator.simulate_to_loop update step stop fuel (start + step) a = none ∧
        simulator.simulate_to update step fuel start stop a = none) := by
  refine ⟨?_, ?_⟩
  · intro hstep fuel hfuel n grid
    have hpos : 0 < step := by omega
    have hne : step ≠ 0 := by omega
    have hshift : (stop - (start + step)) / step + 1 = (stop - start) / step := by
      have : stop - (start + step) = (stop - start) + (-1) * step := by ring
      rw [this, Int.add_mul_ediv_right _ _ hne]; ring
    have hf2 : ((stop - (start + step)) / step + 1).toNat < fuel := by rw [hshift]; exact hfuel
    have hloop := simulator.simulate_to_loop_eq recording_update step stop hstep fuel
      (start + step) [] hf2
    rw [hshift, foldl_recording_update, List.nil_append] at hloop
    have hgrid : (List.range ((stop - start) / step).toNat).map
        (fun k : Nat => start + step + (k : Int) * step) = grid := by
      apply List.map_congr_left
      intro k _
      ring
    rw [hgrid] at hloop
    have hsim := simulator.simulate_to_eq recording_update step hstep fuel start stop [] hfuel
    rw [foldl_recording_update, List.nil_append] at hsim
    refine ⟨hloop, ?_, ?_, ?_, Int.ediv_mul_le _ hne, Int.lt_ediv_add_one_mul_self _ hpos, ?_⟩
    · rw [hsim]; rfl
    · simp [grid, n]
    · show (((stop - start) / step).toNat : Int) = max 0 ((stop - start) / step)
      rw [Int.toNat_eq_max, max_comm]
    · intro A update a
      exact simulator.simulate_to_eq update step hstep fuel start stop a hfuel
  · intro hstep hle A update a fuel
    have hl := simulator.simulate_to_loop_never_ends update step stop hstep fuel (start + step)
      a hle
    refine ⟨hl, ?_⟩
    rw [simulator.simulate_to, hl]
    rfl

/-- Witness of C39: step 365 from 0 to 3650 makes ten turns before the final
update; from 10 to 3 with step 2 (end before start) the loop makes none; with
step 0 from 0 to 5 the loop has not ended within any number of turns. -/
theorem simulator.simulate_to_terminates_witness :
    (1 : Int) ≤ 365 ∧ ((3650 - 0 : Int) / 365).toNat < 11 ∧
      simulator.simulate_to recording_update 365 11 0 3650 [] =
        some [365, 730, 1095, 1460, 1825, 2190, 2555, 2920, 3285, 3650, 3650] ∧
      simulator.simulate_to recording_update 2 1 10 3 [] = some [3] ∧
      (0 : Int) ≤ 0 ∧ (0 : Int) + 0 ≤ 5 ∧
      ∀ fuel : Nat, simulator.simulate_to recording_update 0 fuel 0 5 [] = none := by
  have h1 : (1 : Int) ≤ 365 := by decide
  have h2 : ((3650 - 0 : Int) / 365).toNat < 11 := by decide
  have h3 : ((3 - 10 : Int) / 2).toNat < 1 := by decide
  refine ⟨h1, h2, ?_, ?_, le_refl _, by decide, ?_⟩
  · rw [((simulator.simulate_to_terminates 365 0 3650).1 h1 11 h2).2.1]
    decide
  · rw [((simulator.simulate_to_terminates 2 10 3).1 (by decide) 1 h3).2.1]
    decide
  · intro fuel
    exact ((simulator.simulate_to_terminates 0 0 5).2 (le_refl _) (by decide) _
      recording_update [] fuel).2

/-! ## An init issued after a reset -/

/-- C38, the last sentence as stated fails for an agent whose `reset_impl`
assigns the state.  The `time` agent has the default `init_impl`, and its
`reset_impl` sets the state to the time: after `init(0, 10); reset; update(5);
init(0, 10); reset` the saved state is 5, the state reached by `update(5)`, but
the state is 0, the start time that `reset_impl` wrote after the base `reset`
had restored 5. -/
theorem basic_agent_impl.reset_impl_overrides_recaptured_state :
    let m : machine Int Unit := ⟨basic_agent_impl.ctor 0, (), []⟩
    let m3 := basic_agent_impl.update (time_hooks Unit) [] 5
      (basic_agent_impl.reset (time_hooks Unit) []
        (basic_agent_impl.init (time_hooks Unit) [] 0 10 0 m))
    let m5 := basic_agent_impl.reset (time_hooks Unit) []
      (basic_agent_impl.init (time_hooks Unit) [] 0 10 0 m3)
    (∀ (a : basic_agent_impl Int) (w : Unit), ((time_hooks Unit).init_impl a w).1 = a.m_state) ∧
      m3.self.m_state = 5 ∧ m5.self.m_state0 = 5 ∧ m5.self.m_state = 0 := by
  intro m m3 m5
  exact ⟨fun _ _ => rfl, by decide, by decide, by decide⟩

/-- C38, amended. `reset` clears the init-done flag, so the `init` that follows
a reset runs again: it calls `init_impl` and saves the state the agent has then.
For hooks whose `init_impl` leaves the state as it is, after
`init; reset; update(t); init; reset` the saved state is the state reached by
`update(t)`, whatever the first `init` had saved, and the last `reset` hands
that state to `reset_impl`: the state of the agent is what `reset_impl` makes of
it, and it is the state reached by `update(t)` when `reset_impl` leaves the
state as it is. -/
theorem basic_agent_impl.init_after_reset_recaptures {S W : Type} (h : agent_hooks S W)
    (ds : List (linked_type W)) (start stop start2 stop2 : Int) (rnd rnd2 : Nat) (t : Int)
    (m : machine S W) (hm : m.self.m_init = false)
    (hinit : ∀ a w, (h.init_impl a w).1 = a.m_state) :
    let m1 := basic_agent_impl.init h ds start stop rnd m
    let m2 := basic_agent_impl.reset h ds m1
    let m3 := basic_agent_impl.update h ds t m2
    let m4 := basic_agent_impl.init h ds start2 stop2 rnd2 m3
    let m5 := basic_agent_impl.reset h ds m4
    m1.self.m_init = true ∧ m1.self.m_state0 = m.self.m_state ∧
      m2.self.m_init = false ∧ m3.self.m_init = false ∧
      m4.calls.getLast? = some call.init_impl ∧ m4.self.m_state0 = m3.self.m_state ∧
      m5.self.m_state0 = m3.self.m_state ∧
      (∃ (a : basic_agent_impl S) (w : W), a.m_state = m3.self.m_state ∧
        m5.self.m_state = (h.reset_impl a w).1) ∧
      ((∀ a w, (h.reset_impl a w).1 = a.m_state) → m5.self.m_state = m3.self.m_state) := by
  intro m1 m2 m3 m4 m5
  have e1 : m1.self.m_init = true := by simp [m1, basic_agent_impl.init, hm]
  have e1r : m1.self.m_reset = false := by simp [m1, basic_agent_impl.init, hm]
  have e1s : m1.self.m_state0 = m.self.m_state := by
    simp [m1, basic_agent_impl.init, hm, hinit]
  have e2 : m2.self.m_init = false := by simp [m2, basic_agent_impl.reset, e1r]
  have e3 : m3.self.m_init = false := by
    simp only [m3, basic_agent_impl.update]
    split_ifs <;> simp [e2]
  have e4c : m4.calls.getLast? = some call.init_impl := by
    simp [m4, basic_agent_impl.init, e3]
  have e4s : m4.self.m_state0 = m3.self.m_state := by
    simp [m4, basic_agent_impl.init, e3, hinit]
  have e4r : m4.self.m_reset = false := by simp [m4, basic_agent_impl.init, e3]
  have e5s : m5.self.m_state0 = m4.self.m_state0 := by
    simp [m5, basic_agent_impl.reset, e4r]
  have e5 : ∃ (a : basic_agent_impl S) (w : W), a.m_state = m4.self.m_state0 ∧
      m5.self.m_state = (h.reset_impl a w).1 := by
    refine ⟨{ m4.self with m_time := m4.self.m_start, m_state := m4.self.m_state0, m_dtime := 0, m_live := true, m_init := false },
      (linked_list_policy.reset ds 0 (m4.world, m4.calls)).1, rfl, ?_⟩
    simp [m5, basic_agent_impl.reset, e4r]
  obtain ⟨a, w, ha, hw⟩ := e5
  refine ⟨e1, e1s, e2, e3, e4c, e4s, by rw [e5s, e4s], ⟨a, w, ha.trans e4s, hw⟩, ?_⟩
  intro hreset
  rw [hw, hreset, ha, e4s]

/-- Witness of C38 (amended): an agent whose `update_impl` sets the state to the
time and whose other hooks leave the state as it is, constructed with state 0:
after `init(0, 10); reset; update(5); init(0, 10); reset` the saved state and the
state are 5, not the 0 saved by the first `init`. -/
theorem basic_agent_impl.init_after_reset_recaptures_witness :
    let h : agent_hooks Int Unit :=
      { init_impl := fun a w => (a.m_state, w),
        reset_impl := fun a w => (a.m_state, a.m_live, w),
        update_impl := fun a w => (a.m_time, true, w) }
    let m : machine Int Unit := ⟨basic_agent_impl.ctor 0, (), []⟩
    let m3 := basic_agent_impl.update h [] 5
      (basic_agent_impl.reset h [] (basic_agent_impl.init h [] 0 10 0 m))
    let m5 := basic_agent_impl.reset h [] (basic_agent_impl.init h [] 0 10 0 m3)
    m.self.m_init = false ∧ (basic_agent_impl.init h [] 0 10 0 m).self.m_state0 = 0 ∧
      m3.self.m_state = 5 ∧ m5.self.m_state = 5 ∧ m5.self.m_state0 = 5 := by
  intro h m m3 m5
  have hm : m.self.m_init = false := rfl
  have h3 : m3.self.m_state = 5 := by decide
  obtain ⟨_, a2, _, _, _, _, a7, _, a9⟩ := basic_agent_impl.init_after_reset_recaptures h [] 0 10
    0 10 0 0 5 m hm (fun _ _ => rfl)
  exact ⟨hm, a2, h3, (a9 (fun _ _ => rfl)).trans h3, a7.trans h3⟩

/-! ## A portfolio never matures -/

theorem portfolio.update_impl_never_matures {W F : Type} [LinearOrderedField F]
    (has_cash : Bool)
    (m_names : List (basic_valued_agent W (instrument_state F) × basic_valued_agent W F))
    (v : portfolio W F) :
    (portfolio.update_impl has_cash m_names v).1.matured = false ∧
      (portfolio.update_impl has_cash m_names v).2.1 = true := by
  have a3 := (portfolio.aggregate_fold m_names v.linked instrument_state.clear).2.2 rfl
  have hs : (portfolio.aggregate m_names v.linked).matured = false := a3
  cases has_cash <;> simp [portfolio.update_impl, hs]

theorem portfolio.step_never_matures {W F : Type} [LinearOrderedField F] (has_cash : Bool)
    (m_names : List (basic_valued_agent W (instrument_state F) × basic_valued_agent W F))
    (ds : List (linked_type (portfolio W F))) (o : op)
    (m : machine (instrument_state F) (portfolio W F))
    (hl : m.self.m_live = true) (hs : m.self.m_state.matured = false) :
    (basic_agent_impl.step (portfolio.hooks has_cash m_names) ds o m).self.m_live = true ∧
      (basic_agent_impl.step (portfolio.hooks has_cash m_names) ds o m).self.m_state.matured =
        false := by
  cases o with
  | reset =>
    simp only [basic_agent_impl.step, basic_agent_impl.reset]
    split_ifs
    · exact ⟨hl, hs⟩
    · exact ⟨rfl, (portfolio.update_impl_never_matures has_cash m_names _).1⟩
  | update t =>
    simp only [basic_agent_impl.step, basic_agent_impl.update]
    split_ifs with h1 h2
    · exact ⟨hl, hs⟩
    · rw [hl] at h2; exact absurd h2 (by decide)
    · exact ⟨(portfolio.update_impl_never_matures has_cash m_names _).2,
        (portfolio.update_impl_never_matures has_cash m_names _).1⟩

/-- C40. A portfolio, with or without a cash account, over any instruments and
weights and any dependencies: after a reset and after each call of any sequence
of updates and resets that follows, its `matured` flag is false and it is live,
whatever the `matured` flags of its instruments are. -/
theorem portfolio.never_matures {W F : Type} [LinearOrderedField F] (has_cash : Bool)
    (m_names : List (basic_valued_agent W (instrument_state F) × basic_valued_agent W F))
    (ds : List (linked_type (portfolio W F))) (os : List op)
    (m : machine (instrument_state F) (portfolio W F)) (hr : m.self.m_reset = false) :
    let h := portfolio.hooks has_cash m_names
    let m1 := basic_agent_impl.reset h ds m
    m1.self.m_state.matured = false ∧ m1.self.m_live = true ∧
      (basic_agent_impl.run h ds os m1).self.m_state.matured = false ∧
      (basic_agent_impl.run h ds os m1).self.m_live = true := by
  intro h m1
  have hrun : ∀ (os : List op) (x : machine (instrument_state F) (portfolio W F)),
      x.self.m_live = true → x.self.m_state.matured = false →
      (basic_agent_impl.run h ds os x).self.m_live = true ∧
        (basic_agent_impl.run h ds os x).self.m_state.matured = false := by
    intro os
    induction os with
    | nil => intro x hl hs; exact ⟨hl, hs⟩
    | cons o os ih =>
      intro x hl hs
      obtain ⟨s1, s2⟩ := portfolio.step_never_matures has_cash m_names ds o x hl hs
      exact ih _ s1 s2
  have e1 : m1.self.m_live = true := by
    simp [m1, h, basic_agent_impl.reset, hr, portfolio.hooks]
  have e2 : m1.self.m_state.matured = false := by
    simp only [m1, h, basic_agent_impl.reset, hr, portfolio.hooks]
    exact (portfolio.update_impl_never_matures has_cash m_names _).1
  obtain ⟨r1, r2⟩ := hrun os m1 e1 e2
  exact ⟨e2, e1, r2, r1⟩

/-- Witness of C40: a portfolio without cash account holding one instrument
whose state is matured (value 100, flow 5) with weight 1, reset and updated to
the times 1 and 2: it is live and not matured after each call. -/
theorem portfolio.never_matures_witness :
    let inst : basic_valued_agent Unit (instrument_state ℚ) :=
      { init := fun _ _ _ c => c, reset := fun c => c, update := fun _ c => c,
        state := fun _ => ⟨100, 5, true⟩, is_live := fun _ => false }
    let wgt : basic_valued_agent Unit ℚ :=
      { init := fun _ _ _ c => c, reset := fun c => c, update := fun _ c => c,
        state := fun _ => 1, is_live := fun _ => true }
    let m : machine (instrument_state ℚ) (portfolio Unit ℚ) :=
      ⟨basic_agent_impl.ctor ⟨0, 0, false⟩,
        ⟨(), ⟨basic_agent_impl.ctor ⟨0, 0, false⟩, 0, 0, 0, 0, 0⟩⟩, []⟩
    let h := portfolio.hooks false [(inst, wgt)]
    let m1 := basic_agent_impl.reset h [] m
    m.self.m_reset = false ∧ (inst.state ()).matured = true ∧
      m1.self.m_state.matured = false ∧ m1.self.m_live = true ∧
      (basic_agent_impl.run h [] [op.update 1, op.update 2] m1).self.m_state.matured = false ∧
      (basic_agent_impl.run h [] [op.update 1, op.update 2] m1).self.m_live = true := by
  intro inst wgt m h m1
  have hr : m.self.m_reset = false := rfl
  obtain ⟨a1, a2, a3, a4⟩ := portfolio.never_matures false [(inst, wgt)] []
    [op.update 1, op.update 2] m hr
  exact ⟨hr, rfl, a1, a2, a3, a4⟩

/-! ## The forward -/

/-- C32, evaluated on the code: `m_has_started` is cleared by `setup` only, not
by `reset_impl`, so the strike and the notional are taken once, on the first
path, and kept on every later path.  A forward on a security of state 10 with
notional 1, start 0, expiry 5 and a discount factor of 1, whose strike agent
shows 1 on the first path and 2 on the second (its reset moves it): after the
first reset the strike held is 1 and the value is 9; after `update(1)` and the
second reset the strike agent shows 2, the strike held is still 1 and the value
is 9, where the strike of that path gives 8. -/
theorem forward.strike_kept_across_paths :
    let src : forward.sources Nat ℚ :=
      { mp_yc := { init := fun _ _ _ c => c, reset := fun c => c, update := fun _ c => c,
                   discount := fun _ _ => 1 },
        mp_sec := { init := fun _ _ _ c => c, reset := fun c => c, update := fun _ c => c,
                    state := fun _ => 10, is_live := fun _ => true },
        mp_notional := { init := fun _ _ _ c => c, reset := fun c => c, update := fun _ c => c,
                         state := fun _ => 1, is_live := fun _ => true },
        mp_strike := { init := fun _ _ _ c => c, reset := fun c => c + 1,
                       update := fun _ c => c, state := fun c => (c : ℚ),
                       is_live := fun _ => true } }
    let m0 : machine (instrument_state ℚ) (forward Nat ℚ) :=
      ⟨basic_agent_impl.ctor ⟨0, 0, false⟩, forward.setup 0 5 ⟨0, 0, 0, false, 0, 0⟩, []⟩
    let h := forward.hooks src
    let ds := forward.connected src
    let m1 := basic_agent_impl.reset h ds (basic_agent_impl.init h ds 0 100 0 m0)
    let m3 := basic_agent_impl.reset h ds (basic_agent_impl.update h ds 1 m1)
    (src.mp_strike.state m1.world.linked = 1 ∧ m1.world.m_actual_strike = 1 ∧
        m1.self.m_state.value = 9) ∧
      (src.mp_strike.state m3.world.linked = 2 ∧ m3.world.m_has_started = true ∧
        m3.world.m_actual_strike = 1 ∧ m3.self.m_state.value = 9 ∧ m3.self.m_state.flow = 0 ∧
        src.mp_notional.state m3.world.linked *
          (src.mp_sec.state m3.world.linked - src.mp_strike.state m3.world.linked) *
          src.mp_yc.discount m3.world.linked 5 = 8) := by
  intro src m0 h ds m1 m3
  have hm1 : m1 = ⟨{ basic_agent_impl.ctor (⟨0, 0, false⟩ : instrument_state ℚ) with
        m_end := 100, m_reset := true, m_live := true, m_state := ⟨9, 0, false⟩ },
      ⟨1, 0, 5, true, 1, 1⟩,
      [call.linked_init 0 0 100 0, call.linked_init 1 0 100 0, call.linked_init 2 0 100 0,
        call.linked_init 3 0 100 0, call.init_impl, call.linked_reset 0, call.linked_reset 1,
        call.linked_reset 2, call.linked_reset 3, call.reset_impl]⟩ := by
    simp [m1, m0, h, ds, src, basic_agent_impl.reset, basic_agent_impl.init,
      basic_agent_impl.ctor, forward.hooks, forward.connected, forward.update_impl,
      forward.setup, linked_list_policy.init, linked_list_policy.reset]
    norm_num
  have hm3 : m3.world = ⟨2, 0, 5, true, 1, 1⟩ ∧ m3.self.m_state = ⟨9, 0, false⟩ := by
    simp only [m3]
    rw [hm1]
    simp [h, ds, src, basic_agent_impl.reset, basic_agent_impl.update,
      basic_agent_impl.ctor, forward.hooks, forward.connected, forward.update_impl,
      linked_list_policy.update, linked_list_policy.reset]
    norm_num
  refine ⟨?_, ?_⟩
  · rw [hm1]
    simp [src]
  · rw [hm3.1, hm3.2]
    simp [src]
    norm_num

/-! ## The sorted search -/

theorem math.sorted_find_loop_spec {α : Type} [LinearOrder α] (v : List α) (y : α)
    (fuel x0 x1 : Nat) (h01 : x0 < x1) (h1 : x1 < v.length) (hfuel : x1 - x0 ≤ fuel)
    (hlo : ∀ a, v[x0]? = some a → a ≤ y) (hhi : ∀ b, v[x1]? = some b → y < b) :
    ∃ i a b, math.sorted_find_loop v y fuel x0 x1 = some i ∧ x0 ≤ i ∧ i < x1 ∧
      v[i]? = some a ∧ v[i + 1]? = some b ∧ a ≤ y ∧ y < b := by
  induction fuel generalizing x0 x1 with
  | zero => omega
  | succ fuel ih =>
    by_cases hgap : x1 - x0 > 1
    · have hx : (x0 + x1) / 2 < v.length := by omega
      have hget : v[(x0 + x1) / 2]? = some v[(x0 + x1) / 2] := List.getElem?_eq_getElem hx
      by_cases hy : y < v[(x0 + x1) / 2]
      · have hu : math.sorted_find_loop v y (fuel + 1) x0 x1 =
            math.sorted_find_loop v y fuel x0 ((x0 + x1) / 2) := by
          simp only [math.sorted_find_loop, if_pos hgap, hget, if_pos hy]
        obtain ⟨i, a, b, r1, r2, r3, r4⟩ := ih x0 ((x0 + x1) / 2) (by omega) hx (by omega) hlo
          (fun b hb => by rw [hget] at hb; cases hb; exact hy)
        exact ⟨i, a, b, hu.trans r1, r2, by omega, r4⟩
      · have hu : math.sorted_find_loop v y (fuel + 1) x0 x1 =
            math.sorted_find_loop v y fuel ((x0 + x1) / 2) x1 := by
          simp only [math.sorted_find_loop, if_pos hgap, hget, if_neg hy]
        obtain ⟨i, a, b, r1, r2, r3, r4⟩ := ih ((x0 + x1) / 2) x1 (by omega) h1 (by omega)
          (fun a ha => by rw [hget] at ha; cases ha; exact not_lt.1 hy) hhi
        exact ⟨i, a, b, hu.trans r1, by omega, r3, r4⟩
    · have hx1 : x1 = x0 + 1 := by omega
      have h0 : x0 < v.length := by omega
      refine ⟨x0, v[x0], v[x1], ?_, le_refl _, h01, List.getElem?_eq_getElem h0, ?_,
        hlo _ (List.getElem?_eq_getElem h0), hhi _ (List.getElem?_eq_getElem h1)⟩
      · simp only [math.sorted_find_loop, if_neg hgap]
      · rw [← hx1]; exact List.getElem?_eq_getElem h1

theorem sorted_getElem_le {α : Type} [LinearOrder α] (v : List α)
    (hs : List.Pairwise (fun a b => a ≤ b) v) (i j : Nat) (hij : i ≤ j) (a b : α)
    (ha : v[i]? = some a) (hb : v[j]? = some b) : a ≤ b := by
  rcases Nat.lt_or_eq_of_le hij with h | h
  · obtain ⟨hi, hia⟩ := List.getElem?_eq_some_iff.1 ha
    obtain ⟨hj, hjb⟩ := List.getElem?_eq_some_iff.1 hb
    rw [← hia, ← hjb]
    exact (List.pairwise_iff_getElem.1 hs) i j hi hj h
  · subst h
    rw [ha] at hb; cases hb; exact le_refl _

theorem math.sorted_find_cases {α : Type} [LinearOrder α] (fuel : Nat) (v : List α) (y : α)
    (hv : v ≠ []) (hs : List.Pairwise (fun a b => a ≤ b) v) (hfuel : v.length ≤ fuel) :
    ∃ (r : Int) (y0 y1 : α), v[0]? = some y0 ∧ v[v.length - 1]? = some y1 ∧ y0 ≤ y1 ∧
      math.sorted_find fuel v y = some r ∧
      (y < y0 → r = -1) ∧ (y1 ≤ y → r = (v.length : Int) - 1) ∧
      (y0 ≤ y → 0 ≤ r ∧ r < v.length ∧ (∃ a, v[r.toNat]? = some a ∧ a ≤ y) ∧
        ∀ (j : Nat) (b : α), r.toNat < j → v[j]? = some b → y < b) ∧
      (y0 ≤ y → y < y1 → ∃ a b, v[r.toNat]? = some a ∧ v[r.toNat + 1]? = some b ∧
        a ≤ y ∧ y < b) := by
  have hlen : 0 < v.length := List.length_pos.2 hv
  have hl1 : v.length - 1 < v.length := by omega
  have g0 : v[0]? = some v[0] := List.getElem?_eq_getElem hlen
  have g1 : v[v.length - 1]? = some v[v.length - 1] := List.getElem?_eq_getElem hl1
  have h01 : v[0] ≤ v[v.length - 1] :=
    sorted_getElem_le v hs 0 (v.length - 1) (Nat.zero_le _) _ _ g0 g1
  by_cases hlt : y < v[0]
  · refine ⟨-1, v[0], v[v.length - 1], g0, g1, h01, ?_, fun _ => rfl, ?_, ?_, ?_⟩
    · simp only [math.sorted_find, g0, g1, if_pos hlt]
    · intro hc; exact absurd (lt_of_lt_of_le hlt (le_trans h01 hc)) (lt_irrefl _)
    · intro hc; exact absurd (lt_of_lt_of_le hlt hc) (lt_irrefl _)
    · intro hc; exact absurd (lt_of_lt_of_le hlt hc) (lt_irrefl _)
  · by_cases hge : y ≥ v[v.length - 1]
    · refine ⟨(v.length : Int) - 1, v[0], v[v.length - 1], g0, g1, h01, ?_, ?_,
        fun _ => rfl, ?_, ?_⟩
      · simp only [math.sorted_find, g0, g1, if_neg hlt, if_pos hge]
      · intro hc; exact absurd hc hlt
      · intro _
        have hr : ((v.length : Int) - 1).toNat = v.length - 1 := by omega
        refine ⟨by omega, by omega, ⟨v[v.length - 1], by rw [hr]; exact g1, hge⟩, ?_⟩
        intro j b hj hb
        rw [hr] at hj
        have : j < v.length := (List.getElem?_eq_some_iff.1 hb).1
        omega
      · intro _ hc; exact absurd hc (not_lt.2 hge)
    · have hy1 : y < v[v.length - 1] := not_le.1 hge
      have hy0 : v[0] ≤ y := not_lt.1 hlt
      have hpos : 0 < v.length - 1 := by
        by_contra hc
        have hz : v.length - 1 = 0 := by omega
        have : v[v.length - 1] = v[0] := by simp only [hz]
        rw [this] at hy1
        exact absurd (lt_of_le_of_lt hy0 hy1) (lt_irrefl _)
      obtain ⟨i, a, b, r1, _, r3, r4, r5, r6, r7⟩ := math.sorted_find_loop_spec v y fuel 0
        (v.length - 1) hpos hl1 (by omega)
        (fun a ha => by rw [g0] at ha; cases ha; exact hy0)
        (fun b hb => by rw [g1] at hb; cases hb; exact hy1)
      have hr : ((i : Nat) : Int).toNat = i := by omega
      refine ⟨(i : Int), v[0], v[v.length - 1], g0, g1, h01, ?_, ?_, ?_, ?_, ?_⟩
      · simp only [math.sorted_find, g0, g1, if_neg hlt, if_neg hge, r1]
      · intro hc; exact absurd hc hlt
      · intro hc; exact absurd hc (not_le.2 hy1)
      · intro _
        refine ⟨by omega, by omega, ⟨a, by rw [hr]; exact r4, r6⟩, ?_⟩
        intro j c hj hc
        rw [hr] at hj
        exact lt_of_lt_of_le r7 (sorted_getElem_le v hs (i + 1) j (by omega) b c r5 hc)
      · intro _ _
        exact ⟨a, b, by rw [hr]; exact r4, by rw [hr]; exact r5, r6, r7⟩

/-- C37. On a non-empty container sorted in non-decreasing order, `sorted_find`
returns (a bound of `size` turns is enough for its loop): -1 when `y < v[0]`,
`size - 1` when `y >= v[size-1]`, and whenever `y >= v[0]` an index `r` with
`v[r] <= y` and `y < v[j]` for every later index `j`, the largest index whose
element is not above `y`.  A constant interpolator on a table whose nodes are
sorted, asked for an `x` strictly between the first and the last node, reads two
adjacent rows `i` and `i + 1` with `x_i <= x < x_(i+1)` and returns
`interp(x, x_i, x_(i+1), y_i, y_(i+1))`. -/
theorem math.sorted_find_largest_index_below {α : Type} [LinearOrder α] (fuel : Nat)
    (v : List α) (y : α) (hv : v ≠ []) (hs : List.Pairwise (fun a b => a ≤ b) v)
    (hfuel : v.length ≤ fuel) :
    (∃ (r : Int) (y0 y1 : α), v[0]? = some y0 ∧ v[v.length - 1]? = some y1 ∧
      math.sorted_find fuel v y = some r ∧
      (y < y0 → r = -1) ∧ (y1 ≤ y → r = (v.length : Int) - 1) ∧
      (y0 ≤ y → 0 ≤ r ∧ r < v.length ∧ (∃ a, v[r.toNat]? = some a ∧ a ≤ y) ∧
        ∀ (j : Nat) (b : α), r.toNat < j → v[j]? = some b → y < b)) ∧
    (∀ (interp : α → α → α → α → α → α) (mr_table : List (α × α)) (front back : α × α),
      mr_table.map Prod.fst = v → mr_table.head? = some front →
      mr_table.getLast? = some back → front.1 < y → y < back.1 →
      ∃ (i : Nat) (a b : α × α), mr_table[i]? = some a ∧ mr_table[i + 1]? = some b ∧
        a.1 ≤ y ∧ y < b.1 ∧
        constant_interpolator.call interp fuel mr_table y =
          some (interp y a.1 b.1 a.2 b.2)) := by
  obtain ⟨r, y0, y1, c0, c1, _, c3, c4, c5, c6, c7⟩ := math.sorted_find_cases fuel v y hv hs hfuel
  refine ⟨⟨r, y0, y1, c0, c1, c3, c4, c5, c6⟩, ?_⟩
  intro interp mr_table front back htab hfront hback hx1 hx2
  have hf0 : y0 = front.1 := by
    have : v[0]? = some front.1 := by
      rw [← htab, List.getElem?_map, ← List.head?_eq_getElem?, hfront]; rfl
    rw [c0] at this; exact Option.some.inj this
  have hb1 : y1 = back.1 := by
    have : v[v.length - 1]? = some back.1 := by
      rw [← htab, List.getElem?_map, List.length_map, ← List.getLast?_eq_getElem?, hback]; rfl
    rw [c1] at this; exact Option.some.inj this
  obtain ⟨a, b, d1, d2, d3, d4⟩ := c7 (by rw [hf0]; exact le_of_lt hx1) (by rw [hb1]; exact hx2)
  obtain ⟨r0, _, _, _⟩ := c6 (by rw [hf0]; exact le_of_lt hx1)
  rw [← htab, List.getElem?_map] at d1 d2
  obtain ⟨ra, hra, hra1⟩ := Option.map_eq_some'.1 d1
  obtain ⟨rb, hrb, hrb1⟩ := Option.map_eq_some'.1 d2
  refine ⟨r.toNat, ra, rb, hra, hrb, by rw [hra1]; exact d3, by rw [hrb1]; exact d4, ?_⟩
  have hn1 : ¬ (y ≤ front.1) := not_le.2 hx1
  have hn2 : ¬ (y ≥ back.1) := not_le.2 hx2
  have hn3 : ¬ (r < 0) := not_lt.2 r0
  simp only [constant_interpolator.call, hfront, hback, if_neg hn1, if_neg hn2, htab, c3,
    if_neg hn3, hra, hrb]

/-- Witness of C37: the container 1, 3, 5, 7 and the table with those nodes and
the values 10, 30, 50, 70, read by a left-constant interpolator: 4 is found at
index 1, 0 gives -1, 9 gives 3, 5 gives 2, and the interpolator at 4 reads the
rows 1 and 2 and returns 30. -/
theorem math.sorted_find_largest_index_below_witness :
    ([1, 3, 5, 7] : List Int) ≠ [] ∧
      List.Pairwise (fun a b : Int => a ≤ b) [1, 3, 5, 7] ∧
      math.sorted_find 4 ([1, 3, 5, 7] : List Int) 4 = some 1 ∧
      math.sorted_find 4 ([1, 3, 5, 7] : List Int) 0 = some (-1) ∧
      math.sorted_find 4 ([1, 3, 5, 7] : List Int) 9 = some 3 ∧
      math.sorted_find 4 ([1, 3, 5, 7] : List Int) 5 = some 2 ∧
      constant_interpolator.call (fun _ _ _ y0 _ => y0) 4
        ([(1, 10), (3, 30), (5, 50), (7, 70)] : List (Int × Int)) 4 = some 30 ∧
      ∃ (i : Nat) (a b : Int × Int),
        ([(1, 10), (3, 30), (5, 50), (7, 70)] : List (Int × Int))[i]? = some a ∧
        ([(1, 10), (3, 30), (5, 50), (7, 70)] : List (Int × Int))[i + 1]? = some b ∧
        a.1 ≤ 4 ∧ 4 < b.1 ∧
        constant_interpolator.call (fun _ _ _ y0 _ => y0) 4
          ([(1, 10), (3, 30), (5, 50), (7, 70)] : List (Int × Int)) 4 =
            some ((fun (_ _ _ y0 _ : Int) => y0) 4 a.1 b.1 a.2 b.2) := by
  have hv : ([1, 3, 5, 7] : List Int) ≠ [] := by decide
  have hs : List.Pairwise (fun a b : Int => a ≤ b) [1, 3, 5, 7] := by decide
  have T := (math.sorted_find_largest_index_below 4 ([1, 3, 5, 7] : List Int) 4 hv hs
    (by decide)).2 (fun _ _ _ y0 _ => y0) [(1, 10), (3, 30), (5, 50), (7, 70)] (1, 10) (7, 70)
    rfl rfl rfl (by decide) (by decide)
  exact ⟨hv, hs, by decide, by decide, by decide, by decide, by decide, T⟩

end simulate
end fbox
